import Mathlib

/-! # caddy-ip-filter

A shallow embedding of the IP filter middleware (`rule.go`, `ip_filter.go`,
`cloudflare.go`, `caddyfile.go`) together with the parts of the Go standard library
(`strings`, `net`, `net/netip`, `net/textproto`) and of Caddy (`caddyfile.Dispenser`) it
calls, followed by the verified properties of rule matching, list parsing, client-IP
derivation, refresh and configuration.

Conventions of the embedding:
* a Go `string` is the list of its code points (`Str`);
* a Go `[]byte` / `net.IP` is a list of naturals below 256;
* a Go `map[string]struct{}` is a `Finset Str`;
* a function that mutates its receiver returns the new receiver value;
* a Go `error` result is an `Option`/`Except` result.
-/

namespace caddyipfilter

/-- A Go string, as the sequence of its code points. -/
abbrev Str := List Char

/-! ## Package `strings` -/

namespace strings

/-- The predicate `unicode.IsSpace`: the Latin-1 spaces and the code points with the
White_Space property. -/
def isSpace (c : Char) : Bool :=
  let n := c.toNat
  (9 ≤ n && n ≤ 13) || n == 32 || n == 0x85 || n == 0xA0 || n == 0x1680 ||
  (0x2000 ≤ n && n ≤ 0x200A) || n == 0x2028 || n == 0x2029 || n == 0x202F ||
  n == 0x205F || n == 0x3000

/-- The function `strings.TrimSpace`: drop leading and trailing white space. -/
def TrimSpace (s : Str) : Str :=
  (s.dropWhile isSpace).rdropWhile isSpace

/-- The function `strings.Split(s, sep)` for a one-character separator: the pieces of
`s` between the occurrences of `sep`; always at least one piece. -/
def Split (s : Str) (sep : Char) : List Str :=
  match s with
  | [] => [[]]
  | c :: cs =>
    if c = sep then [] :: Split cs sep
    else
      match Split cs sep with
      | [] => [[c]]
      | piece :: pieces => (c :: piece) :: pieces

/-- The split of `s` at the first occurrence of `sep`, as `bytealg.IndexByteString`
followed by the slices `s[:i]` and `s[i+1:]` gives it (`strings.Cut`); `none` when `sep`
does not occur (index `-1`). -/
def Cut (s : Str) (sep : Char) : Option (Str × Str) :=
  match s with
  | [] => none
  | c :: cs =>
    if c = sep then some ([], cs)
    else
      match Cut cs sep with
      | none => none
      | some (before, after) => some (c :: before, after)

/-- The function `strings.HasPrefix`. -/
def HasPrefix (s p : Str) : Bool := p.isPrefixOf s

/-- The function `strings.TrimPrefix`. -/
def TrimPrefix (s p : Str) : Str :=
  if HasPrefix s p then s.drop p.length else s

/-- The function `strings.Join(elems, "\n")`-style joining with a separator string. -/
def Join (elems : List Str) (sep : Str) : Str :=
  match elems with
  | [] => []
  | [e] => e
  | e :: es => e ++ sep ++ Join es sep

end strings

/-! ## Package `net/netip`: address parsing -/

namespace netip

/-- A parsed address: its 16-byte form, whether it was written as IPv4, and its zone. -/
structure Addr where
  bytes : List Nat
  is4 : Bool
  zone : Str
deriving DecidableEq, Repr

/-- The 16-byte form of the IPv4 address with the given four bytes. -/
def v4InV6 (fields : List Nat) : List Nat :=
  [0, 0, 0, 0, 0, 0, 0, 0, 0, 0, 0xff, 0xff] ++ fields

/-- Whether `c` is an ASCII decimal digit. -/
def isDigit (c : Char) : Bool := 48 ≤ c.toNat && c.toNat ≤ 57

/-- The value of a hexadecimal digit, if `c` is one. -/
def hexVal (c : Char) : Option Nat :=
  let n := c.toNat
  if 48 ≤ n && n ≤ 57 then some (n - 48)
  else if 97 ≤ n && n ≤ 102 then some (n - 97 + 10)
  else if 65 ≤ n && n ≤ 70 then some (n - 65 + 10)
  else none

/-- The loop of `parseIPv4Fields`: `first` says that the current character is the first
one, `prevDot` that the previous one was a dot; `fields` holds the `pos` octets
completed so far. -/
def parseIPv4Loop (s : Str) (first prevDot : Bool) (val digLen : Nat)
    (fields : List Nat) : Option (List Nat) :=
  match s with
  | [] => if fields.length < 3 then none else some (fields ++ [val])
  | c :: cs =>
    if isDigit c then
      if digLen == 1 && val == 0 then none
      else
        let val := val * 10 + (c.toNat - 48)
        if val > 255 then none
        else parseIPv4Loop cs false false val (digLen + 1) fields
    else if c = '.' then
      if first || cs.isEmpty || prevDot then none
      else if fields.length == 3 then none
      else parseIPv4Loop cs false true 0 0 (fields ++ [val])
    else none

/-- The function `parseIPv4Fields`: the four octets of a dotted-decimal string. -/
def parseIPv4Fields (s : Str) : Option (List Nat) :=
  parseIPv4Loop s true false 0 0 []

/-- The function `netip.parseIPv4`. -/
def parseIPv4 (s : Str) : Option Addr :=
  match parseIPv4Fields s with
  | some fields => some { bytes := v4InV6 fields, is4 := true, zone := [] }
  | none => none

/-- The inner loop of `parseIPv6` reading one group of hexadecimal digits: returns the
accumulated value, the number of digits read and the rest of the string; fails on a
fifth digit. -/
def hexGroup (s : Str) (off acc : Nat) : Option (Nat × Nat × Str) :=
  match s with
  | [] => some (acc, off, [])
  | c :: cs =>
    match hexVal c with
    | none => some (acc, off, c :: cs)
    | some d =>
      let acc := acc * 16 + d
      if off > 3 then none
      else if acc > 0xFFFF then none
      else hexGroup cs (off + 1) acc

/-- The main loop of `parseIPv6`, run for at most `n` further groups: `ip` holds the
bytes written so far (so the index `i` of the source is `ip.length`), `ellipsis` the
position of the `::` if one was seen. Returns the bytes, the ellipsis and the unread
rest of the string. -/
def parseIPv6Loop (n : Nat) (s : Str) (ip : List Nat) (ellipsis : Option Nat) :
    Option (List Nat × Option Nat × Str) :=
  match n with
  | 0 => some (ip, ellipsis, s)
  | n + 1 =>
    match hexGroup s 0 0 with
    | none => none
    | some (acc, off, rest) =>
      if off == 0 then none
      else if rest.head? = some '.' then
        if ellipsis.isNone && ip.length != 12 then none
        else if ip.length + 4 > 16 then none
        else
          match parseIPv4Fields s with
          | none => none
          | some fields => some (ip ++ fields, ellipsis, [])
      else
        let ip := ip ++ [acc / 256, acc % 256]
        match rest with
        | [] => some (ip, ellipsis, [])
        | c :: rest1 =>
          if c ≠ ':' then none
          else
            match rest1 with
            | [] => none
            | c1 :: rest2 =>
              if c1 = ':' then
                if ellipsis.isSome then none
                else
                  match rest2 with
                  | [] => some (ip, some ip.length, [])
                  | _ => parseIPv6Loop n rest2 ip (some ip.length)
              else parseIPv6Loop n rest1 ip ellipsis

/-- The start of `parseIPv6`: split off the zone at the first `%`; an empty zone is an
error. -/
def splitZone (s0 : Str) : Option (Str × Str) :=
  match strings.Cut s0 '%' with
  | some (s, zone) => if zone.isEmpty then none else some (s, zone)
  | none => some (s0, [])

/-- Whether the text starts with `::` ("might have leading ellipsis"). -/
def leadingEllipsis (s : Str) : Bool :=
  match s with
  | c0 :: c1 :: _ => c0 = ':' && c1 = ':'
  | _ => false

/-- The end of `parseIPv6`, after the loop over the groups left the bytes `ip`, the
position `ellipsis` and the unread text `rest`: the whole text must have been used, and a
short address is completed with zeros at the ellipsis. -/
def parseIPv6Finish (ip : List Nat) (ellipsis : Option Nat) (rest zone : Str) : Option Addr :=
  if !rest.isEmpty then none
  else if ip.length < 16 then
    match ellipsis with
    | none => none
    | some e =>
      some { bytes := ip.take e ++ List.replicate (16 - ip.length) 0 ++ ip.drop e,
             is4 := false, zone := zone }
  else if ellipsis.isSome then none
  else some { bytes := ip, is4 := false, zone := zone }

/-- The rest of `parseIPv6`, on the text `s` before the zone: a leading `::`, the loop
over the groups, and the expansion of the ellipsis. -/
def parseIPv6Body (s zone : Str) : Option Addr :=
  if leadingEllipsis s then
    if (s.drop 2).isEmpty then
      some { bytes := List.replicate 16 0, is4 := false, zone := zone }
    else
      match parseIPv6Loop 8 (s.drop 2) [] (some 0) with
      | none => none
      | some (ip, ellipsis, rest) => parseIPv6Finish ip ellipsis rest zone
  else
    match parseIPv6Loop 8 s [] none with
    | none => none
    | some (ip, ellipsis, rest) => parseIPv6Finish ip ellipsis rest zone

/-- The function `netip.parseIPv6`. -/
def parseIPv6 (s0 : Str) : Option Addr :=
  match splitZone s0 with
  | none => none
  | some (s, zone) => parseIPv6Body s zone

/-- The function `netip.ParseAddr`: the first `.`, `:` or `%` decides the form. -/
def ParseAddr (s : Str) : Option Addr :=
  match s.find? (fun c => c = '.' || c = ':' || c = '%') with
  | some c => if c = '.' then parseIPv4 s else if c = ':' then parseIPv6 s else none
  | none => none

end netip

/-! ## Package `net` -/

namespace net

/-- The type `net.IP`: a slice of bytes, of length 4 or 16 for a valid address. -/
abbrev IP := List Nat

/-- The type `net.IPMask`. -/
abbrev IPMask := List Nat

/-- The type `net.IPNet`: a network number and its mask. -/
structure IPNet where
  IP : IP
  Mask : IPMask
deriving DecidableEq, Repr

/-- A valid IP address value: four or sixteen bytes. -/
def IP.Valid (ip : IP) : Prop :=
  (ip.length = 4 ∨ ip.length = 16) ∧ ∀ b ∈ ip, b < 256

instance (ip : IP) : Decidable (IP.Valid ip) := by
  unfold IP.Valid; infer_instance

/-- The function `net.ParseIP`: the 16-byte form of the address, or `none` (Go: `nil`)
when the text is not an address or carries a zone. -/
def ParseIP (s : Str) : Option IP :=
  match netip.ParseAddr s with
  | some addr => if addr.zone ≠ [] then none else some addr.bytes
  | none => none

/-- The method `IP.To4`: the 4-byte form of an IPv4 address, `none` (Go: `nil`)
otherwise. -/
def IP.To4 (ip : IP) : Option IP :=
  if ip.length = 4 then some ip
  else if ip.length = 16 ∧ (ip.take 10).all (fun b => b == 0) ∧
      ip.get? 10 = some 0xff ∧ ip.get? 11 = some 0xff then some (ip.drop 12)
  else none

/-- The digits of `n` in base 10, as `strconv` prints them. -/
def decString (n : Nat) : Str := Nat.toDigits 10 n

/-- The function `appendHex`: lower-case hexadecimal without leading zeros. -/
def hexString (n : Nat) : Str := Nat.toDigits 16 n

/-- The eight 16-bit groups of a 16-byte address. -/
def v6u16 (ip : IP) (i : Nat) : Nat := ip.getD (2 * i) 0 * 256 + ip.getD (2 * i + 1) 0

/-- The length of the run of zero groups starting at group `i` (first loop of
`appendTo6`), run with `fuel` groups left. -/
def zeroRun (ip : IP) (i fuel : Nat) : Nat :=
  match fuel with
  | 0 => 0
  | fuel + 1 => if v6u16 ip i == 0 then zeroRun ip (i + 1) fuel + 1 else 0

/-- The first loop of `appendTo6`: the longest run of at least two zero groups, the
first one among equals, as `(zeroStart, zeroEnd)`; `(255, 255)` when there is none. -/
def longestZeroRun (ip : IP) (i fuel : Nat) (best : Nat × Nat) : Nat × Nat :=
  match fuel with
  | 0 => best
  | fuel + 1 =>
    let l := zeroRun ip i (8 - i)
    let best := if l ≥ 2 ∧ l > best.2 - best.1 then (i, i + l) else best
    longestZeroRun ip (i + 1) fuel best

/-- The second loop of `appendTo6`, from group `i` with `fuel` groups left. -/
def appendGroups (ip : IP) (zeroStart zeroEnd : Nat) (i fuel : Nat) : Str :=
  match fuel with
  | 0 => []
  | fuel + 1 =>
    if i ≥ 8 then []
    else if i = zeroStart then
      if zeroEnd ≥ 8 then [':', ':']
      else [':', ':'] ++ hexString (v6u16 ip zeroEnd) ++
        appendGroups ip zeroStart zeroEnd (zeroEnd + 1) fuel
    else
      (if i > 0 then [':'] else []) ++ hexString (v6u16 ip i) ++
        appendGroups ip zeroStart zeroEnd (i + 1) fuel

/-- The method `IP.String`: dotted decimal for an IPv4 address (4 bytes, or 16 bytes
with the IPv4-in-IPv6 start), the compressed colon form for any other 16 bytes. -/
def IP.String (ip : IP) : Str :=
  if ip.length = 0 then "<nil>".toList
  else if ip.length ≠ 4 ∧ ip.length ≠ 16 then
    '?' :: (ip.map (fun b => [Nat.digitChar (b / 16), Nat.digitChar (b % 16)])).flatten
  else
    match IP.To4 ip with
    | some p4 => strings.Join (p4.map decString) ['.']
    | none =>
      let z := longestZeroRun ip 0 8 (255, 255)
      appendGroups ip z.1 z.2 0 8

/-- The function `net.CIDRMask`, for `ones ≤ bits` and `bits` 32 or 128: byte `i` of the
mask, with `n` ones left to place. -/
def cidrMaskLoop (l n : Nat) : IPMask :=
  match l with
  | 0 => []
  | l + 1 =>
    if n ≥ 8 then 0xff :: cidrMaskLoop l (n - 8)
    else (0xff - 0xff / 2 ^ n) :: cidrMaskLoop l 0

/-- The function `net.CIDRMask`; `none` is Go's `nil`. -/
def CIDRMask (ones bits : Nat) : Option IPMask :=
  if bits ≠ 32 ∧ bits ≠ 128 then none
  else if ones > bits then none
  else some (cidrMaskLoop (bits / 8) ones)

/-- The method `IP.Mask`; `none` is Go's `nil`. -/
def IP.Mask (ip : IP) (mask : IPMask) : Option IP :=
  let mask := if mask.length = 16 ∧ ip.length = 4 ∧ (mask.take 12).all (fun b => b == 0xff)
    then mask.drop 12 else mask
  let ip := if mask.length = 4 ∧ ip.length = 16 ∧
      ip.take 12 = [0, 0, 0, 0, 0, 0, 0, 0, 0, 0, 0xff, 0xff] then ip.drop 12 else ip
  if ip.length ≠ mask.length then none
  else some (List.zipWith (fun a b => a &&& b) ip mask)

/-- The function `dtoi`: the decimal number at the start of `s` and the number of
digits read; fails when there is no digit or the value reaches `0xFFFFFF`. -/
def dtoiLoop (s : Str) (n i : Nat) : Option (Nat × Nat) :=
  match s with
  | [] => if i = 0 then none else some (n, i)
  | c :: cs =>
    if netip.isDigit c then
      let n := n * 10 + (c.toNat - 48)
      if n ≥ 0xFFFFFF then none else dtoiLoop cs n (i + 1)
    else if i = 0 then none else some (n, i)

/-- The function `dtoi`. -/
def dtoi (s : Str) : Option (Nat × Nat) := dtoiLoop s 0 0

/-- The function `net.ParseCIDR`: the address and the network of `addr/len`. -/
def ParseCIDR (s : Str) : Option (IP × IPNet) :=
  match strings.Cut s '/' with
  | none => none
  | some (addr, mask) =>
    match netip.ParseAddr addr with
    | none => none
    | some ipAddr =>
      if ipAddr.zone ≠ [] then none
      else
        let bitLen := if ipAddr.is4 then 32 else 128
        match dtoi mask with
        | none => none
        | some (n, i) =>
          if i ≠ mask.length ∨ n > bitLen then none
          else
            match CIDRMask n bitLen with
            | none => none
            | some m =>
              match IP.Mask ipAddr.bytes m with
              | none => none
              | some masked => some (ipAddr.bytes, { IP := masked, Mask := m })

/-- The function `networkNumberAndMask`; `none` is Go's `(nil, nil)`. -/
def networkNumberAndMask (n : IPNet) : Option (IP × IPMask) :=
  let ip? : Option IP :=
    match IP.To4 n.IP with
    | some ip => some ip
    | none => if n.IP.length ≠ 16 then none else some n.IP
  match ip? with
  | none => none
  | some ip =>
    if n.Mask.length = 4 then
      if ip.length ≠ 4 then none else some (ip, n.Mask)
    else if n.Mask.length = 16 then
      if ip.length = 4 then some (ip, n.Mask.drop 12) else some (ip, n.Mask)
    else none

/-- The method `IPNet.Contains`. -/
def IPNet.Contains (n : IPNet) (ip : net.IP) : Bool :=
  let ip := match IP.To4 ip with
    | some x => x
    | none => ip
  match networkNumberAndMask n with
  | none => ip.length == 0
  | some (nn, m) =>
    if ip.length ≠ nn.length then false
    else (List.zipWith (fun a b => a &&& b) nn m) == (List.zipWith (fun a b => a &&& b) ip m)

/-- The last index of `c` in `s` (`bytealg.LastIndexByteString`). -/
def lastIndexByte (s : Str) (c : Char) : Option Nat :=
  if s.contains c then some (s.length - 1 - s.reverse.indexOf c) else none

/-- The first index of `c` in `s` (`bytealg.IndexByteString`). -/
def indexByte (s : Str) (c : Char) : Option Nat :=
  if s.contains c then some (s.indexOf c) else none

/-- The function `net.SplitHostPort`: host and port of `host:port`, `[host]:port`. -/
def SplitHostPort (hostport : Str) : Option (Str × Str) :=
  match lastIndexByte hostport ':' with
  | none => none
  | some i =>
    let bracket : Option (Str × Nat × Nat) :=
      if hostport.head? = some '[' then
        match indexByte hostport ']' with
        | none => none
        | some e =>
          if e + 1 = hostport.length then none
          else if e + 1 = i then some ((hostport.take e).drop 1, 1, e + 1)
          else none
      else
        let host := hostport.take i
        if host.contains ':' then none else some (host, 0, 0)
    match bracket with
    | none => none
    | some (host, j, k) =>
      if (hostport.drop j).contains '[' then none
      else if (hostport.drop k).contains ']' then none
      else some (host, hostport.drop (i + 1))

end net

/-! ## Package `net/textproto`: header access -/

namespace textproto

/-- The predicate `validHeaderFieldByte`: the token characters of RFC 7230. -/
def validHeaderFieldByte (c : Char) : Bool :=
  let n := c.toNat
  (48 ≤ n && n ≤ 57) || (65 ≤ n && n ≤ 90) || (97 ≤ n && n ≤ 122) ||
  [33, 35, 36, 37, 38, 39, 42, 43, 45, 46, 94, 95, 96, 124, 126].contains n

/-- The case-mapping loop of `canonicalMIMEHeaderKey`: upper case at the start and after
each dash, lower case elsewhere. -/
def canonicalLoop (s : Str) (upper : Bool) : Str :=
  match s with
  | [] => []
  | c :: cs =>
    let c := if upper && 97 ≤ c.toNat && c.toNat ≤ 122 then Char.ofNat (c.toNat - 32)
      else if !upper && 65 ≤ c.toNat && c.toNat ≤ 90 then Char.ofNat (c.toNat + 32)
      else c
    c :: canonicalLoop cs (c = '-')

/-- The function `textproto.CanonicalMIMEHeaderKey`: a key holding a byte that is not a
token character is returned unchanged. -/
def CanonicalMIMEHeaderKey (s : Str) : Str :=
  if s.all validHeaderFieldByte then canonicalLoop s true else s

/-- The type `http.Header`: the map from canonical keys to their values. -/
abbrev Header := List (Str × List Str)

/-- The method `Header.Get`: the first value of the canonical form of `key`, or the
empty string. -/
def Header.Get (h : Header) (key : Str) : Str :=
  match h.lookup (CanonicalMIMEHeaderKey key) with
  | some (v :: _) => v
  | _ => []

end textproto

/-! ## `rule.go` -/

/-- The constant `ruleALl`. -/
def ruleALl : Str := "all".toList

/-- The constant `cloudflareAPI`. -/
def cloudflareAPI : Str := "https://api.cloudflare.com/client/v4/ips".toList

/-- The constant `cloudflareKey`. -/
def cloudflareKey : Str := "cloudflare".toList

/-- A Go `error` value. -/
abbrev Error := String

/-- The type `CloudflareResult`, with the fields the code reads. -/
structure CloudflareResult where
  Ipv4Cidrs : List Str
  Ipv6Cidrs : List Str
  Success : Bool

/-- One resolution of the outside world during a refresh: what an HTTP GET of a URL
returns (`fetch`), what reading a file returns (`os.ReadFile`), and what
`json.Unmarshal` makes of a response body. -/
structure World where
  fetch : Str → Except Error Str
  ReadFile : Str → Except Error Str
  Unmarshal : Str → Except Error CloudflareResult

/-- The type `Rule`: the verdict flag, the sources, and the active snapshot. -/
structure Rule where
  Allow : Bool
  Args : List Str
  ips : Finset Str
  networks : List net.IPNet
deriving DecidableEq

/-- The function `NewRule`. -/
def NewRule (allow : Bool) (args : List Str) : Rule :=
  { Allow := allow, Args := args, ips := ∅, networks := [] }

/-- The loop over `r.networks` in `Rule.Match`. -/
def matchNetworks (networks : List net.IPNet) (ip : net.IP) : Bool :=
  match networks with
  | [] => false
  | network :: rest => if network.Contains ip then true else matchNetworks rest ip

/-- The method `Rule.Match`. -/
def Rule.Match (r : Rule) (ip : net.IP) : Bool :=
  if net.IP.String ip ∈ r.ips then true else matchNetworks r.networks ip

/-- The loop of `parseIPList`, with its three accumulators. -/
def parseIPListLoop (lines : List Str) (seen ips : Finset Str) (networks : List net.IPNet) :
    Finset Str × List net.IPNet :=
  match lines with
  | [] => (ips, networks)
  | line :: rest =>
    let line := strings.TrimSpace line
    if line = [] then parseIPListLoop rest seen ips networks
    else if line ∈ seen then parseIPListLoop rest seen ips networks
    else
      let seen := insert line seen
      match net.ParseCIDR line with
      | some (_, network) => parseIPListLoop rest seen ips (networks ++ [network])
      | none =>
        match net.ParseIP line with
        | some ip => parseIPListLoop rest seen (insert (net.IP.String ip) ips) networks
        | none => parseIPListLoop rest seen ips networks

/-- The function `parseIPList`. -/
def parseIPList (lines : List Str) : Finset Str × List net.IPNet :=
  parseIPListLoop lines ∅ ∅ []

/-- The function `fetchIPListFromCloudflare` (`cloudflare.go`). -/
def fetchIPListFromCloudflare (w : World) : Except Error Str :=
  match w.fetch cloudflareAPI with
  | .error err => .error err
  | .ok b =>
    match w.Unmarshal b with
    | .error err => .error err
    | .ok res =>
      if !res.Success then .error "fetch ip list from cloudflare: %!w(<nil>)"
      else .ok (strings.Join res.Ipv4Cidrs [Char.ofNat 10] ++ [Char.ofNat 10] ++
        strings.Join res.Ipv6Cidrs [Char.ofNat 10])

/-- The first part of `loadIPList`: the text a source resolves to. -/
def loadContent (w : World) (arg : Str) : Except Error Str :=
  if strings.HasPrefix arg "http://".toList || strings.HasPrefix arg "https://".toList then
    w.fetch arg
  else if strings.HasPrefix arg "file://".toList then
    w.ReadFile (strings.TrimPrefix arg "file://".toList)
  else if arg = cloudflareKey then
    fetchIPListFromCloudflare w
  else if arg = ruleALl then
    .ok ("0.0.0.0/0".toList ++ [Char.ofNat 10] ++ "::/0".toList)
  else
    .ok arg

/-- The function `loadIPList`. -/
def loadIPList (w : World) (arg : Str) : Except Error (Finset Str × List net.IPNet) :=
  match loadContent w arg with
  | .error err => .error err
  | .ok content => .ok (parseIPList (strings.Split content (Char.ofNat 10)))

/-- The loop over `r.Args` in `Rule.Fetch`, with its two accumulators. -/
def fetchLoop (w : World) (args : List Str) (newIPs : Finset Str)
    (newNetworks : List net.IPNet) : Except Error (Finset Str × List net.IPNet) :=
  match args with
  | [] => .ok (newIPs, newNetworks)
  | arg :: rest =>
    match loadIPList w arg with
    | .error err => .error err
    | .ok (ips, networks) => fetchLoop w rest (newIPs ∪ ips) (newNetworks ++ networks)

/-- The method `Rule.Fetch`: the rule after the call and the error returned. -/
def Rule.Fetch (w : World) (r : Rule) : Rule × Option Error :=
  match fetchLoop w r.Args ∅ [] with
  | .error err => (r, some err)
  | .ok (newIPs, newNetworks) => ({ r with ips := newIPs, networks := newNetworks }, none)

/-! ## `ip_filter.go` -/

/-- The type `IPFilter`, without its context and logger. -/
structure IPFilter where
  Rules : List Rule
  Interval : Int
  Timeout : Int
  TrustXForwardedFor : Bool
  TrustXRealIP : Bool

/-- The fields of `http.Request` the filter reads. -/
structure Request where
  Header : textproto.Header
  RemoteAddr : Str

/-- The method `IPFilter.getRealIP`. -/
def IPFilter.getRealIP (filter : IPFilter) (r : Request) : Str :=
  let forwarded : Option Str :=
    if filter.TrustXForwardedFor then
      let xff := textproto.Header.Get r.Header "X-Forwarded-For".toList
      if xff ≠ [] then
        match strings.Split xff ',' with
        | first :: _ => some (strings.TrimSpace first)
        | [] => none
      else none
    else none
  match forwarded with
  | some ip => ip
  | none =>
    let real : Option Str :=
      if filter.TrustXRealIP then
        let xri := textproto.Header.Get r.Header "X-Real-IP".toList
        if xri ≠ [] then some xri else none
      else none
    match real with
    | some ip => ip
    | none =>
      match net.SplitHostPort r.RemoteAddr with
      | some (ip, _) => ip
      | none => []

/-- What `ServeHTTP` does with a request: answer with an HTTP error status itself, or
hand the request to the next handler. -/
inductive Outcome where
  | httpError (code : Nat)
  | next
deriving DecidableEq, Repr

/-- The result of `ServeHTTP` together with the rules whose `Match` it called, in call
order. -/
structure Served where
  outcome : Outcome
  consulted : List Rule
deriving DecidableEq

/-- The loop over `filter.Rules` in `ServeHTTP`. -/
def serveRules (rules : List Rule) (ip : net.IP) : Served :=
  match rules with
  | [] => { outcome := .next, consulted := [] }
  | rule :: rest =>
    if !rule.Match ip then
      let s := serveRules rest ip
      { s with consulted := rule :: s.consulted }
    else if rule.Allow then { outcome := .next, consulted := [rule] }
    else { outcome := .httpError 403, consulted := [rule] }

/-- The method `IPFilter.ServeHTTP`. -/
def IPFilter.ServeHTTP (filter : IPFilter) (r : Request) : Served :=
  let clientIPStr := filter.getRealIP r
  match net.ParseIP clientIPStr with
  | none => { outcome := .httpError 400, consulted := [] }
  | some ip => serveRules filter.Rules ip

/-! ## Examples used as concrete inputs -/

/-- The filter of `TestServeHTTP`: `deny 1.1.1.1 192.168.1.0/24`, then `allow 2.2.2.2`. -/
def testFilter : IPFilter :=
  { Rules :=
      [ { Allow := false, Args := [],
          ips := (parseIPList ["1.1.1.1".toList, "192.168.1.0/24".toList]).1,
          networks := (parseIPList ["1.1.1.1".toList, "192.168.1.0/24".toList]).2 },
        { Allow := true, Args := [],
          ips := (parseIPList ["2.2.2.2".toList]).1,
          networks := (parseIPList ["2.2.2.2".toList]).2 } ],
    Interval := 0, Timeout := 0, TrustXForwardedFor := false, TrustXRealIP := false }

/-- A request without headers from the given remote address. -/
def requestFrom (remote : String) : Request :=
  { Header := [], RemoteAddr := remote.toList }

/-- The request of `TestGetRealIP`: remote address `1.1.1.1:1234` with forged
`X-Forwarded-For` and `X-Real-Ip` headers. -/
def forgedRequest : Request :=
  { Header := [("X-Forwarded-For".toList, ["2.2.2.2, 3.3.3.3".toList]),
               ("X-Real-Ip".toList, ["4.4.4.4".toList])],
    RemoteAddr := "1.1.1.1:1234".toList }

/-- The filter of `TestGetRealIP`: both headers trusted, no rule. -/
def trustingFilter : IPFilter :=
  { Rules := [], Interval := 0, Timeout := 0, TrustXForwardedFor := true, TrustXRealIP := true }

/-- A filter that trusts `X-Real-IP` only, with no rule. -/
def realIPFilter : IPFilter :=
  { Rules := [], Interval := 0, Timeout := 0, TrustXForwardedFor := false, TrustXRealIP := true }

/-- A request whose `X-Real-Ip` header is present with the empty string as its value. -/
def emptyRealIPRequest : Request :=
  { Header := [("X-Real-Ip".toList, [[]])], RemoteAddr := "1.1.1.1:1234".toList }

/-- A request whose `X-Real-Ip` header is `4.4.4.4`. -/
def realIPRequest : Request :=
  { Header := [("X-Real-Ip".toList, ["4.4.4.4".toList])], RemoteAddr := "1.1.1.1:1234".toList }

/-- The exact-IP set a source contributes in world `w` (empty when it fails to load). -/
def sourceIPs (w : World) (arg : Str) : Finset Str :=
  match loadIPList w arg with
  | .ok p => p.1
  | .error _ => ∅

/-- The networks a source contributes in world `w` (none when it fails to load). -/
def sourceNetworks (w : World) (arg : Str) : List net.IPNet :=
  match loadIPList w arg with
  | .ok p => p.2
  | .error _ => []

/-- The world of `TestRule_Fetch`: the file `test_list.txt` and one HTTP endpoint exist,
every other file or URL fails. -/
def testWorld : World :=
  { fetch := fun url =>
      if url = "http://127.0.0.1:8080".toList then
        .ok ("3.3.3.3".toList ++ [Char.ofNat 10] ++ "4.4.4.0/24".toList ++ [Char.ofNat 10])
      else .error "connection refused",
    ReadFile := fun name =>
      if name = "test_list.txt".toList then
        .ok ("1.1.1.1".toList ++ [Char.ofNat 10] ++ "2.2.2.0/24".toList)
      else .error "no such file or directory",
    Unmarshal := fun _ => .error "unexpected end of JSON input" }

/-- The rule of `TestRule_Fetch`. -/
def testRule : Rule :=
  NewRule true ["file://test_list.txt".toList, "http://127.0.0.1:8080".toList,
    "5.5.5.5".toList, "6.6.6.0/24".toList]

/-- A rule holding a snapshot, whose second source is a file that does not exist in
`testWorld`. -/
def staleRule : Rule :=
  { Allow := false, Args := ["5.5.5.5".toList, "file://missing.txt".toList],
    ips := {"9.9.9.9".toList}, networks := [] }

/-! ## Notions used to state the properties -/

/-- The characters an address without zone is made of. -/
def isAddrChar (c : Char) : Bool := (netip.hexVal c).isSome || c = '.' || c = ':'

/-- The network a trimmed line contributes, if it is a CIDR. -/
def lineNetwork (t : Str) : Option net.IPNet :=
  match net.ParseCIDR t with
  | some (_, network) => some network
  | none => none

/-- The exact-IP entry a trimmed line contributes, if it is not a CIDR but an address. -/
def lineIP (t : Str) : Option Str :=
  match net.ParseCIDR t with
  | some _ => none
  | none =>
    match net.ParseIP t with
    | some ip => some (net.IP.String ip)
    | none => none

/-- The trimmed lines `parseIPList` processes: the non-empty ones, each at its first
occurrence, that are not in `seen` already. -/
def keptLines (seen : Finset Str) (lines : List Str) : List Str :=
  match lines with
  | [] => []
  | line :: rest =>
    if strings.TrimSpace line = [] then keptLines seen rest
    else if strings.TrimSpace line ∈ seen then keptLines seen rest
    else strings.TrimSpace line :: keptLines (insert (strings.TrimSpace line) seen) rest

/-- Bit `k` of a byte sequence, bit 0 being the most significant bit of the first
byte. -/
def bitAt (bytes : List Nat) (k : Nat) : Bool :=
  (bytes.getD (k / 8) 0).testBit (7 - k % 8)

/-- The first `n` bits of `x` and `y` agree. -/
def samePrefix (n : Nat) (x y : List Nat) : Prop :=
  ∀ k < n, bitAt x k = bitAt y k

instance (n : Nat) (x y : List Nat) : Decidable (samePrefix n x y) := by
  unfold samePrefix; infer_instance

/-- Byte `i` of a mask of `n` leading ones: the first byte of `cidrMaskLoop` for `r` ones
left. -/
def maskByte (r : Nat) : Nat := if r ≥ 8 then 0xff else 0xff - 0xff / 2 ^ r

/-- The first twelve bytes of the 16-byte form of an IPv4 address. -/
def v4Prefix : List Nat := [0, 0, 0, 0, 0, 0, 0, 0, 0, 0, 0xff, 0xff]

/-- The method `IP.To16`: the 16-byte form of a valid address. -/
def net.IP.To16 (ip : net.IP) : net.IP :=
  if ip.length = 4 then netip.v4InV6 ip else if ip.length = 16 then ip else []

/-- The address bytes (4 for a CIDR written with an IPv4 address, 16 for one written with
an IPv6 address) and the prefix length that a CIDR text denotes. -/
def cidrParts (c : Str) : Option (List Nat × Nat) :=
  match strings.Cut c '/' with
  | none => none
  | some (addrText, lenText) =>
    match netip.ParseAddr addrText, net.dtoi lenText with
    | some a, some (n, _) => some (if a.is4 then a.bytes.drop 12 else a.bytes, n)
    | _, _ => none

/-- The address `a` lies within the range of the CIDR text `c`: for an IPv4 CIDR, `a` is
an IPv4 address whose first `n` bits are those of the CIDR address; for an IPv6 CIDR, the
first `n` bits of the 16-byte form of `a` are those of the CIDR address. -/
def inCIDRRange (c : Str) (a : net.IP) : Prop :=
  match cidrParts c with
  | none => False
  | some (addr, n) =>
    if addr.length = 4 then
      match net.IP.To4 a with
      | some a4 => samePrefix n addr a4
      | none => False
    else samePrefix n addr (net.IP.To16 a)

instance (c : Str) (a : net.IP) : Decidable (inCIDRRange c a) := by
  unfold inCIDRRange
  split
  · infer_instance
  · split
    · split <;> infer_instance
    · infer_instance

/-- The pairs the code treats apart: `c` is an IPv6 CIDR with a prefix shorter than 96
bits and `a` is an IPv4 address (4 bytes, or 16 bytes in IPv4-mapped form). -/
def ipv4UnderShortIPv6Prefix (c : Str) (a : net.IP) : Prop :=
  match cidrParts c with
  | none => False
  | some (addr, n) => addr.length = 16 ∧ n < 96 ∧ (net.IP.To4 a).isSome = true

instance (c : Str) (a : net.IP) : Decidable (ipv4UnderShortIPv6Prefix c a) := by
  unfold ipv4UnderShortIPv6Prefix
  split <;> infer_instance

/-- The IPv4-mapped IPv6 address `::ffff:1.2.3.4`, as `ParseIP` returns it. -/
def mappedAddr : net.IP := [0, 0, 0, 0, 0, 0, 0, 0, 0, 0, 255, 255, 1, 2, 3, 4]

/-- A filter with a single allow rule, listing `1.1.1.1`. -/
def allowOnlyFilter : IPFilter :=
  { Rules := [ { Allow := true, Args := [],
                 ips := (parseIPList ["1.1.1.1".toList]).1,
                 networks := (parseIPList ["1.1.1.1".toList]).2 } ],
    Interval := 0, Timeout := 0, TrustXForwardedFor := false, TrustXRealIP := false }

/-- The two networks the token `all` stands for: `0.0.0.0/0` and `::/0`. -/
def allNetworks : List net.IPNet :=
  [ { IP := [0, 0, 0, 0], Mask := [0, 0, 0, 0] },
    { IP := List.replicate 16 0, Mask := List.replicate 16 0 } ]

/-- A rule whose sources are an inline address and the token `all`. -/
def allRule : Rule := NewRule false ["5.5.5.5".toList, "all".toList]

/-! ## `ip_filter.go` and `caddyfile.go`: refresh cycles -/

/-- The duration `time.Second`, in nanoseconds. -/
def Second : Int := 1000000000

/-- The duration `time.Hour`, in nanoseconds. -/
def Hour : Int := 3600 * Second

/-- The timeout of the context `updateRule` creates: `filter.Timeout` when positive,
thirty seconds otherwise. -/
def IPFilter.fetchTimeout (filter : IPFilter) : Int :=
  if filter.Timeout > 0 then filter.Timeout else 30 * Second

/-- The method `IPFilter.updateRule`; `env` gives the resolution of the outside world
under a context with the given timeout. -/
def IPFilter.updateRule (filter : IPFilter) (env : Int → World) (rule : Rule) :
    Rule × Option Error :=
  rule.Fetch (env filter.fetchTimeout)

/-- The loop over `filter.Rules` in `updateRules`: the rules after the loop and the error
returned. A failure is returned at once when `init` is set and only logged otherwise. -/
def updateRulesLoop (filter : IPFilter) (env : Int → World) (init : Bool) :
    List Rule → List Rule × Option Error
  | [] => ([], none)
  | rule :: rest =>
    match filter.updateRule env rule with
    | (rule', some err) =>
      if init then (rule' :: rest, some err)
      else
        let next := updateRulesLoop filter env init rest
        (rule' :: next.1, next.2)
    | (rule', none) =>
      let next := updateRulesLoop filter env init rest
      (rule' :: next.1, next.2)

/-- The method `IPFilter.updateRules`: the filter after the call and the error returned. -/
def IPFilter.updateRules (filter : IPFilter) (env : Int → World) (init : Bool) :
    IPFilter × Option Error :=
  let result := updateRulesLoop filter env init filter.Rules
  ({ filter with Rules := result.1 }, result.2)

/-- The method `IPFilter.Provision` up to the start of the ticker: the default interval,
the initial refresh and the error returned. The background task that calls
`updateRules(false)` at every tick is not part of the result. -/
def IPFilter.Provision (filter : IPFilter) (env : Int → World) : IPFilter × Option Error :=
  let filter := if filter.Interval = 0 then { filter with Interval := Hour } else filter
  match filter.updateRules env true with
  | (filter', some err) => (filter', some ("updating IP lists: " ++ err))
  | (filter', none) => (filter', none)
/-- A filter whose first rule has a source that fails in `testWorld` and whose second rule
is the rule of `TestRule_Fetch`. -/
def mixedFilter : IPFilter :=
  { Rules := [staleRule, testRule], Interval := 0, Timeout := 0,
    TrustXForwardedFor := false, TrustXRealIP := false }

/-! ## Package `caddyfile`: the token dispenser -/

namespace caddyfile

/-- The type `caddyfile.Token`, for tokens of one file without imports and heredocs: the
text and the line the token starts on. -/
structure Token where
  Text : Str
  Line : Nat
deriving DecidableEq, Repr

/-- The method `Token.NumLineBreaks`. -/
def Token.NumLineBreaks (t : Token) : Nat := t.Text.count (Char.ofNat 10)

/-- The function `isNextOnNewLine`, for two tokens of the same file. -/
def isNextOnNewLine (t1 t2 : Token) : Bool := t1.Line + t1.NumLineBreaks < t2.Line

/-- The type `caddyfile.Dispenser`: the tokens up to the cursor in reverse order (the
first one is the token at the cursor, none when the cursor is `-1`), the tokens after the
cursor, and the nesting level. The states with `-1 ≤ cursor < len(tokens)` are
represented, which are the ones `UnmarshalCaddyfile` can reach. -/
structure Dispenser where
  consumed : List Token
  rest : List Token
  nesting : Int
deriving DecidableEq, Repr

/-- The function `NewDispenser`: the cursor before the first token. -/
def NewDispenser (tokens : List Token) : Dispenser :=
  { consumed := [], rest := tokens, nesting := 0 }

/-- The method `Dispenser.Val`: the text of the token at the cursor, or the empty
string. -/
def Dispenser.Val (d : Dispenser) : Str :=
  match d.consumed with
  | [] => []
  | t :: _ => t.Text

/-- The method `Dispenser.Next`: the result and the dispenser after the call. -/
def Dispenser.Next (d : Dispenser) : Bool × Dispenser :=
  match d.rest with
  | [] => (false, d)
  | t :: rest => (true, { d with consumed := t :: d.consumed, rest := rest })

/-- The statement `d.cursor--`. -/
def Dispenser.rollBack (d : Dispenser) : Dispenser :=
  match d.consumed with
  | [] => d
  | t :: consumed => { d with consumed := consumed, rest := t :: d.rest }

/-- The method `Dispenser.nextOnSameLine`. -/
def Dispenser.nextOnSameLine (d : Dispenser) : Bool × Dispenser :=
  match d.consumed, d.rest with
  | [], [] => (true, d)
  | [], t :: rest => (true, { d with consumed := [t], rest := rest })
  | _ :: _, [] => (false, d)
  | curr :: _, next :: rest =>
    if !isNextOnNewLine curr next then
      (true, { d with consumed := next :: d.consumed, rest := rest })
    else (false, d)

/-- The method `Dispenser.NextArg`. -/
def Dispenser.NextArg (d : Dispenser) : Bool × Dispenser :=
  match d.nextOnSameLine with
  | (false, d) => (false, d)
  | (true, d) =>
    if d.Val = "\x7b".toList then (false, d.rollBack)
    else (true, d)

/-- The loop of `Dispenser.RemainingArgs`; each turn that continues takes one token, so
`fuel` turns suffice when `fuel` is the number of tokens left. -/
def Dispenser.remainingArgsLoop (fuel : Nat) (d : Dispenser) (args : List Str) :
    List Str × Dispenser :=
  match fuel with
  | 0 => (args, (d.NextArg).2)
  | fuel + 1 =>
    match d.NextArg with
    | (false, d) => (args, d)
    | (true, d) => Dispenser.remainingArgsLoop fuel d (args ++ [d.Val])

/-- The method `Dispenser.RemainingArgs`. -/
def Dispenser.RemainingArgs (d : Dispenser) : List Str × Dispenser :=
  Dispenser.remainingArgsLoop d.rest.length d []

/-- The part of `Dispenser.NextBlock` after a successful `Next` inside a block: the two
tests on braces, each calling `nextOnSameLine` only when its first condition holds. -/
def Dispenser.braceStep (d : Dispenser) : Dispenser :=
  let closing : Bool × Dispenser :=
    if d.Val = "\x7d".toList then
      match d.nextOnSameLine with
      | (same, d) => (!same, d)
    else (false, d)
  match closing with
  | (true, d) => { d with nesting := d.nesting - 1 }
  | (false, d) =>
    if d.Val = "\x7b".toList then
      match d.nextOnSameLine with
      | (false, d) => { d with nesting := d.nesting + 1 }
      | (true, d) => d
    else d

/-- The method `Dispenser.NextBlock`. -/
def Dispenser.NextBlock (d : Dispenser) (initialNestingLevel : Int) : Bool × Dispenser :=
  if d.nesting > initialNestingLevel then
    match d.Next with
    | (false, d) => (false, d)
    | (true, d) =>
      let d := d.braceStep
      (decide (d.nesting > initialNestingLevel), d)
  else
    match d.nextOnSameLine with
    | (false, d) => (false, d)
    | (true, d) =>
      if d.Val ≠ "\x7b".toList then (false, d.rollBack)
      else
        let d := (d.Next).2
        if d.Val = "\x7d".toList then (false, d)
        else (true, { d with nesting := d.nesting + 1 })

/-- The method `Dispenser.ArgErr`, as the text of the error without its position. -/
def Dispenser.ArgErr (d : Dispenser) : Error :=
  if d.Val = "\x7b".toList then "unexpected token '\x7b', expecting argument"
  else "wrong argument count or unexpected line ending after '" ++ String.mk d.Val ++ "'"

end caddyfile

/-! ## `caddyfile.go`: `UnmarshalCaddyfile` -/

/-- One turn of the inner loop of `UnmarshalCaddyfile`: the `switch` on the subdirective
at the cursor. The function `caddy.ParseDuration` is the parameter `parseDuration`. -/
def unmarshalSubdirective (parseDuration : Str → Except Error Int) (filter : IPFilter)
    (d : caddyfile.Dispenser) : IPFilter × caddyfile.Dispenser × Option Error :=
  if d.Val = "interval".toList then
    match d.NextArg with
    | (false, d) => (filter, d, some d.ArgErr)
    | (true, d) =>
      match parseDuration d.Val with
      | .error err => (filter, d, some err)
      | .ok val => ({ filter with Interval := val }, d, none)
  else if d.Val = "timeout".toList then
    match d.NextArg with
    | (false, d) => (filter, d, some d.ArgErr)
    | (true, d) =>
      match parseDuration d.Val with
      | .error err => (filter, d, some err)
      | .ok val => ({ filter with Timeout := val }, d, none)
  else if d.Val = "allow".toList then
    match d.RemainingArgs with
    | (args, d) => ({ filter with Rules := filter.Rules ++ [NewRule true args] }, d, none)
  else if d.Val = "deny".toList then
    match d.RemainingArgs with
    | (args, d) => ({ filter with Rules := filter.Rules ++ [NewRule false args] }, d, none)
  else if d.Val = "trust_x_forwarded_for".toList then
    ({ filter with TrustXForwardedFor := true }, d, none)
  else if d.Val = "trust_x_real_ip".toList then
    ({ filter with TrustXRealIP := true }, d, none)
  else
    (filter, d, some ("unrecognized subdirective '" ++ String.mk d.Val ++ "'"))

/-- The inner loop `for d.NextBlock(0)` of `UnmarshalCaddyfile`; `none` when `fuel` turns
did not finish it. -/
def unmarshalBlock (parseDuration : Str → Except Error Int) (fuel : Nat) (filter : IPFilter)
    (d : caddyfile.Dispenser) : Option (IPFilter × caddyfile.Dispenser × Option Error) :=
  match fuel with
  | 0 => none
  | fuel + 1 =>
    match d.NextBlock 0 with
    | (false, d) => some (filter, d, none)
    | (true, d) =>
      match unmarshalSubdirective parseDuration filter d with
      | (filter, d, some err) => some (filter, d, some err)
      | (filter, d, none) => unmarshalBlock parseDuration fuel filter d

/-- The outer loop `for d.Next()` of `UnmarshalCaddyfile`; `none` when `fuel` turns did
not finish it. -/
def unmarshalLoop (parseDuration : Str → Except Error Int) (fuel : Nat) (filter : IPFilter)
    (d : caddyfile.Dispenser) : Option (IPFilter × caddyfile.Dispenser × Option Error) :=
  match fuel with
  | 0 => none
  | fuel + 1 =>
    match d.Next with
    | (false, d) => some (filter, d, none)
    | (true, d) =>
      match unmarshalBlock parseDuration (d.rest.length + 1) filter d with
      | none => none
      | some (filter, d, some err) => some (filter, d, some err)
      | some (filter, d, none) => unmarshalLoop parseDuration fuel filter d

/-- The method `IPFilter.UnmarshalCaddyfile`: the filter after the call and the error
returned; every turn of its loops takes a token, so the fuel given here is never used
up. -/
def IPFilter.UnmarshalCaddyfile (parseDuration : Str → Except Error Int) (filter : IPFilter)
    (d : caddyfile.Dispenser) : Option (IPFilter × Option Error) :=
  match unmarshalLoop parseDuration (d.rest.length + 1) filter d with
  | none => none
  | some (filter, _, err) => some (filter, err)

/-- A line of an `ip_filter` block: the subdirective, its arguments, and the number of
lines skipped before it. -/
structure SubLine where
  name : Str
  args : List Str
  gap : Nat
deriving DecidableEq, Repr

/-- The tokens of a subdirective line on line `n`. -/
def lineTokens (n : Nat) (l : SubLine) : List caddyfile.Token :=
  { Text := l.name, Line := n } :: l.args.map (fun a => { Text := a, Line := n })

/-- The tokens of the lines of a block whose previous line is `n`. -/
def bodyTokens (n : Nat) : List SubLine → List caddyfile.Token
  | [] => []
  | l :: ls => lineTokens (n + l.gap + 1) l ++ bodyTokens (n + l.gap + 1) ls

/-- The line of the last of the given lines, the previous line being `n`. -/
def lastLine (n : Nat) : List SubLine → Nat
  | [] => n
  | l :: ls => lastLine (n + l.gap + 1) ls

/-- The tokens of `ip_filter {`, the given lines and the closing brace on a line of its
own. -/
def blockTokens (lines : List SubLine) : List caddyfile.Token :=
  { Text := "ip_filter".toList, Line := 1 } :: { Text := "\x7b".toList, Line := 1 } ::
    (bodyTokens 1 lines ++ [{ Text := "\x7d".toList, Line := lastLine 1 lines + 1 }])

/-- A stand-in for `caddy.ParseDuration` that knows `1h` and `10s`. -/
def testParseDuration (s : Str) : Except Error Int :=
  if s = "1h".toList then .ok Hour
  else if s = "10s".toList then .ok (10 * Second)
  else .error "time: invalid duration"

/-- The block of `TestUnmarshalCaddyfile`. -/
def testBlock : List SubLine :=
  [ { name := "interval".toList, args := ["1h".toList], gap := 0 },
    { name := "timeout".toList, args := ["10s".toList], gap := 0 },
    { name := "deny".toList, args := ["blockIPList.txt".toList, "blockIPList2.txt".toList],
      gap := 0 },
    { name := "allow".toList, args := ["allowIPList.txt".toList, "allowIPList2.txt".toList],
      gap := 0 } ]

/-- The zero value `IPFilter{}`. -/
def emptyFilter : IPFilter :=
  { Rules := [], Interval := 0, Timeout := 0, TrustXForwardedFor := false,
    TrustXRealIP := false }
/-- A well-formed subdirective line: no argument is an opening brace or holds a line
break, and the line is `interval` or `timeout` with one argument that
`parseDuration` accepts, `allow` or `deny` with any arguments, or a trust flag without
argument. -/
def SubLine.WellFormed (parseDuration : Str → Except Error Int) (l : SubLine) : Prop :=
  (∀ a ∈ l.args, a ≠ "\x7b".toList ∧ Char.ofNat 10 ∉ a) ∧
  (((l.name = "interval".toList ∨ l.name = "timeout".toList) ∧
      ∃ x v, l.args = [x] ∧ parseDuration x = .ok v) ∨
    (l.name = "allow".toList ∨ l.name = "deny".toList) ∨
    ((l.name = "trust_x_forwarded_for".toList ∨ l.name = "trust_x_real_ip".toList) ∧
      l.args = []))

/-- A line whose first word is neither a subdirective nor a brace. -/
def SubLine.Unrecognized (l : SubLine) : Prop :=
  l.name ∉ ["interval".toList, "timeout".toList, "allow".toList, "deny".toList,
    "trust_x_forwarded_for".toList, "trust_x_real_ip".toList, "\x7b".toList, "\x7d".toList]

/-- The duration the first argument of a line parses to, `default` when there is none. -/
def durationArg (parseDuration : Str → Except Error Int) (l : SubLine) (default : Int) : Int :=
  match l.args with
  | x :: _ =>
    match parseDuration x with
    | .ok v => v
    | .error _ => default
  | [] => default

/-- What a well-formed line is expected to do to the filter. -/
def applyLine (parseDuration : Str → Except Error Int) (filter : IPFilter) (l : SubLine) :
    IPFilter :=
  if l.name = "interval".toList then
    { filter with Interval := durationArg parseDuration l filter.Interval }
  else if l.name = "timeout".toList then
    { filter with Timeout := durationArg parseDuration l filter.Timeout }
  else if l.name = "allow".toList then
    { filter with Rules := filter.Rules ++ [NewRule true l.args] }
  else if l.name = "deny".toList then
    { filter with Rules := filter.Rules ++ [NewRule false l.args] }
  else if l.name = "trust_x_forwarded_for".toList then
    { filter with TrustXForwardedFor := true }
  else if l.name = "trust_x_real_ip".toList then
    { filter with TrustXRealIP := true }
  else filter

/-- The lines of a block that are `allow` or `deny` lines. -/
def ruleLines (lines : List SubLine) : List SubLine :=
  lines.filter (fun l => l.name = "allow".toList ∨ l.name = "deny".toList)

/-- A line that is no subdirective. -/
def bogusLine : SubLine := { name := "bogus".toList, args := ["1.2.3.4".toList], gap := 0 }

/-- Whether the arguments are one argument that `parseDuration` accepts can be computed. -/
def decDurationArg (parseDuration : Str → Except Error Int) (args : List Str) :
    Decidable (∃ x v, args = [x] ∧ parseDuration x = .ok v) :=
  match args with
  | [] => isFalse (fun ⟨_, _, h, _⟩ => by cases h)
  | [x] =>
    match h : parseDuration x with
    | .ok v => isTrue ⟨x, v, rfl, h⟩
    | .error _ => isFalse (fun ⟨y, v, hy, hv⟩ => by
        cases hy
        rw [h] at hv
        cases hv)
  | _ :: _ :: _ => isFalse (fun ⟨_, _, h, _⟩ => by cases h)

instance (parseDuration : Str → Except Error Int) (l : SubLine) :
    Decidable (l.WellFormed parseDuration) :=
  have := decDurationArg parseDuration l.args
  inferInstanceAs (Decidable ((∀ a ∈ l.args, a ≠ "\x7b".toList ∧ Char.ofNat 10 ∉ a) ∧
    (((l.name = "interval".toList ∨ l.name = "timeout".toList) ∧
        ∃ x v, l.args = [x] ∧ parseDuration x = .ok v) ∨
      (l.name = "allow".toList ∨ l.name = "deny".toList) ∨
      ((l.name = "trust_x_forwarded_for".toList ∨ l.name = "trust_x_real_ip".toList) ∧
        l.args = []))))

instance (l : SubLine) : Decidable l.Unrecognized :=
  inferInstanceAs (Decidable (l.name ∉ ["interval".toList, "timeout".toList, "allow".toList,
    "deny".toList, "trust_x_forwarded_for".toList, "trust_x_real_ip".toList, "\x7b".toList,
    "\x7d".toList]))

/-! # Verified properties -/

/-! ## Facts about address parsing -/

theorem netip.isDigit_isAddrChar (c : Char) (h : netip.isDigit c = true) :
    isAddrChar c = true := by
  simp only [netip.isDigit, Bool.and_eq_true, decide_eq_true_eq] at h
  simp [isAddrChar, netip.hexVal, h.1, h.2]

theorem netip.parseIPv4Loop_spec (s : Str) (first prevDot : Bool) (val digLen : Nat)
    (fields r : List Nat) (h : netip.parseIPv4Loop s first prevDot val digLen fields = some r)
    (hlen : fields.length ≤ 3) (hval : val ≤ 255) (hfields : ∀ b ∈ fields, b < 256) :
    (∀ c ∈ s, isAddrChar c = true) ∧ r.length = 4 ∧ ∀ b ∈ r, b < 256 := by
  induction s generalizing first prevDot val digLen fields with
  | nil =>
    simp only [netip.parseIPv4Loop] at h
    split at h
    · cases h
    · cases h
      refine ⟨by simp, by simp; omega, ?_⟩
      intro b hb
      rcases List.mem_append.mp hb with hb | hb
      · exact hfields b hb
      · simp only [List.mem_singleton] at hb; omega
  | cons c cs ih =>
    simp only [netip.parseIPv4Loop] at h
    split at h
    · rename_i hd
      split at h
      · cases h
      · split at h
        · cases h
        · rename_i hv
          obtain ⟨h1, h2, h3⟩ := ih _ _ _ _ _ h hlen (by omega) hfields
          refine ⟨?_, h2, h3⟩
          intro x hx
          rcases List.mem_cons.mp hx with rfl | hx
          · exact netip.isDigit_isAddrChar _ hd
          · exact h1 x hx
    · split at h
      · rename_i hdot
        split at h
        · cases h
        · split at h
          · cases h
          · rename_i h3
            have hl : fields.length ≠ 3 := by simpa using h3
            obtain ⟨h1, h2, h3⟩ := ih _ _ _ _ _ h (by simp; omega) (by omega) (by
              intro b hb
              rcases List.mem_append.mp hb with hb | hb
              · exact hfields b hb
              · simp only [List.mem_singleton] at hb; omega)
            refine ⟨?_, h2, h3⟩
            intro x hx
            rcases List.mem_cons.mp hx with rfl | hx
            · simp [isAddrChar, hdot]
            · exact h1 x hx
      · cases h

theorem netip.parseIPv4Fields_spec (s : Str) (r : List Nat)
    (h : netip.parseIPv4Fields s = some r) :
    (∀ c ∈ s, isAddrChar c = true) ∧ r.length = 4 ∧ ∀ b ∈ r, b < 256 :=
  netip.parseIPv4Loop_spec s true false 0 0 [] r h (by simp) (by omega) (by simp)

theorem netip.hexGroup_spec (s : Str) (off acc acc' off' : Nat) (rest : Str)
    (h : netip.hexGroup s off acc = some (acc', off', rest)) (hacc : acc ≤ 0xFFFF) :
    (∃ digits, s = digits ++ rest ∧ ∀ c ∈ digits, isAddrChar c = true) ∧ acc' ≤ 0xFFFF := by
  induction s generalizing off acc with
  | nil =>
    simp only [netip.hexGroup, Option.some.injEq, Prod.mk.injEq] at h
    obtain ⟨rfl, _, rfl⟩ := h
    exact ⟨⟨[], rfl, by simp⟩, hacc⟩
  | cons c cs ih =>
    simp only [netip.hexGroup] at h
    split at h
    · simp only [Option.some.injEq, Prod.mk.injEq] at h
      obtain ⟨rfl, _, rfl⟩ := h
      exact ⟨⟨[], rfl, by simp⟩, hacc⟩
    · rename_i d hd
      split at h
      · cases h
      · split at h
        · cases h
        · rename_i hle
          obtain ⟨⟨digits, hs, hdig⟩, hb⟩ := ih _ _ h (by omega)
          refine ⟨⟨c :: digits, by simp [hs], ?_⟩, hb⟩
          intro x hx
          rcases List.mem_cons.mp hx with rfl | hx
          · simp [isAddrChar, hd]
          · exact hdig x hx

theorem netip.parseIPv6Loop_spec (n : Nat) (s : Str) (ip : List Nat) (e : Option Nat)
    (ip' : List Nat) (e' : Option Nat) (rest : Str)
    (h : netip.parseIPv6Loop n s ip e = some (ip', e', rest))
    (hlen : ip.length + 2 * n ≤ 16) (hip : ∀ b ∈ ip, b < 256) :
    (∃ consumed, s = consumed ++ rest ∧ ∀ c ∈ consumed, isAddrChar c = true) ∧
      ip'.length ≤ 16 ∧ ∀ b ∈ ip', b < 256 := by
  induction n generalizing s ip e with
  | zero =>
    simp only [netip.parseIPv6Loop, Option.some.injEq, Prod.mk.injEq] at h
    obtain ⟨rfl, _, rfl⟩ := h
    exact ⟨⟨[], rfl, by simp⟩, by omega, hip⟩
  | succ n ih =>
    cases hg : netip.hexGroup s 0 0 with
    | none => simp [netip.parseIPv6Loop, hg] at h
    | some t =>
      obtain ⟨acc, off, rest0⟩ := t
      obtain ⟨⟨digits, hs, hdig⟩, hacc⟩ := netip.hexGroup_spec s 0 0 acc off rest0 hg (by omega)
      have hip1 : ∀ b ∈ ip ++ [acc / 256, acc % 256], b < 256 := by
        intro b hb
        rcases List.mem_append.mp hb with hb | hb
        · exact hip b hb
        · simp only [List.mem_cons, List.mem_singleton, List.not_mem_nil, or_false] at hb
          rcases hb with rfl | rfl <;> omega
      have hlen1 : (ip ++ [acc / 256, acc % 256]).length + 2 * n ≤ 16 := by
        simp; omega
      simp only [netip.parseIPv6Loop, hg] at h
      by_cases hoff : (off == 0) = true
      · simp [hoff] at h
      simp only [hoff, if_false, Bool.false_eq_true] at h
      by_cases hdot : rest0.head? = some '.'
      · simp only [hdot, if_true] at h
        by_cases hplace : (e.isNone && ip.length != 12) = true
        · simp [hplace] at h
        simp only [hplace, if_false, Bool.false_eq_true] at h
        by_cases hroom : ip.length + 4 > 16
        · simp [hroom] at h
        simp only [hroom, if_false] at h
        cases hf : netip.parseIPv4Fields s with
        | none => simp [hf] at h
        | some fields =>
          simp only [hf, Option.some.injEq, Prod.mk.injEq] at h
          obtain ⟨rfl, _, rfl⟩ := h
          obtain ⟨h1, h2, h3⟩ := netip.parseIPv4Fields_spec s fields hf
          refine ⟨⟨s, by simp, h1⟩, by simp; omega, ?_⟩
          intro b hb
          rcases List.mem_append.mp hb with hb | hb
          · exact hip b hb
          · exact h3 b hb
      simp only [hdot, if_false] at h
      cases rest0 with
      | nil =>
        simp only [Option.some.injEq, Prod.mk.injEq] at h
        obtain ⟨rfl, _, rfl⟩ := h
        exact ⟨⟨digits, by rw [hs], hdig⟩, by simp at hlen1 ⊢; omega, hip1⟩
      | cons c rest1 =>
        simp only at h
        by_cases hc : c = ':'
        swap
        · simp [hc] at h
        simp only [hc, ne_eq, not_true_eq_false, if_false] at h
        cases rest1 with
        | nil => simp at h
        | cons c1 rest2 =>
          simp only at h
          by_cases hc1 : c1 = ':'
          · simp only [hc1, if_true] at h
            by_cases he : e.isSome = true
            · simp [he] at h
            simp only [he, if_false, Bool.false_eq_true] at h
            cases rest2 with
            | nil =>
              simp only [Option.some.injEq, Prod.mk.injEq] at h
              obtain ⟨rfl, _, rfl⟩ := h
              refine ⟨⟨s, by simp, ?_⟩, by simp at hlen1 ⊢; omega, hip1⟩
              rw [hs]
              intro x hx
              rcases List.mem_append.mp hx with hx | hx
              · exact hdig x hx
              · simp only [List.mem_cons, List.mem_singleton, List.not_mem_nil,
                  or_false] at hx
                rcases hx with rfl | rfl <;> simp [isAddrChar, hc, hc1]
            | cons c2 rest3 =>
              simp only at h
              obtain ⟨⟨consumed, hs2, hcons⟩, hb⟩ := ih _ _ _ h hlen1 hip1
              refine ⟨⟨digits ++ c :: c1 :: consumed, by rw [hs, hs2]; simp, ?_⟩, hb⟩
              intro x hx
              rcases List.mem_append.mp hx with hx | hx
              · exact hdig x hx
              · simp only [List.mem_cons] at hx
                rcases hx with rfl | rfl | hx
                · simp [isAddrChar, hc]
                · simp [isAddrChar, hc1]
                · exact hcons x hx
          · simp only [hc1, if_false] at h
            obtain ⟨⟨consumed, hs2, hcons⟩, hb⟩ := ih _ _ _ h hlen1 hip1
            refine ⟨⟨digits ++ c :: consumed, by rw [hs, hs2]; simp, ?_⟩, hb⟩
            intro x hx
            rcases List.mem_append.mp hx with hx | hx
            · exact hdig x hx
            · simp only [List.mem_cons] at hx
              rcases hx with rfl | hx
              · simp [isAddrChar, hc]
              · exact hcons x hx

theorem strings.Cut_some (s : Str) (sep : Char) (before after : Str)
    (h : strings.Cut s sep = some (before, after)) :
    s = before ++ sep :: after ∧ sep ∉ before := by
  induction s generalizing before with
  | nil => simp [strings.Cut] at h
  | cons c cs ih =>
    simp only [strings.Cut] at h
    by_cases hc : c = sep
    · simp only [hc, if_true, Option.some.injEq, Prod.mk.injEq] at h
      obtain ⟨rfl, rfl⟩ := h
      simp [hc]
    · simp only [hc, if_false] at h
      cases hr : strings.Cut cs sep with
      | none => simp [hr] at h
      | some r =>
        obtain ⟨b, a⟩ := r
        simp only [hr, Option.some.injEq, Prod.mk.injEq] at h
        obtain ⟨rfl, rfl⟩ := h
        obtain ⟨h1, h2⟩ := ih b hr
        refine ⟨by rw [h1]; simp, ?_⟩
        simp only [List.mem_cons, not_or]
        exact ⟨fun h => hc h.symm, h2⟩

theorem strings.Cut_none (s : Str) (sep : Char) :
    strings.Cut s sep = none ↔ sep ∉ s := by
  induction s with
  | nil => simp [strings.Cut]
  | cons c cs ih =>
    simp only [strings.Cut]
    by_cases hc : c = sep
    · simp [hc]
    · simp only [hc, if_false, List.mem_cons, not_or]
      cases hr : strings.Cut cs sep with
      | none =>
        simp only [true_iff]
        exact ⟨fun h => hc h.symm, ih.mp hr⟩
      | some r =>
        simp only [reduceCtorEq, false_iff, not_and, not_not]
        intro _
        by_contra hn
        rw [ih.mpr hn] at hr
        cases hr

theorem netip.splitZone_spec (s0 s zone : Str) (h : netip.splitZone s0 = some (s, zone))
    (hz : zone = []) : s = s0 := by
  unfold netip.splitZone at h
  cases hc : strings.Cut s0 '%' with
  | none =>
    simp only [hc, Option.some.injEq, Prod.mk.injEq] at h
    exact h.1.symm
  | some r =>
    obtain ⟨s1, z⟩ := r
    simp only [hc] at h
    by_cases he : z.isEmpty = true
    · simp [he] at h
    · simp only [he, if_false, Option.some.injEq, Prod.mk.injEq, Bool.false_eq_true] at h
      rw [h.2, hz] at he
      simp at he

theorem netip.leadingEllipsis_spec (s : Str) (h : netip.leadingEllipsis s = true) :
    ∃ t, s = ':' :: ':' :: t ∧ s.drop 2 = t := by
  match s, h with
  | [], h => simp [netip.leadingEllipsis] at h
  | [_], h => simp [netip.leadingEllipsis] at h
  | c0 :: c1 :: t, h =>
    simp only [netip.leadingEllipsis, Bool.and_eq_true, decide_eq_true_eq] at h
    exact ⟨t, by rw [h.1, h.2], rfl⟩

theorem netip.parseIPv6Finish_spec (ip : List Nat) (e : Option Nat) (rest zone : Str)
    (a : netip.Addr) (h : netip.parseIPv6Finish ip e rest zone = some a)
    (hlen : ip.length ≤ 16) (hb : ∀ b ∈ ip, b < 256) :
    rest = [] ∧ a.bytes.length = 16 ∧ (∀ b ∈ a.bytes, b < 256) ∧ a.is4 = false ∧
      a.zone = zone := by
  unfold netip.parseIPv6Finish at h
  by_cases hrest : (!rest.isEmpty) = true
  · simp [hrest] at h
  simp only [hrest, if_false, Bool.false_eq_true] at h
  have hrest' : rest = [] := by simpa using hrest
  by_cases hshort : ip.length < 16
  · simp only [hshort, if_true] at h
    cases e with
    | none => simp at h
    | some e =>
      simp only [Option.some.injEq] at h
      subst h
      refine ⟨hrest', ?_, ?_, rfl, rfl⟩
      · have : (ip.take e ++ ip.drop e).length = ip.length := by
          rw [List.take_append_drop]
        simp only [List.length_append, List.length_replicate] at this ⊢
        omega
      · intro b hmem
        simp only [List.mem_append, List.mem_replicate] at hmem
        rcases hmem with (hmem | hmem) | hmem
        · exact hb b (List.mem_of_mem_take hmem)
        · omega
        · exact hb b (List.mem_of_mem_drop hmem)
  · simp only [hshort, if_false] at h
    by_cases he : e.isSome = true
    · simp [he] at h
    simp only [he, if_false, Option.some.injEq, Bool.false_eq_true] at h
    subst h
    exact ⟨hrest', by simp only; omega, hb, rfl, rfl⟩

theorem netip.parseIPv6Body_spec (s zone : Str) (a : netip.Addr)
    (h : netip.parseIPv6Body s zone = some a) :
    (∀ c ∈ s, isAddrChar c = true) ∧ a.bytes.length = 16 ∧ (∀ b ∈ a.bytes, b < 256) ∧
      a.is4 = false ∧ a.zone = zone := by
  unfold netip.parseIPv6Body at h
  by_cases hlead : netip.leadingEllipsis s = true
  · obtain ⟨t, hs, hdrop⟩ := netip.leadingEllipsis_spec s hlead
    simp only [hlead, if_true, hdrop] at h
    have hcolon : ∀ (c : Char), (∀ x ∈ t, isAddrChar x = true) → c ∈ s →
        isAddrChar c = true := by
      intro c ht hc
      rw [hs] at hc
      simp only [List.mem_cons] at hc
      rcases hc with rfl | rfl | hc
      · simp [isAddrChar]
      · simp [isAddrChar]
      · exact ht c hc
    by_cases hempty : t.isEmpty = true
    · simp only [hempty, if_true, Option.some.injEq] at h
      subst h
      have ht : t = [] := by simpa using hempty
      exact ⟨fun c hc => hcolon c (by simp [ht]) hc, by simp, by simp, rfl, rfl⟩
    simp only [hempty, if_false, Bool.false_eq_true] at h
    cases hloop : netip.parseIPv6Loop 8 t [] (some 0) with
    | none => simp [hloop] at h
    | some r =>
      obtain ⟨ip, e, rest⟩ := r
      simp only [hloop] at h
      obtain ⟨⟨consumed, hcs, hcons⟩, hlen, hb⟩ :=
        netip.parseIPv6Loop_spec 8 _ [] _ ip e rest hloop (by simp) (by simp)
      obtain ⟨h1, h2, h3, h4, h5⟩ := netip.parseIPv6Finish_spec ip e rest zone a h hlen hb
      refine ⟨fun c hc => hcolon c ?_ hc, h2, h3, h4, h5⟩
      rw [hcs, h1]
      simpa using hcons
  · simp only [hlead, if_false, Bool.false_eq_true] at h
    cases hloop : netip.parseIPv6Loop 8 s [] none with
    | none => simp [hloop] at h
    | some r =>
      obtain ⟨ip, e, rest⟩ := r
      simp only [hloop] at h
      obtain ⟨⟨consumed, hcs, hcons⟩, hlen, hb⟩ :=
        netip.parseIPv6Loop_spec 8 _ [] _ ip e rest hloop (by simp) (by simp)
      obtain ⟨h1, h2, h3, h4, h5⟩ := netip.parseIPv6Finish_spec ip e rest zone a h hlen hb
      refine ⟨?_, h2, h3, h4, h5⟩
      rw [hcs, h1]
      simpa using hcons

theorem netip.parseIPv6_spec (s : Str) (a : netip.Addr) (h : netip.parseIPv6 s = some a)
    (hz : a.zone = []) :
    (∀ c ∈ s, isAddrChar c = true) ∧ a.bytes.length = 16 ∧ (∀ b ∈ a.bytes, b < 256) ∧
      a.is4 = false := by
  unfold netip.parseIPv6 at h
  cases hsz : netip.splitZone s with
  | none => simp [hsz] at h
  | some t =>
    obtain ⟨s1, zone⟩ := t
    simp only [hsz] at h
    obtain ⟨h1, h2, h3, h4, h5⟩ := netip.parseIPv6Body_spec s1 zone a h
    have := netip.splitZone_spec s s1 zone hsz (by rw [← h5, hz])
    subst this
    exact ⟨h1, h2, h3, h4⟩

/-- What a successful `ParseAddr` without zone says about the text and the address. -/
theorem netip.ParseAddr_spec (s : Str) (a : netip.Addr) (h : netip.ParseAddr s = some a)
    (hz : a.zone = []) :
    s ≠ [] ∧ (∀ c ∈ s, isAddrChar c = true) ∧ a.bytes.length = 16 ∧
      (∀ b ∈ a.bytes, b < 256) ∧
      (a.is4 = true → ∃ fields, fields.length = 4 ∧ a.bytes = netip.v4InV6 fields) := by
  have hne : s ≠ [] := by
    rintro rfl
    simp [netip.ParseAddr] at h
  unfold netip.ParseAddr at h
  cases hf : s.find? (fun c => c = '.' || c = ':' || c = '%') with
  | none => simp [hf] at h
  | some c =>
    simp only [hf] at h
    by_cases hdot : c = '.'
    · simp only [hdot, if_true] at h
      unfold netip.parseIPv4 at h
      cases hp : netip.parseIPv4Fields s with
      | none => simp [hp] at h
      | some fields =>
        simp only [hp, Option.some.injEq] at h
        subst h
        obtain ⟨h1, h2, h3⟩ := netip.parseIPv4Fields_spec s fields hp
        refine ⟨hne, h1, by simp [netip.v4InV6, h2], ?_, fun _ => ⟨fields, h2, rfl⟩⟩
        intro b hb
        simp only [netip.v4InV6, List.mem_append] at hb
        rcases hb with hb | hb
        · simp only [List.mem_cons, List.mem_singleton, List.not_mem_nil, or_false] at hb
          omega
        · exact h3 b hb
    · simp only [hdot, if_false] at h
      by_cases hcol : c = ':'
      · simp only [hcol, if_true] at h
        obtain ⟨h1, h2, h3, h4⟩ := netip.parseIPv6_spec s a h hz
        exact ⟨hne, h1, h2, h3, fun h5 => by rw [h4] at h5; cases h5⟩
      · simp [hcol] at h

theorem isAddrChar_not_space (c : Char) (h : isAddrChar c = true) :
    strings.isSpace c = false := by
  simp only [isAddrChar, netip.hexVal, Bool.or_eq_true, decide_eq_true_eq] at h
  have hn : (48 ≤ c.toNat ∧ c.toNat ≤ 102) ∨ c.toNat = 46 := by
    rcases h with (h | h) | h
    · by_cases h1 : (decide (48 ≤ c.toNat) && decide (c.toNat ≤ 57)) = true
      · simp only [Bool.and_eq_true, decide_eq_true_eq] at h1; omega
      · by_cases h2 : (decide (97 ≤ c.toNat) && decide (c.toNat ≤ 102)) = true
        · simp only [Bool.and_eq_true, decide_eq_true_eq] at h2; omega
        · by_cases h3 : (decide (65 ≤ c.toNat) && decide (c.toNat ≤ 70)) = true
          · simp only [Bool.and_eq_true, decide_eq_true_eq] at h3; omega
          · simp [h1, h2, h3] at h
    · right; rw [h]; rfl
    · left; rw [h]; decide
  simp only [strings.isSpace, Bool.or_eq_false_iff, Bool.and_eq_false_iff, beq_eq_false_iff_ne,
    decide_eq_false_iff_not, ne_eq]
  omega

theorem isAddrChar_ne_slash (c : Char) (h : isAddrChar c = true) : c ≠ '/' := by
  rintro rfl
  revert h
  decide

theorem netip.isDigit_not_space (c : Char) (h : netip.isDigit c = true) :
    strings.isSpace c = false :=
  isAddrChar_not_space c (netip.isDigit_isAddrChar c h)

theorem List.dropWhile_append_of_all {α : Type} (p : α → Bool) (w t : List α)
    (hw : ∀ c ∈ w, p c = true) : (w ++ t).dropWhile p = t.dropWhile p := by
  induction w with
  | nil => rfl
  | cons c w ih =>
    have hc := hw c (by simp)
    simp only [List.cons_append, List.dropWhile_cons, hc, if_true]
    exact ih (fun x hx => hw x (by simp [hx]))

theorem List.dropWhile_of_all_false {α : Type} (p : α → Bool) (l : List α)
    (hl : ∀ c ∈ l, p c = false) : l.dropWhile p = l := by
  cases l with
  | nil => rfl
  | cons c cs => simp [List.dropWhile_cons, hl c (by simp)]

theorem List.dropWhile_of_all_true {α : Type} (p : α → Bool) (l : List α)
    (hl : ∀ c ∈ l, p c = true) : l.dropWhile p = [] := by
  have := List.dropWhile_append_of_all p l [] hl
  simpa using this

/-- Trimming a text without white space, padded with white space on both sides, gives
the text back. -/
theorem strings.TrimSpace_padded (pre s post : Str) (hpre : ∀ c ∈ pre, strings.isSpace c = true)
    (hpost : ∀ c ∈ post, strings.isSpace c = true)
    (hs : ∀ c ∈ s, strings.isSpace c = false) :
    strings.TrimSpace (pre ++ s ++ post) = s := by
  unfold strings.TrimSpace
  rw [List.append_assoc, List.dropWhile_append_of_all _ pre _ hpre]
  cases s with
  | nil =>
    rw [List.nil_append, List.dropWhile_of_all_true _ post hpost]
    rfl
  | cons c cs =>
    have h1 : (c :: cs ++ post).dropWhile strings.isSpace = c :: cs ++ post := by
      have := hs c (by simp)
      simp [List.dropWhile_cons, this]
    rw [h1, List.rdropWhile, List.reverse_append,
      List.dropWhile_append_of_all _ post.reverse _
        (fun x hx => hpost x (List.mem_reverse.mp hx)),
      List.dropWhile_of_all_false _ (c :: cs).reverse
        (fun x hx => hs x (List.mem_reverse.mp hx)),
      List.reverse_reverse]

theorem net.ParseIP_spec (s : Str) (ip : net.IP) (h : net.ParseIP s = some ip) :
    s ≠ [] ∧ (∀ c ∈ s, isAddrChar c = true) ∧ ip.length = 16 ∧ ∀ b ∈ ip, b < 256 := by
  unfold net.ParseIP at h
  cases ha : netip.ParseAddr s with
  | none => simp [ha] at h
  | some a =>
    simp only [ha] at h
    by_cases hz : a.zone = []
    · simp only [hz, ne_eq, not_true_eq_false, if_false, Option.some.injEq] at h
      subst h
      obtain ⟨h1, h2, h3, h4, _⟩ := netip.ParseAddr_spec s a ha hz
      exact ⟨h1, h2, h3, h4⟩
    · simp [hz] at h

theorem net.dtoiLoop_spec (s : Str) (n i n' i' : Nat)
    (h : net.dtoiLoop s n i = some (n', i')) :
    ∃ digits rest, s = digits ++ rest ∧ (∀ c ∈ digits, netip.isDigit c = true) ∧
      i' = i + digits.length ∧ i' ≠ 0 := by
  induction s generalizing n i with
  | nil =>
    simp only [net.dtoiLoop] at h
    split_ifs at h with h0
    simp only [Option.some.injEq, Prod.mk.injEq] at h
    exact ⟨[], [], rfl, by simp, by simp [h.2], by omega⟩
  | cons c cs ih =>
    simp only [net.dtoiLoop] at h
    split_ifs at h with hd hbig h0
    · obtain ⟨digits, rest, hs, hdig, hi, hne⟩ := ih _ _ h
      refine ⟨c :: digits, rest, by simp [hs], ?_, by simp [hi]; omega, hne⟩
      intro x hx
      rcases List.mem_cons.mp hx with rfl | hx
      · exact hd
      · exact hdig x hx
    · simp only [Option.some.injEq, Prod.mk.injEq] at h
      exact ⟨[], c :: cs, rfl, by simp, by simp [h.2], by omega⟩

/-- The shape of a string accepted by `ParseCIDR`, and the network it yields: an address
text without zone, a slash and a decimal prefix length `n` within the address length; the
mask is `n` ones and the network number the masked address. -/
theorem net.ParseCIDR_spec (c : Str) (ip : net.IP) (nw : net.IPNet)
    (h : net.ParseCIDR c = some (ip, nw)) :
    ∃ (addrText maskText : Str) (a : netip.Addr) (n : Nat),
      c = addrText ++ '/' :: maskText ∧
      strings.Cut c '/' = some (addrText, maskText) ∧
      netip.ParseAddr addrText = some a ∧ a.zone = [] ∧
      net.dtoi maskText = some (n, maskText.length) ∧
      (∀ x ∈ maskText, netip.isDigit x = true) ∧ maskText ≠ [] ∧
      n ≤ (if a.is4 then 32 else 128) ∧
      nw.Mask = net.cidrMaskLoop (if a.is4 then 4 else 16) n ∧
      net.IP.Mask a.bytes nw.Mask = some nw.IP ∧ ip = a.bytes := by
  unfold net.ParseCIDR at h
  cases hcut : strings.Cut c '/' with
  | none => simp [hcut] at h
  | some r =>
  obtain ⟨addrText, rest⟩ := r
  obtain ⟨hsplit, _⟩ := strings.Cut_some c '/' addrText rest hcut
  simp only [hcut] at h
  cases ha : netip.ParseAddr addrText with
  | none => simp [ha] at h
  | some a =>
    simp only [ha] at h
    by_cases hz : a.zone = []
    swap
    · simp [hz] at h
    simp only [hz, ne_eq, not_true_eq_false, if_false] at h
    cases hd : net.dtoi rest with
    | none => simp [hd] at h
    | some r =>
      obtain ⟨n, i⟩ := r
      simp only [hd] at h
      by_cases hbad : ¬ i = rest.length ∨ n > (if a.is4 = true then 32 else 128)
      · simp [hbad] at h
      simp only [hbad, if_false] at h
      have hi : i = rest.length := by
        by_contra hne; exact hbad (Or.inl hne)
      have hn : n ≤ (if a.is4 = true then 32 else 128) := by
        by_contra hne; exact hbad (Or.inr (by omega))
      cases hm : net.CIDRMask n (if a.is4 = true then 32 else 128) with
      | none => simp [hm] at h
      | some m =>
        simp only [hm] at h
        cases hmk : net.IP.Mask a.bytes m with
        | none => simp [hmk] at h
        | some masked =>
          simp only [hmk, Option.some.injEq, Prod.mk.injEq] at h
          obtain ⟨rfl, rfl⟩ := h
          subst hi
          obtain ⟨digits, rest', hs', hdig, hlen, hne⟩ := net.dtoiLoop_spec rest 0 0 n _ hd
          have hrest' : rest' = [] := by
            have := congrArg List.length hs'
            simp only [List.length_append] at this
            have : rest'.length = 0 := by omega
            exact List.length_eq_zero.mp this
          have hdigits : digits = rest := by rw [hs', hrest']; simp
          have hmask : m = net.cidrMaskLoop (if a.is4 = true then 4 else 16) n := by
            unfold net.CIDRMask at hm
            cases h4 : a.is4 <;> simp [h4] at hm hn ⊢
            · exact hm.2.symm
            · exact hm.2.symm
          refine ⟨_, rest, a, n, hsplit, rfl, ha, hz, hd, ?_, ?_, hn, hmask, hmk, rfl⟩
          · rw [← hdigits]; exact hdig
          · intro hnil
            rw [hnil] at hne
            simp at hne

/-! ## Rule evaluation order -/

theorem serveRules_outcome (rules : List Rule) (ip : net.IP) :
    (serveRules rules ip).outcome =
      match rules.find? (fun rule => rule.Match ip) with
      | some rule => if rule.Allow then Outcome.next else Outcome.httpError 403
      | none => Outcome.next := by
  induction rules with
  | nil => rfl
  | cons rule rest ih =>
    unfold serveRules
    cases hm : rule.Match ip
    · simpa [List.find?, hm] using ih
    · cases ha : rule.Allow <;> simp [List.find?, hm, ha]

theorem serveRules_consulted (rules : List Rule) (ip : net.IP) :
    (serveRules rules ip).consulted =
      rules.takeWhile (fun rule => !rule.Match ip) ++
        (rules.find? (fun rule => rule.Match ip)).toList := by
  induction rules with
  | nil => rfl
  | cons rule rest ih =>
    unfold serveRules
    cases hm : rule.Match ip
    · simpa [List.find?, List.takeWhile, hm] using ih
    · cases ha : rule.Allow <;> simp [List.find?, List.takeWhile, hm, ha]

/-- C1: when the derived client string parses as an IP, `ServeHTTP` takes its verdict from
the first rule in list order whose `Match` is true (403 for a deny rule, the next handler
for an allow rule or when no rule matches), and the rules it consults are exactly those
up to and including that first match. -/
theorem C1_first_match_governs (filter : IPFilter) (r : Request) (ip : net.IP)
    (hip : net.ParseIP (filter.getRealIP r) = some ip) :
    (filter.ServeHTTP r).outcome =
        (match filter.Rules.find? (fun rule => rule.Match ip) with
         | some rule => if rule.Allow then Outcome.next else Outcome.httpError 403
         | none => Outcome.next) ∧
      (filter.ServeHTTP r).consulted =
        filter.Rules.takeWhile (fun rule => !rule.Match ip) ++
          (filter.Rules.find? (fun rule => rule.Match ip)).toList := by
  unfold IPFilter.ServeHTTP
  simp only [hip]
  exact ⟨serveRules_outcome _ _, serveRules_consulted _ _⟩

theorem C1_first_match_governs_witness :
    net.ParseIP (testFilter.getRealIP (requestFrom "192.168.1.100:12345")) =
        some [0, 0, 0, 0, 0, 0, 0, 0, 0, 0, 255, 255, 192, 168, 1, 100] ∧
      (testFilter.ServeHTTP (requestFrom "192.168.1.100:12345")).outcome =
        Outcome.httpError 403 :=
  ⟨by decide,
   (C1_first_match_governs testFilter (requestFrom "192.168.1.100:12345")
      [0, 0, 0, 0, 0, 0, 0, 0, 0, 0, 255, 255, 192, 168, 1, 100] (by decide)).1.trans
      (by decide)⟩

/-! ## `Rule.Match` -/

theorem matchNetworks_iff (networks : List net.IPNet) (ip : net.IP) :
    matchNetworks networks ip = true ↔ ∃ n ∈ networks, n.Contains ip = true := by
  induction networks with
  | nil => simp [matchNetworks]
  | cons n rest ih =>
    unfold matchNetworks
    cases h : n.Contains ip <;> simp [h, ih]

theorem Rule.Match_iff (r : Rule) (ip : net.IP) :
    r.Match ip = true ↔
      (net.IP.String ip ∈ r.ips ∨ ∃ n ∈ r.networks, n.Contains ip = true) := by
  unfold Rule.Match
  by_cases h : net.IP.String ip ∈ r.ips
  · simp [h]
  · simp [h, matchNetworks_iff]

/-- C2: `Match(ip)` is true exactly when the string form of `ip` is in the exact-IP set or
some network of the list contains `ip`; rules with the same exact-IP set and the same
networks in any order give the same result. -/
theorem C2_match_iff_member_or_contained :
    (∀ (r : Rule) (ip : net.IP),
      r.Match ip = true ↔
        (net.IP.String ip ∈ r.ips ∨ ∃ n ∈ r.networks, n.Contains ip = true)) ∧
    (∀ (r r' : Rule) (ip : net.IP),
      r.ips = r'.ips → r.networks.Perm r'.networks → r.Match ip = r'.Match ip) := by
  refine ⟨Rule.Match_iff, ?_⟩
  intro r r' ip hips hperm
  rw [Bool.eq_iff_iff, Rule.Match_iff, Rule.Match_iff, hips]
  simp only [hperm.mem_iff]

/-! ## Client-IP derivation -/

theorem net.indexByte_append_cons (a b : Str) (c : Char) (ha : c ∉ a) :
    net.indexByte (a ++ c :: b) c = some a.length := by
  unfold net.indexByte
  have hc : (a ++ c :: b).contains c = true := by simp
  rw [if_pos hc, List.indexOf_append_of_not_mem ha, List.indexOf_cons_self]
  simp

theorem net.lastIndexByte_append_cons (a b : Str) (c : Char) (hb : c ∉ b) :
    net.lastIndexByte (a ++ c :: b) c = some a.length := by
  unfold net.lastIndexByte
  have hc : (a ++ c :: b).contains c = true := by simp
  have hb' : c ∉ b.reverse := by simpa using hb
  rw [if_pos hc]
  have : (a ++ c :: b).reverse = b.reverse ++ c :: a.reverse := by simp
  rw [this, List.indexOf_append_of_not_mem hb', List.indexOf_cons_self]
  simp

/-- `SplitHostPort` on `host:port` with a host free of colons and brackets. -/
theorem net.SplitHostPort_plain (host port : Str)
    (hh : ∀ c ∈ host, c ≠ ':' ∧ c ≠ '[' ∧ c ≠ ']')
    (hp : ∀ c ∈ port, c ≠ ':' ∧ c ≠ '[' ∧ c ≠ ']') :
    net.SplitHostPort (host ++ ':' :: port) = some (host, port) := by
  have h1 : ':' ∉ port := fun h => (hp _ h).1 rfl
  have h2 : ':' ∉ host := fun h => (hh _ h).1 rfl
  have h3 : '[' ∉ host := fun h => (hh _ h).2.1 rfl
  have h4 : ']' ∉ host := fun h => (hh _ h).2.2 rfl
  have h5 : '[' ∉ port := fun h => (hp _ h).2.1 rfl
  have h6 : ']' ∉ port := fun h => (hp _ h).2.2 rfl
  have hhead : (host ++ ':' :: port).head? ≠ some '[' := by
    cases host with
    | nil => simp
    | cons c cs =>
      have := (hh c (by simp)).2.1
      simpa using this
  unfold net.SplitHostPort
  rw [net.lastIndexByte_append_cons host port ':' h1]
  simp only [hhead, if_false]
  have ht : (host ++ ':' :: port).take host.length = host := by simp
  have hd : (host ++ ':' :: port).drop (host.length + 1) = port := by
    rw [← List.drop_drop]; simp
  simp [ht, hd, h2, h3, h4, h5, h6]

/-- `SplitHostPort` on `[host]:port` with a host free of brackets. -/
theorem net.SplitHostPort_bracket (host port : Str)
    (hh : ∀ c ∈ host, c ≠ '[' ∧ c ≠ ']')
    (hp : ∀ c ∈ port, c ≠ ':' ∧ c ≠ '[' ∧ c ≠ ']') :
    net.SplitHostPort ('[' :: host ++ ']' :: ':' :: port) = some (host, port) := by
  have h1 : ':' ∉ port := fun h => (hp _ h).1 rfl
  have h3 : '[' ∉ host := fun h => (hh _ h).1 rfl
  have h4 : ']' ∉ host := fun h => (hh _ h).2 rfl
  have h5 : '[' ∉ port := fun h => (hp _ h).2.1 rfl
  have h6 : ']' ∉ port := fun h => (hp _ h).2.2 rfl
  have e1 : ('[' :: host ++ ']' :: ':' :: port) = ('[' :: host ++ [']']) ++ ':' :: port := by simp
  have e2 : ('[' :: host ++ ']' :: ':' :: port) = ('[' :: host) ++ ']' :: (':' :: port) := by simp
  have hl : net.lastIndexByte ('[' :: host ++ ']' :: ':' :: port) ':' = some (host.length + 2) := by
    rw [e1, net.lastIndexByte_append_cons _ port ':' h1]; simp
  have hi : net.indexByte ('[' :: host ++ ']' :: ':' :: port) ']' = some (host.length + 1) := by
    rw [e2, net.indexByte_append_cons _ _ ']' (by simp [h4])]; simp
  have hlen : ('[' :: host ++ ']' :: ':' :: port).length = host.length + 3 + port.length := by
    simp; omega
  have hd2 : ('[' :: host ++ ']' :: ':' :: port).drop (host.length + 2) = ':' :: port := by
    rw [e1]
    have : ('[' :: host ++ [']']).length = host.length + 2 := by simp
    rw [← this, List.drop_left]
  have hd3 : ('[' :: host ++ ']' :: ':' :: port).drop (host.length + 3) = port := by
    rw [show host.length + 3 = (host.length + 2) + 1 from by omega, ← List.drop_drop, hd2]; simp
  have hne : host.length + 2 ≠ host.length + 3 + port.length := by omega
  unfold net.SplitHostPort
  rw [hl]
  simp only [hi, hlen]
  simp [hne, hd2, hd3, h3, h5, h6]

theorem getRealIP_untrusted (filter : IPFilter) (r : Request)
    (hf : filter.TrustXForwardedFor = false) (hr : filter.TrustXRealIP = false) :
    filter.getRealIP r =
      (match net.SplitHostPort r.RemoteAddr with
       | some (host, _) => host
       | none => []) := by
  unfold IPFilter.getRealIP
  simp [hf, hr]

/-- C5: with both trust flags off, `getRealIP` is the host part of `RemoteAddr` as
`net.SplitHostPort` gives it (the text before the colon of `host:port`, the text between
the brackets of `[host]:port`), whatever the headers; two requests with the same
`RemoteAddr` get the same derived address and the same result of `ServeHTTP`. -/
theorem C5_untrusted_headers_ignored (filter : IPFilter) (r : Request)
    (hf : filter.TrustXForwardedFor = false) (hr : filter.TrustXRealIP = false) :
    (filter.getRealIP r =
      (match net.SplitHostPort r.RemoteAddr with
       | some (host, _) => host
       | none => [])) ∧
    (∀ host port : Str, (∀ c ∈ host, c ≠ ':' ∧ c ≠ '[' ∧ c ≠ ']') →
      (∀ c ∈ port, c ≠ ':' ∧ c ≠ '[' ∧ c ≠ ']') →
      r.RemoteAddr = host ++ ':' :: port → filter.getRealIP r = host) ∧
    (∀ host port : Str, (∀ c ∈ host, c ≠ '[' ∧ c ≠ ']') →
      (∀ c ∈ port, c ≠ ':' ∧ c ≠ '[' ∧ c ≠ ']') →
      r.RemoteAddr = '[' :: host ++ ']' :: ':' :: port → filter.getRealIP r = host) ∧
    (∀ r' : Request, r'.RemoteAddr = r.RemoteAddr →
      filter.getRealIP r' = filter.getRealIP r ∧ filter.ServeHTTP r' = filter.ServeHTTP r) := by
  refine ⟨getRealIP_untrusted filter r hf hr, ?_, ?_, ?_⟩
  · intro host port hh hp he
    rw [getRealIP_untrusted filter r hf hr, he, net.SplitHostPort_plain host port hh hp]
  · intro host port hh hp he
    rw [getRealIP_untrusted filter r hf hr, he, net.SplitHostPort_bracket host port hh hp]
  · intro r' he
    have hg : filter.getRealIP r' = filter.getRealIP r := by
      rw [getRealIP_untrusted filter r hf hr, getRealIP_untrusted filter r' hf hr, he]
    refine ⟨hg, ?_⟩
    unfold IPFilter.ServeHTTP
    rw [hg]

theorem C5_untrusted_headers_ignored_witness :
    testFilter.getRealIP forgedRequest = "1.1.1.1".toList ∧
      testFilter.ServeHTTP forgedRequest = testFilter.ServeHTTP (requestFrom "1.1.1.1:1234") :=
  ⟨((C5_untrusted_headers_ignored testFilter forgedRequest rfl rfl).2.1
      "1.1.1.1".toList "1234".toList (by decide) (by decide) rfl),
   ((C5_untrusted_headers_ignored testFilter (requestFrom "1.1.1.1:1234") rfl rfl).2.2.2
      forgedRequest rfl).2⟩

theorem strings.Split_eq_cons (s : Str) (sep : Char) :
    ∃ rest, strings.Split s sep = s.takeWhile (fun c => c ≠ sep) :: rest := by
  induction s with
  | nil => exact ⟨[], rfl⟩
  | cons c cs ih =>
    obtain ⟨rest, hrest⟩ := ih
    unfold strings.Split
    by_cases h : c = sep
    · exact ⟨strings.Split cs sep, by simp [h, List.takeWhile]⟩
    · exact ⟨rest, by simp [h, hrest, List.takeWhile]⟩

/-- C6: with `TrustXForwardedFor` set and a non-empty `X-Forwarded-For` value,
`getRealIP` is the first comma-separated entry of that value (the text before the first
comma), trimmed, whatever it is and whatever `TrustXRealIP`, `X-Real-IP` and `RemoteAddr`
are. -/
theorem C6_forwarded_for_first_entry (filter : IPFilter) (r : Request)
    (ht : filter.TrustXForwardedFor = true)
    (hx : textproto.Header.Get r.Header "X-Forwarded-For".toList ≠ []) :
    ∃ first rest,
      strings.Split (textproto.Header.Get r.Header "X-Forwarded-For".toList) ',' =
        first :: rest ∧
      first = (textproto.Header.Get r.Header "X-Forwarded-For".toList).takeWhile
        (fun c => c ≠ ',') ∧
      filter.getRealIP r = strings.TrimSpace first := by
  obtain ⟨rest, hrest⟩ :=
    strings.Split_eq_cons (textproto.Header.Get r.Header "X-Forwarded-For".toList) ','
  refine ⟨_, rest, hrest, rfl, ?_⟩
  unfold IPFilter.getRealIP
  simp only [ht, if_true, hx, ne_eq, not_false_eq_true, hrest]

theorem C6_forwarded_for_first_entry_witness :
    trustingFilter.getRealIP forgedRequest = "2.2.2.2".toList := by
  obtain ⟨first, rest, _, hfirst, hget⟩ :=
    C6_forwarded_for_first_entry trustingFilter forgedRequest rfl (by decide)
  rw [hget, hfirst]
  decide

/-- C7 as stated fails: with only `TrustXRealIP` set and an `X-Real-Ip` header present
whose value is the empty string, `getRealIP` returns the host of `RemoteAddr`, not the
header value. -/
theorem C7_counterexample :
    ¬ (∀ (filter : IPFilter) (r : Request) (v : Str) (vs : List Str),
        (filter.TrustXForwardedFor = false ∨
          textproto.Header.Get r.Header "X-Forwarded-For".toList = []) →
        filter.TrustXRealIP = true →
        r.Header.lookup (textproto.CanonicalMIMEHeaderKey "X-Real-IP".toList) = some (v :: vs) →
        filter.getRealIP r = v) := by
  intro h
  have := h realIPFilter emptyRealIPRequest [] [] (Or.inl rfl) rfl (by decide)
  revert this
  decide

/-- When neither trusted header applies (its flag is off or its value is empty or
absent), `getRealIP` is the host part of `RemoteAddr` as `net.SplitHostPort` returns it,
and the empty string when the split fails. -/
theorem getRealIP_fallback (filter : IPFilter) (r : Request)
    (hf : filter.TrustXForwardedFor = false ∨
      textproto.Header.Get r.Header "X-Forwarded-For".toList = [])
    (hr : filter.TrustXRealIP = false ∨
      textproto.Header.Get r.Header "X-Real-IP".toList = []) :
    filter.getRealIP r =
      (match net.SplitHostPort r.RemoteAddr with
       | some (host, _) => host
       | none => []) := by
  unfold IPFilter.getRealIP
  rcases hf with hf | hf <;> rcases hr with hr | hr <;>
    simp only [hf, hr, ne_eq, not_true_eq_false, if_true, if_false, Bool.false_eq_true,
      ite_self]

/-- C7, amended: when the forwarded-for branch does not apply, `TrustXRealIP` is set and
the `X-Real-IP` header is present, then a non-empty (first) value is what `getRealIP`
returns, verbatim; and with the empty string as value the header is treated as absent:
`getRealIP` returns the host part of `RemoteAddr` as `net.SplitHostPort` gives it (the
host of `host:port` and of `[host]:port`, the empty string when the split fails), which is
also what it returns for any request with the same `RemoteAddr` that has no `X-Real-IP`
header and to which the forwarded-for branch does not apply. -/
theorem C7_real_ip_verbatim (filter : IPFilter) (r : Request) (v : Str) (vs : List Str)
    (hf : filter.TrustXForwardedFor = false ∨
      textproto.Header.Get r.Header "X-Forwarded-For".toList = [])
    (ht : filter.TrustXRealIP = true)
    (hp : r.Header.lookup (textproto.CanonicalMIMEHeaderKey "X-Real-IP".toList) =
      some (v :: vs)) :
    (v ≠ [] → filter.getRealIP r = v) ∧
    (v = [] →
      filter.getRealIP r =
        (match net.SplitHostPort r.RemoteAddr with
         | some (host, _) => host
         | none => []) ∧
      (∀ host port : Str, (∀ c ∈ host, c ≠ ':' ∧ c ≠ '[' ∧ c ≠ ']') →
        (∀ c ∈ port, c ≠ ':' ∧ c ≠ '[' ∧ c ≠ ']') →
        r.RemoteAddr = host ++ ':' :: port → filter.getRealIP r = host) ∧
      (∀ host port : Str, (∀ c ∈ host, c ≠ '[' ∧ c ≠ ']') →
        (∀ c ∈ port, c ≠ ':' ∧ c ≠ '[' ∧ c ≠ ']') →
        r.RemoteAddr = '[' :: host ++ ']' :: ':' :: port → filter.getRealIP r = host) ∧
      (∀ r' : Request, r'.RemoteAddr = r.RemoteAddr →
        r'.Header.lookup (textproto.CanonicalMIMEHeaderKey "X-Real-IP".toList) = none →
        (filter.TrustXForwardedFor = false ∨
          textproto.Header.Get r'.Header "X-Forwarded-For".toList = []) →
        filter.getRealIP r' = filter.getRealIP r)) := by
  have hget : textproto.Header.Get r.Header "X-Real-IP".toList = v := by
    unfold textproto.Header.Get
    rw [hp]
  constructor
  · intro hv
    unfold IPFilter.getRealIP
    rcases hf with hf | hf
    · simp only [hf, ht, hget, hv, ne_eq, not_false_eq_true, if_true, if_false,
        Bool.false_eq_true]
    · simp only [hf, ht, hget, hv, ne_eq, not_false_eq_true, if_true, if_false,
        not_true_eq_false, ite_self]
  · intro hv
    have hfall := getRealIP_fallback filter r hf (Or.inr (hget.trans hv))
    refine ⟨hfall, ?_, ?_, ?_⟩
    · intro host port hh hpt he
      rw [hfall, he, net.SplitHostPort_plain host port hh hpt]
    · intro host port hh hpt he
      rw [hfall, he, net.SplitHostPort_bracket host port hh hpt]
    · intro r' haddr habsent hf'
      have hget' : textproto.Header.Get r'.Header "X-Real-IP".toList = [] := by
        unfold textproto.Header.Get
        rw [habsent]
      rw [hfall, getRealIP_fallback filter r' hf' (Or.inr hget'), haddr]

theorem C7_real_ip_verbatim_witness :
    trustingFilter.getRealIP realIPRequest = "4.4.4.4".toList ∧
      realIPFilter.getRealIP emptyRealIPRequest = "1.1.1.1".toList :=
  ⟨(C7_real_ip_verbatim trustingFilter realIPRequest "4.4.4.4".toList []
      (Or.inr (by decide)) rfl (by decide)).1 (by decide),
   ((C7_real_ip_verbatim realIPFilter emptyRealIPRequest [] [] (Or.inl rfl) rfl
      (by decide)).2 rfl).2.1 "1.1.1.1".toList "1234".toList (by decide) (by decide) rfl⟩

theorem serveRules_outcome_cases (rules : List Rule) (ip : net.IP) :
    (serveRules rules ip).outcome = Outcome.httpError 403 ∨
      (serveRules rules ip).outcome = Outcome.next := by
  rw [serveRules_outcome]
  cases rules.find? (fun rule => rule.Match ip) with
  | none => exact Or.inr rfl
  | some rule => cases h : rule.Allow <;> simp

theorem ServeHTTP_of_none (filter : IPFilter) (r : Request)
    (h : net.ParseIP (filter.getRealIP r) = none) :
    filter.ServeHTTP r = { outcome := Outcome.httpError 400, consulted := [] } := by
  unfold IPFilter.ServeHTTP
  simp only [h]

theorem ServeHTTP_of_some (filter : IPFilter) (r : Request) (ip : net.IP)
    (h : net.ParseIP (filter.getRealIP r) = some ip) :
    filter.ServeHTTP r = serveRules filter.Rules ip := by
  unfold IPFilter.ServeHTTP
  simp only [h]

/-- C8: `ServeHTTP` answers 400 itself exactly when the string from `getRealIP` does not
parse as an IP; then it consults no rule and does not call the next handler; otherwise it
answers 403 or hands the request to the next handler. -/
theorem C8_bad_request_iff_unparsable (filter : IPFilter) (r : Request) :
    ((filter.ServeHTTP r).outcome = Outcome.httpError 400 ↔
        net.ParseIP (filter.getRealIP r) = none) ∧
    (net.ParseIP (filter.getRealIP r) = none →
        (filter.ServeHTTP r).consulted = [] ∧ (filter.ServeHTTP r).outcome ≠ Outcome.next) ∧
    (net.ParseIP (filter.getRealIP r) ≠ none →
        (filter.ServeHTTP r).outcome = Outcome.httpError 403 ∨
          (filter.ServeHTTP r).outcome = Outcome.next) := by
  cases h : net.ParseIP (filter.getRealIP r) with
  | none =>
    rw [ServeHTTP_of_none filter r h]
    simp
  | some ip =>
    rw [ServeHTTP_of_some filter r ip h]
    have := serveRules_outcome_cases filter.Rules ip
    refine ⟨?_, ?_, ?_⟩
    · simp only [reduceCtorEq, iff_false]
      rcases this with h1 | h1 <;> simp [h1]
    · simp
    · intro _; exact this

/-! ## Refresh -/

theorem fetchLoop_error (w : World) (pre : List Str) (arg : Str) (post : List Str)
    (err : Error) (hpre : ∀ a ∈ pre, ∃ p, loadIPList w a = .ok p)
    (harg : loadIPList w arg = .error err) (ips : Finset Str) (nets : List net.IPNet) :
    fetchLoop w (pre ++ arg :: post) ips nets = .error err := by
  induction pre generalizing ips nets with
  | nil => simp [fetchLoop, harg]
  | cons a pre ih =>
    obtain ⟨p, hp⟩ := hpre a (by simp)
    have hrest : ∀ a ∈ pre, ∃ p, loadIPList w a = .ok p :=
      fun b hb => hpre b (by simp [hb])
    simp only [List.cons_append, fetchLoop, hp]
    exact ih hrest _ _

theorem fetchLoop_ok (w : World) (args : List Str)
    (h : ∀ a ∈ args, ∃ p, loadIPList w a = .ok p) (ips : Finset Str)
    (nets : List net.IPNet) :
    fetchLoop w args ips nets =
      .ok (ips ∪ args.toFinset.biUnion (sourceIPs w),
           nets ++ (args.map (sourceNetworks w)).flatten) := by
  induction args generalizing ips nets with
  | nil => simp [fetchLoop]
  | cons a args ih =>
    obtain ⟨p, hp⟩ := h a (by simp)
    have hrest : ∀ a ∈ args, ∃ p, loadIPList w a = .ok p :=
      fun b hb => h b (by simp [hb])
    simp only [fetchLoop, hp]
    rw [ih hrest]
    have h1 : sourceIPs w a = p.1 := by simp [sourceIPs, hp]
    have h2 : sourceNetworks w a = p.2 := by simp [sourceNetworks, hp]
    simp [Finset.biUnion_insert, h1, h2, Finset.union_assoc]

theorem first_failing_source (w : World) (args : List Str)
    (h : ∃ arg ∈ args, ∃ err, loadIPList w arg = .error err) :
    ∃ pre arg post err, args = pre ++ arg :: post ∧
      (∀ a ∈ pre, ∃ p, loadIPList w a = .ok p) ∧ loadIPList w arg = .error err := by
  induction args with
  | nil => simp at h
  | cons a args ih =>
    cases ha : loadIPList w a with
    | error err => exact ⟨[], a, args, err, rfl, by simp, ha⟩
    | ok p =>
      have h' : ∃ arg ∈ args, ∃ err, loadIPList w arg = .error err := by
        obtain ⟨arg, hmem, err, herr⟩ := h
        rcases List.mem_cons.mp hmem with rfl | hmem
        · rw [ha] at herr; cases herr
        · exact ⟨arg, hmem, err, herr⟩
      obtain ⟨pre, arg, post, err, hsplit, hpre, herr⟩ := ih h'
      refine ⟨a :: pre, arg, post, err, by simp [hsplit], ?_, herr⟩
      intro b hb
      rcases List.mem_cons.mp hb with rfl | hb
      · exact ⟨p, ha⟩
      · exact hpre b hb

/-- C9: when at least one source of the rule fails to load, `Fetch` returns the error of
the first failing source in `Args` order (every source before it having loaded) and
leaves the rule, its exact-IP set and network list included, exactly as it was. -/
theorem C9_failed_fetch_keeps_snapshot (w : World) (r : Rule)
    (h : ∃ arg ∈ r.Args, ∃ err, loadIPList w arg = .error err) :
    ∃ pre arg post err, r.Args = pre ++ arg :: post ∧
      (∀ a ∈ pre, ∃ p, loadIPList w a = .ok p) ∧ loadIPList w arg = .error err ∧
      r.Fetch w = (r, some err) := by
  obtain ⟨pre, arg, post, err, hsplit, hpre, herr⟩ := first_failing_source w r.Args h
  refine ⟨pre, arg, post, err, hsplit, hpre, herr, ?_⟩
  unfold Rule.Fetch
  rw [hsplit, fetchLoop_error w pre arg post err hpre herr]

theorem C9_failed_fetch_keeps_snapshot_witness :
    (staleRule.Fetch testWorld).1 = staleRule ∧ (staleRule.Fetch testWorld).2 ≠ none := by
  obtain ⟨pre, arg, post, err, _, _, _, hfetch⟩ :=
    C9_failed_fetch_keeps_snapshot testWorld staleRule
      ⟨"file://missing.txt".toList, by decide, "no such file or directory", rfl⟩
  rw [hfetch]
  exact ⟨rfl, by simp⟩

theorem Rule.Fetch_ok (w : World) (r : Rule)
    (h : ∀ arg ∈ r.Args, ∃ p, loadIPList w arg = .ok p) :
    r.Fetch w =
      ({ r with ips := r.Args.toFinset.biUnion (sourceIPs w),
                networks := (r.Args.map (sourceNetworks w)).flatten }, none) := by
  unfold Rule.Fetch
  rw [fetchLoop_ok w r.Args h]
  simp

/-- C10: when every source of the rule loads, `Fetch` returns no error and replaces the
snapshot: the exact-IP set becomes the union of the sets parsed from the sources, the
network list the concatenation in `Args` order of the lists parsed from them (the previous
snapshot does not enter the result), so the rule then matches an address exactly when
what was parsed from at least one of its sources matches it. -/
theorem C10_fetch_is_union_of_sources (w : World) (r : Rule)
    (h : ∀ arg ∈ r.Args, ∃ p, loadIPList w arg = .ok p) :
    r.Fetch w =
      ({ r with ips := r.Args.toFinset.biUnion (sourceIPs w),
                networks := (r.Args.map (sourceNetworks w)).flatten }, none) ∧
    ∀ ip : net.IP,
      (r.Fetch w).1.Match ip = true ↔
        ∃ arg ∈ r.Args,
          Rule.Match { Allow := r.Allow, Args := [arg], ips := sourceIPs w arg,
                       networks := sourceNetworks w arg } ip = true := by
  refine ⟨Rule.Fetch_ok w r h, ?_⟩
  intro ip
  rw [Rule.Fetch_ok w r h]
  simp only [Rule.Match_iff, Finset.mem_biUnion, List.mem_toFinset, List.mem_flatten,
    List.mem_map]
  constructor
  · rintro (⟨arg, harg, hmem⟩ | ⟨n, ⟨l, ⟨arg, harg, rfl⟩, hn⟩, hc⟩)
    · exact ⟨arg, harg, Or.inl hmem⟩
    · exact ⟨arg, harg, Or.inr ⟨n, hn, hc⟩⟩
  · rintro ⟨arg, harg, hmem | ⟨n, hn, hc⟩⟩
    · exact Or.inl ⟨arg, harg, hmem⟩
    · exact Or.inr ⟨n, ⟨_, ⟨arg, harg, rfl⟩, hn⟩, hc⟩

theorem testRule_sources_load :
    ∀ arg ∈ testRule.Args, ∃ p, loadIPList testWorld arg = .ok p := by
  intro arg harg
  simp only [testRule, NewRule, List.mem_cons, List.mem_singleton, List.not_mem_nil,
    or_false] at harg
  rcases harg with rfl | rfl | rfl | rfl <;> exact ⟨_, rfl⟩

theorem C10_fetch_is_union_of_sources_witness :
    (testRule.Fetch testWorld).2 = none ∧
      (testRule.Fetch testWorld).1.Match
        [0, 0, 0, 0, 0, 0, 0, 0, 0, 0, 255, 255, 4, 4, 4, 7] = true := by
  have h := C10_fetch_is_union_of_sources testWorld testRule testRule_sources_load
  refine ⟨by rw [h.1], (h.2 _).mpr ⟨"http://127.0.0.1:8080".toList, by decide, ?_⟩⟩
  decide

/-! ## `parseIPList` -/

/-- The result of the loop of `parseIPList` in closed form: each kept line adds its
network or its exact-IP entry. -/
theorem parseIPListLoop_eq (lines : List Str) (seen ips : Finset Str)
    (networks : List net.IPNet) :
    parseIPListLoop lines seen ips networks =
      (ips ∪ ((keptLines seen lines).filterMap lineIP).toFinset,
       networks ++ (keptLines seen lines).filterMap lineNetwork) := by
  induction lines generalizing seen ips networks with
  | nil => simp [parseIPListLoop, keptLines]
  | cons line rest ih =>
    simp only [parseIPListLoop, keptLines]
    by_cases hempty : strings.TrimSpace line = []
    · simp only [hempty, if_true]
      exact ih _ _ _
    simp only [hempty, if_false]
    by_cases hseen : strings.TrimSpace line ∈ seen
    · simp only [hseen, if_true]
      exact ih _ _ _
    simp only [hseen, if_false]
    cases hc : net.ParseCIDR (strings.TrimSpace line) with
    | some p =>
      obtain ⟨ip0, network⟩ := p
      simp only [ih, List.filterMap_cons, lineIP, lineNetwork, hc, List.append_assoc,
        List.singleton_append]
    | none =>
      cases hp : net.ParseIP (strings.TrimSpace line) with
      | some ip =>
        simp only [ih, List.filterMap_cons, lineIP, lineNetwork, hc, hp, List.toFinset_cons]
        congr 1
        ext x
        simp only [Finset.mem_union, Finset.mem_insert]
        tauto
      | none =>
        simp only [ih, List.filterMap_cons, lineIP, lineNetwork, hc, hp]

theorem mem_keptLines (seen : Finset Str) (lines : List Str) (t : Str) :
    t ∈ keptLines seen lines ↔
      t ≠ [] ∧ t ∉ seen ∧ ∃ line ∈ lines, strings.TrimSpace line = t := by
  induction lines generalizing seen with
  | nil => simp [keptLines]
  | cons line rest ih =>
    simp only [keptLines]
    by_cases hempty : strings.TrimSpace line = []
    · simp only [hempty, if_true, ih, List.mem_cons, exists_eq_or_imp]
      constructor
      · rintro ⟨h1, h2, h3⟩
        exact ⟨h1, h2, Or.inr h3⟩
      · rintro ⟨h1, h2, h3 | h3⟩
        · exact absurd h3.symm h1
        · exact ⟨h1, h2, h3⟩
    simp only [hempty, if_false]
    by_cases hseen : strings.TrimSpace line ∈ seen
    · simp only [hseen, if_true, ih, List.mem_cons, exists_eq_or_imp]
      constructor
      · rintro ⟨h1, h2, h3⟩
        exact ⟨h1, h2, Or.inr h3⟩
      · rintro ⟨h1, h2, h3 | h3⟩
        · rw [h3] at hseen; exact absurd hseen h2
        · exact ⟨h1, h2, h3⟩
    simp only [hseen, if_false, List.mem_cons, ih, Finset.mem_insert, not_or,
      exists_eq_or_imp]
    constructor
    · rintro (h | ⟨h1, ⟨h2, h3⟩, h4⟩)
      · subst h
        exact ⟨hempty, hseen, Or.inl rfl⟩
      · exact ⟨h1, h3, Or.inr h4⟩
    · rintro ⟨h1, h2, h3 | h3⟩
      · exact Or.inl h3.symm
      · by_cases heq : t = strings.TrimSpace line
        · exact Or.inl heq
        · exact Or.inr ⟨h1, ⟨heq, h2⟩, h3⟩

theorem parseIPList_eq (lines : List Str) :
    parseIPList lines =
      (((keptLines ∅ lines).filterMap lineIP).toFinset,
       (keptLines ∅ lines).filterMap lineNetwork) := by
  unfold parseIPList
  rw [parseIPListLoop_eq]
  simp

/-- The exact-IP set of `parseIPList`: the entries of the trimmed non-empty lines. -/
theorem mem_parseIPList_ips (lines : List Str) (x : Str) :
    x ∈ (parseIPList lines).1 ↔
      ∃ line ∈ lines, strings.TrimSpace line ≠ [] ∧ lineIP (strings.TrimSpace line) = some x := by
  rw [parseIPList_eq]
  simp only [List.mem_toFinset, List.mem_filterMap, mem_keptLines, Finset.not_mem_empty,
    not_false_eq_true, true_and]
  constructor
  · rintro ⟨t, ⟨h1, line, h2, rfl⟩, h3⟩
    exact ⟨line, h2, h1, h3⟩
  · rintro ⟨line, h1, h2, h3⟩
    exact ⟨_, ⟨h2, line, h1, rfl⟩, h3⟩

/-- The networks of `parseIPList`: those of the trimmed non-empty lines. -/
theorem mem_parseIPList_networks (lines : List Str) (n : net.IPNet) :
    n ∈ (parseIPList lines).2 ↔
      ∃ line ∈ lines, strings.TrimSpace line ≠ [] ∧
        lineNetwork (strings.TrimSpace line) = some n := by
  rw [parseIPList_eq]
  simp only [List.mem_filterMap, mem_keptLines, Finset.not_mem_empty,
    not_false_eq_true, true_and]
  constructor
  · rintro ⟨t, ⟨h1, line, h2, rfl⟩, h3⟩
    exact ⟨line, h2, h1, h3⟩
  · rintro ⟨line, h1, h2, h3⟩
    exact ⟨_, ⟨h2, line, h1, rfl⟩, h3⟩

theorem net.ParseCIDR_none_of_ParseIP (s : Str) (ip : net.IP) (h : net.ParseIP s = some ip) :
    net.ParseCIDR s = none := by
  obtain ⟨_, hchars, _, _⟩ := net.ParseIP_spec s ip h
  have hcut : strings.Cut s '/' = none :=
    (strings.Cut_none s '/').mpr (fun hmem => isAddrChar_ne_slash _ (hchars _ hmem) rfl)
  unfold net.ParseCIDR
  rw [hcut]

/-- C4: a line holding an address text `s`, possibly surrounded by white space, makes the
rule whose active set is `parseIPList` of the lines match the address `ParseIP(s)`. -/
theorem C4_listed_address_matches (s : Str) (ip : net.IP) (pre post : Str)
    (lines : List Str) (allow : Bool) (args : List Str)
    (hs : net.ParseIP s = some ip)
    (hpre : ∀ c ∈ pre, strings.isSpace c = true)
    (hpost : ∀ c ∈ post, strings.isSpace c = true)
    (hmem : pre ++ s ++ post ∈ lines) :
    Rule.Match { Allow := allow, Args := args, ips := (parseIPList lines).1,
                 networks := (parseIPList lines).2 } ip = true := by
  obtain ⟨hne, hchars, _, _⟩ := net.ParseIP_spec s ip hs
  have htrim : strings.TrimSpace (pre ++ s ++ post) = s :=
    strings.TrimSpace_padded pre s post hpre hpost
      (fun c hc => isAddrChar_not_space c (hchars c hc))
  rw [Rule.Match_iff]
  refine Or.inl ((mem_parseIPList_ips lines _).mpr ⟨_, hmem, ?_, ?_⟩)
  · rw [htrim]; exact hne
  · rw [htrim]
    simp only [lineIP, net.ParseCIDR_none_of_ParseIP s ip hs, hs]

theorem C4_listed_address_matches_witness :
    Rule.Match
      { Allow := false, Args := [],
        ips := (parseIPList ["192.168.1.0/24".toList, "  ::1 ".toList]).1,
        networks := (parseIPList ["192.168.1.0/24".toList, "  ::1 ".toList]).2 }
      [0, 0, 0, 0, 0, 0, 0, 0, 0, 0, 0, 0, 0, 0, 0, 1] = true :=
  C4_listed_address_matches "::1".toList [0, 0, 0, 0, 0, 0, 0, 0, 0, 0, 0, 0, 0, 0, 0, 1]
    "  ".toList " ".toList ["192.168.1.0/24".toList, "  ::1 ".toList] false []
    (by decide) (by decide) (by decide) (by decide)

/-! ## Masks and prefixes -/

theorem bitAt_cons (x : Nat) (xs : List Nat) (k : Nat) :
    bitAt (x :: xs) k = if k < 8 then x.testBit (7 - k) else bitAt xs (k - 8) := by
  unfold bitAt
  by_cases h : k < 8
  · have h1 : k / 8 = 0 := by omega
    have h2 : k % 8 = k := by omega
    simp [h, h1, h2]
  · have h1 : k / 8 = (k - 8) / 8 + 1 := by omega
    have h2 : k % 8 = (k - 8) % 8 := by omega
    simp only [h, if_false]
    rw [h1, h2]
    rfl

theorem samePrefix_cons (n x y : Nat) (xs ys : List Nat) :
    samePrefix n (x :: xs) (y :: ys) ↔
      (∀ k < 8, k < n → x.testBit (7 - k) = y.testBit (7 - k)) ∧ samePrefix (n - 8) xs ys := by
  unfold samePrefix
  constructor
  · intro h
    refine ⟨fun k hk hn => ?_, fun k hk => ?_⟩
    · have := h k hn
      simpa [bitAt_cons, hk] using this
    · have := h (k + 8) (by omega)
      simpa [bitAt_cons] using this
  · rintro ⟨h1, h2⟩ k hk
    rw [bitAt_cons, bitAt_cons]
    by_cases h8 : k < 8
    · simp only [h8, if_true]; exact h1 k h8 hk
    · simp only [h8, if_false]; exact h2 (k - 8) (by omega)

theorem cidrMaskLoop_succ (l n : Nat) :
    net.cidrMaskLoop (l + 1) n = maskByte n :: net.cidrMaskLoop l (n - 8) := by
  simp only [net.cidrMaskLoop, maskByte]
  by_cases h : n ≥ 8
  · simp [h]
  · have : n - 8 = 0 := by omega
    simp [h, this]

theorem cidrMaskLoop_length (l n : Nat) : (net.cidrMaskLoop l n).length = l := by
  induction l generalizing n with
  | zero => rfl
  | succ l ih => rw [cidrMaskLoop_succ]; simp [ih]

theorem maskByte_lt (r : Nat) : maskByte r < 256 := by
  unfold maskByte
  split_ifs
  · norm_num
  · exact Nat.lt_of_le_of_lt (Nat.sub_le _ _) (by norm_num)

theorem maskByte_testBit_low (r k : Nat) (hk : k < 8) :
    (maskByte r).testBit (7 - k) = decide (k < r) := by
  by_cases h : r ≥ 8
  · have h1 : maskByte r = 255 := by simp [maskByte, h]
    have h2 : k < r := by omega
    rw [h1]
    simp only [h2, decide_True]
    have : ∀ k < 8, Nat.testBit 255 (7 - k) = true := by decide
    exact this k hk
  · have : ∀ r < 8, ∀ k < 8, (maskByte r).testBit (7 - k) = decide (k < r) := by decide
    exact this r (by omega) k hk

theorem maskByte_testBit_high (r j : Nat) (hj : 8 ≤ j) : (maskByte r).testBit j = false := by
  apply Nat.testBit_eq_false_of_lt
  calc maskByte r < 256 := maskByte_lt r
    _ = 2 ^ 8 := by norm_num
    _ ≤ 2 ^ j := Nat.pow_le_pow_right (by norm_num) hj

theorem land_eq_land_iff (x y m : Nat) :
    x &&& m = y &&& m ↔ ∀ j, m.testBit j = true → x.testBit j = y.testBit j := by
  constructor
  · intro h j hj
    have := congrArg (fun z => Nat.testBit z j) h
    simpa [Nat.testBit_land, hj] using this
  · intro h
    apply Nat.eq_of_testBit_eq
    intro j
    rw [Nat.testBit_land, Nat.testBit_land]
    cases hm : m.testBit j
    · simp
    · simp [h j hm]

theorem land_maskByte_eq_iff (x y r : Nat) :
    x &&& maskByte r = y &&& maskByte r ↔
      ∀ k < 8, k < r → x.testBit (7 - k) = y.testBit (7 - k) := by
  rw [land_eq_land_iff]
  constructor
  · intro h k hk hr
    apply h
    rw [maskByte_testBit_low r k hk]
    simpa using hr
  · intro h j hj
    by_cases h8 : 8 ≤ j
    · rw [maskByte_testBit_high r j h8] at hj; cases hj
    · have hj7 : j = 7 - (7 - j) := by omega
      rw [hj7, maskByte_testBit_low r (7 - j) (by omega)] at hj
      rw [hj7]
      exact h (7 - j) (by omega) (by simpa using hj)

/-- Two byte sequences of length `l` agree under the mask of `n` leading ones exactly
when their first `n` bits agree. -/
theorem zipWith_mask_eq_iff (l n : Nat) (x y : List Nat) (hx : x.length = l)
    (hy : y.length = l) :
    List.zipWith (fun a b => a &&& b) x (net.cidrMaskLoop l n) =
        List.zipWith (fun a b => a &&& b) y (net.cidrMaskLoop l n) ↔
      samePrefix n x y := by
  induction l generalizing n x y with
  | zero =>
    have hx0 : x = [] := List.length_eq_zero.mp hx
    have hy0 : y = [] := List.length_eq_zero.mp hy
    subst hx0 hy0
    simp [samePrefix]
  | succ l ih =>
    cases x with
    | nil => simp at hx
    | cons x0 xs =>
      cases y with
      | nil => simp at hy
      | cons y0 ys =>
        rw [cidrMaskLoop_succ, samePrefix_cons]
        simp only [List.zipWith_cons_cons, List.cons.injEq]
        rw [land_maskByte_eq_iff, ih (n - 8) xs ys (by simpa using hx) (by simpa using hy)]

theorem zipWith_mask_idem (x m : List Nat) :
    List.zipWith (fun a b => a &&& b) (List.zipWith (fun a b => a &&& b) x m) m =
      List.zipWith (fun a b => a &&& b) x m := by
  induction x generalizing m with
  | nil => simp
  | cons x0 xs ih =>
    cases m with
    | nil => simp
    | cons m0 ms =>
      simp only [List.zipWith_cons_cons, List.cons.injEq]
      refine ⟨?_, ih ms⟩
      rw [Nat.land_assoc, Nat.and_self]

theorem cidrMaskLoop_add (a b n : Nat) :
    net.cidrMaskLoop (a + b) n = net.cidrMaskLoop a n ++ net.cidrMaskLoop b (n - 8 * a) := by
  induction a generalizing n with
  | zero => simp [net.cidrMaskLoop]
  | succ a ih =>
    rw [show a + 1 + b = (a + b) + 1 from by omega, cidrMaskLoop_succ, cidrMaskLoop_succ, ih]
    simp only [List.cons_append, List.cons.injEq, true_and, List.append_cancel_left_eq]
    congr 1
    omega

theorem cidrMaskLoop_full (l n : Nat) (h : 8 * l ≤ n) :
    net.cidrMaskLoop l n = List.replicate l 255 := by
  induction l generalizing n with
  | zero => rfl
  | succ l ih =>
    rw [cidrMaskLoop_succ, ih (n - 8) (by omega), List.replicate_succ]
    simp [maskByte]
    omega

theorem land_255 (b : Nat) (h : b < 256) : b &&& 255 = b := by
  have := Nat.and_pow_two_sub_one_of_lt_two_pow (n := 8) (x := b) (by simpa using h)
  simpa using this

theorem zipWith_land_full (x : List Nat) (l : Nat) (hl : x.length = l)
    (hx : ∀ b ∈ x, b < 256) :
    List.zipWith (fun a b => a &&& b) x (List.replicate l 255) = x := by
  induction x generalizing l with
  | nil => simp
  | cons x0 xs ih =>
    cases l with
    | zero => simp at hl
    | succ l =>
      simp only [List.replicate_succ, List.zipWith_cons_cons, List.cons.injEq]
      exact ⟨land_255 x0 (hx x0 (by simp)),
        ih l (by simpa using hl) (fun b hb => hx b (by simp [hb]))⟩

theorem samePrefix_append (l n : Nat) (x y p q : List Nat) (hx : x.length = l)
    (hy : y.length = l) :
    samePrefix n (x ++ p) (y ++ q) ↔
      samePrefix (min n (8 * l)) x y ∧ samePrefix (n - 8 * l) p q := by
  induction l generalizing n x y with
  | zero =>
    have hx0 : x = [] := List.length_eq_zero.mp hx
    have hy0 : y = [] := List.length_eq_zero.mp hy
    subst hx0 hy0
    simp [samePrefix]
  | succ l ih =>
    cases x with
    | nil => simp at hx
    | cons x0 xs =>
      cases y with
      | nil => simp at hy
      | cons y0 ys =>
        simp only [List.cons_append, samePrefix_cons]
        rw [ih (n - 8) xs ys (by simpa using hx) (by simpa using hy)]
        have e1 : min n (8 * (l + 1)) - 8 = min (n - 8) (8 * l) := by omega
        have e2 : n - 8 - 8 * l = n - 8 * (l + 1) := by omega
        rw [e1, e2]
        constructor
        · rintro ⟨h1, h2, h3⟩
          exact ⟨⟨fun k hk hn => h1 k hk (by omega), h2⟩, h3⟩
        · rintro ⟨⟨h1, h2⟩, h3⟩
          exact ⟨fun k hk hn => h1 k hk (by omega), h2, h3⟩

theorem samePrefix_mono (n m : Nat) (x y : List Nat) (h : m ≤ n)
    (hs : samePrefix n x y) : samePrefix m x y :=
  fun k hk => hs k (by omega)

theorem samePrefix_refl (n : Nat) (x : List Nat) : samePrefix n x x :=
  fun _ _ => rfl

/-- Byte sequences of the same length that agree on all their bits are equal. -/
theorem eq_of_samePrefix_full (l : Nat) (x y : List Nat) (hx : x.length = l)
    (hy : y.length = l) (hbx : ∀ b ∈ x, b < 256) (hby : ∀ b ∈ y, b < 256)
    (h : samePrefix (8 * l) x y) : x = y := by
  have := (zipWith_mask_eq_iff l (8 * l) x y hx hy).mpr h
  rwa [cidrMaskLoop_full l (8 * l) (le_refl _), zipWith_land_full x l hx hbx,
    zipWith_land_full y l hy hby] at this

theorem net.IP.To4_of_length_four (ip : net.IP) (h : ip.length = 4) :
    net.IP.To4 ip = some ip := by
  simp [net.IP.To4, h]

theorem net.IP.To4_append (p q : List Nat) (hp : p.length = 12) (hq : q.length = 4) :
    net.IP.To4 (p ++ q) = if p = v4Prefix then some q else none := by
  rcases p with _ | ⟨p0, _ | ⟨p1, _ | ⟨p2, _ | ⟨p3, _ | ⟨p4, _ | ⟨p5, _ | ⟨p6, _ | ⟨p7,
    _ | ⟨p8, _ | ⟨p9, _ | ⟨p10, _ | ⟨p11, _ | ⟨p12, p⟩⟩⟩⟩⟩⟩⟩⟩⟩⟩⟩⟩⟩ <;>
    simp at hp
  simp only [net.IP.To4, v4Prefix, List.cons_append, List.nil_append, List.length_cons, hq]
  simp
  simp only [and_assoc]

theorem net.IP.Valid_cases (a : net.IP) (ha : net.IP.Valid a) :
    (∃ a4, a4.length = 4 ∧ net.IP.To4 a = some a4 ∧ net.IP.To16 a = v4Prefix ++ a4) ∨
    (net.IP.To4 a = none ∧ a.length = 16 ∧ net.IP.To16 a = a ∧
      ∃ pa qa, a = pa ++ qa ∧ pa.length = 12 ∧ qa.length = 4 ∧ pa ≠ v4Prefix ∧
        ∀ b ∈ pa, b < 256) := by
  obtain ⟨hlen, hb⟩ := ha
  rcases hlen with h4 | h16
  · left
    exact ⟨a, h4, net.IP.To4_of_length_four a h4, by simp [net.IP.To16, h4, netip.v4InV6, v4Prefix]⟩
  · have hsplit : a = a.take 12 ++ a.drop 12 := (List.take_append_drop 12 a).symm
    have hp : (a.take 12).length = 12 := by simp [h16]
    have hq : (a.drop 12).length = 4 := by simp [h16]
    have hto4 := net.IP.To4_append (a.take 12) (a.drop 12) hp hq
    rw [← hsplit] at hto4
    have h16' : net.IP.To16 a = a := by simp [net.IP.To16, h16]
    by_cases hpre : a.take 12 = v4Prefix
    · left
      refine ⟨a.drop 12, hq, by simp [hto4, hpre], ?_⟩
      rw [h16', ← hpre]
      exact hsplit
    · right
      refine ⟨by simp [hto4, hpre], h16, h16', a.take 12, a.drop 12, hsplit, hp, hq, hpre, ?_⟩
      intro b hmem
      exact hb b (List.mem_of_mem_take hmem)

/-- `Contains` for the network of an IPv4 CIDR: the address must be an IPv4 address with
the same first `n` bits. -/
theorem net.IPNet.Contains_v4 (addr : List Nat) (n : Nat) (a : net.IP)
    (haddr : addr.length = 4) (ha : net.IP.Valid a) :
    net.IPNet.Contains
        { IP := List.zipWith (fun a b => a &&& b) addr (net.cidrMaskLoop 4 n),
          Mask := net.cidrMaskLoop 4 n } a = true ↔
      ∃ a4, net.IP.To4 a = some a4 ∧ samePrefix n addr a4 := by
  have hX : (List.zipWith (fun a b => a &&& b) addr (net.cidrMaskLoop 4 n)).length = 4 := by
    simp [haddr, cidrMaskLoop_length]
  have hnnm : net.networkNumberAndMask
      { IP := List.zipWith (fun a b => a &&& b) addr (net.cidrMaskLoop 4 n),
        Mask := net.cidrMaskLoop 4 n } =
      some (List.zipWith (fun a b => a &&& b) addr (net.cidrMaskLoop 4 n),
        net.cidrMaskLoop 4 n) := by
    simp only [net.networkNumberAndMask, net.IP.To4_of_length_four _ hX, cidrMaskLoop_length,
      hX, if_true, ne_eq, not_true_eq_false, if_false]
  unfold net.IPNet.Contains
  rw [hnnm]
  simp only [hX, zipWith_mask_idem]
  rcases net.IP.Valid_cases a ha with ⟨a4, h4, hto4, _⟩ | ⟨hto4, h16, _, _⟩
  · simp only [hto4, h4, ne_eq, not_true_eq_false, if_false, beq_iff_eq, Option.some.injEq,
      exists_eq_left']
    exact zipWith_mask_eq_iff 4 n addr a4 haddr h4
  · simp [hto4, h16]

theorem v4Prefix_lt : ∀ b ∈ v4Prefix, b < 256 := by decide

theorem masked_prefix_full (p : List Nat) (n : Nat) (hp : p.length = 12)
    (hb : ∀ b ∈ p, b < 256) (hn : 96 ≤ n) :
    List.zipWith (fun a b => a &&& b) p (net.cidrMaskLoop 12 n) = p := by
  rw [cidrMaskLoop_full 12 n (by omega), zipWith_land_full p 12 hp hb]

/-- A masked 12-byte start can only be the IPv4-in-IPv6 start when the mask covers it
entirely. -/
theorem masked_prefix_eq_v4Prefix (p : List Nat) (n : Nat) (hp : p.length = 12)
    (h : List.zipWith (fun a b => a &&& b) p (net.cidrMaskLoop 12 n) = v4Prefix) :
    96 ≤ n := by
  by_contra hlt
  have hsplit : p = p.take 11 ++ p.drop 11 := (List.take_append_drop 11 p).symm
  have hlast : ∃ x, p.drop 11 = [x] := by
    have hl : (p.drop 11).length = 1 := by simp [hp]
    match hd : p.drop 11, hl with
    | [x], _ => exact ⟨x, rfl⟩
  obtain ⟨x, hx⟩ := hlast
  have hone : ∀ r, net.cidrMaskLoop 1 r = [maskByte r] := fun r => by
    rw [show (1 : Nat) = 0 + 1 from rfl, cidrMaskLoop_succ]
    rfl
  have hmask : net.cidrMaskLoop 12 n = net.cidrMaskLoop 11 n ++ [maskByte (n - 88)] := by
    rw [show (12 : Nat) = 11 + 1 from rfl, cidrMaskLoop_add 11 1 n, hone]
  rw [hsplit, hx, hmask, List.zipWith_append _ _ _ _ _ (by simp [hp, cidrMaskLoop_length])] at h
  have hv : v4Prefix = [0, 0, 0, 0, 0, 0, 0, 0, 0, 0, 255] ++ [255] := rfl
  rw [hv] at h
  have hlen : (List.zipWith (fun a b => a &&& b) (p.take 11) (net.cidrMaskLoop 11 n)).length =
      ([0, 0, 0, 0, 0, 0, 0, 0, 0, 0, 255] : List Nat).length := by
    simp [hp, cidrMaskLoop_length]
  have h2 := (List.append_inj h hlen).2
  simp only [List.zipWith_cons_cons, List.zipWith_nil_right, List.cons.injEq, and_true] at h2
  have hbit := congrArg (fun z => Nat.testBit z 0) h2
  simp only [Nat.testBit_land] at hbit
  have hm : (maskByte (n - 88)).testBit (7 - 7) = decide (7 < n - 88) :=
    maskByte_testBit_low (n - 88) 7 (by omega)
  have hfalse : decide (7 < n - 88) = false := by
    simp only [decide_eq_false_iff_not]; omega
  rw [hfalse] at hm
  simp only [Nat.sub_self] at hm
  rw [hm] at hbit
  simp at hbit

theorem net.IPNet.Contains_of_length_ne (nw : net.IPNet) (a ip nn : net.IP)
    (m : net.IPMask) (hnnm : net.networkNumberAndMask nw = some (nn, m))
    (hip : (match net.IP.To4 a with
      | some x => x
      | none => a) = ip)
    (hlen : ip.length ≠ nn.length) : nw.Contains a = false := by
  unfold net.IPNet.Contains
  simp only [hnnm, hip, hlen, ne_eq, not_false_eq_true, if_true]

theorem net.IPNet.Contains_of_length_eq (nw : net.IPNet) (a ip nn : net.IP)
    (m : net.IPMask) (hnnm : net.networkNumberAndMask nw = some (nn, m))
    (hip : (match net.IP.To4 a with
      | some x => x
      | none => a) = ip)
    (hlen : ip.length = nn.length) :
    nw.Contains a = true ↔
      List.zipWith (fun a b => a &&& b) nn m = List.zipWith (fun a b => a &&& b) ip m := by
  unfold net.IPNet.Contains
  simp only [hnnm, hip, hlen, ne_eq, not_true_eq_false, if_false, beq_iff_eq]

/-- `Contains` for the network of an IPv6 CIDR: the 16-byte form of the address must have
the same first `n` bits, and an IPv4 address is only accepted under a prefix of at least
96 bits. -/
theorem net.IPNet.Contains_v6 (addr : List Nat) (n : Nat) (a : net.IP)
    (haddr : addr.length = 16) (hb : ∀ b ∈ addr, b < 256) (ha : net.IP.Valid a) :
    net.IPNet.Contains
        { IP := List.zipWith (fun a b => a &&& b) addr (net.cidrMaskLoop 16 n),
          Mask := net.cidrMaskLoop 16 n } a = true ↔
      samePrefix n addr (net.IP.To16 a) ∧ ¬ (n < 96 ∧ (net.IP.To4 a).isSome = true) := by
  -- split the address and the mask after twelve bytes
  obtain ⟨p, q, rfl, hp, hq⟩ : ∃ p q, addr = p ++ q ∧ p.length = 12 ∧ q.length = 4 :=
    ⟨addr.take 12, addr.drop 12, (List.take_append_drop 12 addr).symm, by simp [haddr],
      by simp [haddr]⟩
  have hbp : ∀ b ∈ p, b < 256 := fun b hmem => hb b (by simp [hmem])
  have hM : net.cidrMaskLoop 16 n = net.cidrMaskLoop 12 n ++ net.cidrMaskLoop 4 (n - 96) := by
    rw [show (16 : Nat) = 12 + 4 from rfl, cidrMaskLoop_add 12 4 n]
  have hX : List.zipWith (fun a b => a &&& b) (p ++ q) (net.cidrMaskLoop 16 n) =
      List.zipWith (fun a b => a &&& b) p (net.cidrMaskLoop 12 n) ++
        List.zipWith (fun a b => a &&& b) q (net.cidrMaskLoop 4 (n - 96)) := by
    rw [hM, List.zipWith_append _ _ _ _ _ (by simp [hp, cidrMaskLoop_length])]
  have hP' : (List.zipWith (fun a b => a &&& b) p (net.cidrMaskLoop 12 n)).length = 12 := by
    simp [hp, cidrMaskLoop_length]
  have hQ' : (List.zipWith (fun a b => a &&& b) q (net.cidrMaskLoop 4 (n - 96))).length = 4 := by
    simp [hq, cidrMaskLoop_length]
  have hto4X := net.IP.To4_append _ _ hP' hQ'
  have hXlen : (List.zipWith (fun a b => a &&& b) (p ++ q) (net.cidrMaskLoop 16 n)).length =
      16 := by
    simp [hp, hq, cidrMaskLoop_length]
  have hdropM : (net.cidrMaskLoop 16 n).drop 12 = net.cidrMaskLoop 4 (n - 96) := by
    rw [hM]
    exact List.drop_left' (cidrMaskLoop_length 12 n)
  have h96 : 96 ≤ n → min n (8 * 12) = 8 * 12 := fun h => by omega
  by_cases hmapped : List.zipWith (fun a b => a &&& b) p (net.cidrMaskLoop 12 n) = v4Prefix
  · -- the network number is an IPv4 address in 16-byte form
    have hn : 96 ≤ n := masked_prefix_eq_v4Prefix p n hp hmapped
    have hpv : p = v4Prefix := by rw [← masked_prefix_full p n hp hbp hn]; exact hmapped
    have hto4 : net.IP.To4
        (List.zipWith (fun a b => a &&& b) (p ++ q) (net.cidrMaskLoop 16 n)) =
        some (List.zipWith (fun a b => a &&& b) q (net.cidrMaskLoop 4 (n - 96))) := by
      rw [hX, hto4X, if_pos hmapped]
    have hnnm : net.networkNumberAndMask
        { IP := List.zipWith (fun a b => a &&& b) (p ++ q) (net.cidrMaskLoop 16 n),
          Mask := net.cidrMaskLoop 16 n } =
        some (List.zipWith (fun a b => a &&& b) q (net.cidrMaskLoop 4 (n - 96)),
          net.cidrMaskLoop 4 (n - 96)) := by
      simp only [net.networkNumberAndMask, hto4, cidrMaskLoop_length, hQ', hdropM]
      simp
    rcases net.IP.Valid_cases a ha with ⟨a4, h4, hto4a, h16⟩ | ⟨hto4a, h16, hto16, pa, qa, rfl,
        hpa, hqa, hne, hbpa⟩
    · rw [net.IPNet.Contains_of_length_eq _ a a4 _ _ hnnm (by rw [hto4a]) (by rw [h4, hQ']),
        zipWith_mask_idem, zipWith_mask_eq_iff 4 (n - 96) q a4 hq h4, h16,
        samePrefix_append 12 n p v4Prefix q a4 hp rfl]
      constructor
      · intro h
        exact ⟨⟨by rw [hpv]; exact samePrefix_refl _ _, h⟩, fun hc => by omega⟩
      · intro h
        exact h.1.2
    · have hfalse := net.IPNet.Contains_of_length_ne _ (pa ++ qa) (pa ++ qa) _ _ hnnm
        (by rw [hto4a]) (by rw [h16, hQ']; decide)
      rw [hfalse, hto16]
      simp only [Bool.false_eq_true, false_iff, not_and, not_not]
      intro hsame
      rw [samePrefix_append 12 n p pa q qa hp hpa, h96 hn] at hsame
      exact absurd (by
        rw [← hpv]
        exact (eq_of_samePrefix_full 12 p pa hp hpa hbp hbpa hsame.1).symm) hne
  · -- the network number is not an IPv4 address
    have hto4 : net.IP.To4
        (List.zipWith (fun a b => a &&& b) (p ++ q) (net.cidrMaskLoop 16 n)) = none := by
      rw [hX, hto4X, if_neg hmapped]
    have hnnm : net.networkNumberAndMask
        { IP := List.zipWith (fun a b => a &&& b) (p ++ q) (net.cidrMaskLoop 16 n),
          Mask := net.cidrMaskLoop 16 n } =
        some (List.zipWith (fun a b => a &&& b) (p ++ q) (net.cidrMaskLoop 16 n),
          net.cidrMaskLoop 16 n) := by
      simp only [net.networkNumberAndMask, hto4, hXlen, cidrMaskLoop_length]
      simp [hp, hq, cidrMaskLoop_length]
    rcases net.IP.Valid_cases a ha with ⟨a4, h4, hto4a, h16⟩ | ⟨hto4a, h16, hto16, _⟩
    · have hfalse := net.IPNet.Contains_of_length_ne _ a a4 _ _ hnnm
        (by rw [hto4a]) (by rw [h4, hXlen]; decide)
      rw [hfalse, h16, hto4a]
      simp only [Bool.false_eq_true, false_iff, Option.isSome_some, and_true, not_and, not_not]
      intro hsame
      by_contra hn
      have hn' : 96 ≤ n := by omega
      apply hmapped
      rw [masked_prefix_full p n hp hbp hn']
      rw [samePrefix_append 12 n p v4Prefix q a4 hp rfl, h96 hn'] at hsame
      exact eq_of_samePrefix_full 12 p v4Prefix hp rfl hbp v4Prefix_lt hsame.1
    · rw [net.IPNet.Contains_of_length_eq _ a a _ _ hnnm (by rw [hto4a]) (by rw [h16, hXlen]),
        zipWith_mask_idem, zipWith_mask_eq_iff 16 n (p ++ q) a (by simp [hp, hq]) h16, hto16,
        hto4a]
      simp

/-- What `ParseCIDR` makes of a CIDR text: the address and prefix length the text denotes,
and the network as the masked address with the mask of `n` ones; such a text holds no
white space. -/
theorem net.ParseCIDR_network (c : Str) (ip : net.IP) (nw : net.IPNet)
    (h : net.ParseCIDR c = some (ip, nw)) :
    ∃ addr n, cidrParts c = some (addr, n) ∧ (addr.length = 4 ∨ addr.length = 16) ∧
      (∀ b ∈ addr, b < 256) ∧
      nw = { IP := List.zipWith (fun a b => a &&& b) addr (net.cidrMaskLoop addr.length n),
             Mask := net.cidrMaskLoop addr.length n } ∧
      c ≠ [] ∧ ∀ x ∈ c, strings.isSpace x = false := by
  obtain ⟨addrText, maskText, a0, n, hc, hcut, ha, hz, hd, hdig, hne, hn, hmask, hmk, _⟩ :=
    net.ParseCIDR_spec c ip nw h
  obtain ⟨hne', hchars, hlen, hb, h4⟩ := netip.ParseAddr_spec addrText a0 ha hz
  have hspace : ∀ x ∈ c, strings.isSpace x = false := by
    intro x hx
    rw [hc] at hx
    simp only [List.mem_append, List.mem_cons] at hx
    rcases hx with hx | rfl | hx
    · exact isAddrChar_not_space x (hchars x hx)
    · decide
    · exact netip.isDigit_not_space x (hdig x hx)
  have hcne : c ≠ [] := by rw [hc]; simp
  have hparts : cidrParts c = some (if a0.is4 then a0.bytes.drop 12 else a0.bytes, n) := by
    simp only [cidrParts, hcut, ha, hd]
  cases his4 : a0.is4 with
  | true =>
    obtain ⟨fields, hfl, hbytes⟩ := h4 his4
    simp only [his4, if_true] at hmask hparts
    have hdrop : a0.bytes.drop 12 = fields := by rw [hbytes]; rfl
    rw [hdrop] at hparts
    have hIP : nw.IP = List.zipWith (fun a b => a &&& b) fields (net.cidrMaskLoop 4 n) := by
      rw [hmask, hbytes] at hmk
      simp only [net.IP.Mask, cidrMaskLoop_length, netip.v4InV6, List.length_append,
        List.length_cons, List.length_nil, hfl] at hmk
      simpa [cidrMaskLoop_length, hfl] using hmk.symm
    refine ⟨fields, n, hparts, Or.inl hfl, ?_, ?_, hcne, hspace⟩
    · intro b hmem
      exact hb b (by rw [hbytes]; simp [netip.v4InV6, hmem])
    · rw [hfl]
      cases nw
      simp only at hIP hmask
      rw [hIP, hmask]
  | false =>
    simp only [his4, if_false, Bool.false_eq_true] at hmask hparts
    have hIP : nw.IP = List.zipWith (fun a b => a &&& b) a0.bytes (net.cidrMaskLoop 16 n) := by
      rw [hmask] at hmk
      simp only [net.IP.Mask, cidrMaskLoop_length, hlen] at hmk
      simpa [cidrMaskLoop_length, hlen] using hmk.symm
    refine ⟨a0.bytes, n, hparts, Or.inr hlen, hb, ?_, hcne, hspace⟩
    rw [hlen]
    cases nw
    simp only at hIP hmask
    rw [hIP, hmask]

/-- `Contains` for the network of a CIDR text, in terms of the range of the text. -/
theorem net.IPNet.Contains_iff_inCIDRRange (c : Str) (ip a : net.IP) (nw : net.IPNet)
    (h : net.ParseCIDR c = some (ip, nw)) (ha : net.IP.Valid a) :
    nw.Contains a = true ↔ inCIDRRange c a ∧ ¬ ipv4UnderShortIPv6Prefix c a := by
  obtain ⟨addr, n, hparts, hlen, hb, rfl, _, _⟩ := net.ParseCIDR_network c ip nw h
  simp only [inCIDRRange, ipv4UnderShortIPv6Prefix, hparts]
  rcases hlen with h4 | h16
  · rw [h4, net.IPNet.Contains_v4 addr n a h4 ha]
    simp only [h4, if_true]
    cases net.IP.To4 a with
    | none => simp
    | some a4 => simp
  · rw [h16, net.IPNet.Contains_v6 addr n a h16 hb ha]
    simp [h16]

/-! ## CIDR lines -/

theorem parseIPList_singleton_cidr (c : Str) (ip : net.IP) (nw : net.IPNet)
    (h : net.ParseCIDR c = some (ip, nw)) : parseIPList [c] = (∅, [nw]) := by
  obtain ⟨_, _, _, _, _, _, hne, hspace⟩ := net.ParseCIDR_network c ip nw h
  have htrim : strings.TrimSpace c = c := by
    have := strings.TrimSpace_padded [] c [] (by simp) (by simp) hspace
    simpa using this
  rw [parseIPList_eq]
  simp [keptLines, htrim, hne, lineIP, lineNetwork, h]

theorem mem_parseIPList_of_cidr (c : Str) (ip : net.IP) (nw : net.IPNet) (lines : List Str)
    (h : net.ParseCIDR c = some (ip, nw)) (hmem : c ∈ lines) :
    nw ∈ (parseIPList lines).2 := by
  obtain ⟨_, _, _, _, _, _, hne, hspace⟩ := net.ParseCIDR_network c ip nw h
  have htrim : strings.TrimSpace c = c := by
    have := strings.TrimSpace_padded [] c [] (by simp) (by simp) hspace
    simpa using this
  refine (mem_parseIPList_networks lines nw).mpr ⟨c, hmem, by rw [htrim]; exact hne, ?_⟩
  rw [htrim]
  simp [lineNetwork, h]

/-- C3 as stated fails: the IPv4-mapped address `::ffff:1.2.3.4` lies within the range of
the IPv6 CIDR `::/0` (every 16-byte address does), yet the rule built from the list
`["::/0"]` does not match it. -/
theorem C3_counterexample :
    net.ParseCIDR "::/0".toList ≠ none ∧
    net.ParseIP "::ffff:1.2.3.4".toList = some mappedAddr ∧
    net.IP.Valid mappedAddr ∧
    inCIDRRange "::/0".toList mappedAddr ∧
    Rule.Match { Allow := false, Args := [], ips := (parseIPList ["::/0".toList]).1,
                 networks := (parseIPList ["::/0".toList]).2 } mappedAddr = false := by
  refine ⟨by decide, by decide, by decide, by decide, by decide⟩

/-- C3, amended: for a valid CIDR text `c` and a valid address `a`, a list containing `c`
makes the rule match `a` whenever `a` lies within the range of `c`, and for the list `[c]`
the rule matches `a` exactly when `a` lies within the range of `c`, both except for an
IPv4 address (4 bytes or IPv4-mapped) under an IPv6 CIDR with a prefix shorter than 96
bits, which is never matched. -/
theorem C3_cidr_range_matches (c : Str) (a : net.IP)
    (hc : net.ParseCIDR c ≠ none) (ha : net.IP.Valid a) :
    (∀ (lines : List Str) (allow : Bool) (args : List Str), c ∈ lines →
      inCIDRRange c a → ¬ ipv4UnderShortIPv6Prefix c a →
      Rule.Match { Allow := allow, Args := args, ips := (parseIPList lines).1,
                   networks := (parseIPList lines).2 } a = true) ∧
    (∀ (allow : Bool) (args : List Str),
      Rule.Match { Allow := allow, Args := args, ips := (parseIPList [c]).1,
                   networks := (parseIPList [c]).2 } a = true ↔
        inCIDRRange c a ∧ ¬ ipv4UnderShortIPv6Prefix c a) := by
  cases h : net.ParseCIDR c with
  | none => exact absurd h hc
  | some r =>
    obtain ⟨ip, nw⟩ := r
    have hcontains := net.IPNet.Contains_iff_inCIDRRange c ip a nw h ha
    constructor
    · intro lines allow args hmem hin hnot
      rw [Rule.Match_iff]
      exact Or.inr ⟨nw, mem_parseIPList_of_cidr c ip nw lines h hmem,
        hcontains.mpr ⟨hin, hnot⟩⟩
    · intro allow args
      rw [Rule.Match_iff, parseIPList_singleton_cidr c ip nw h, ← hcontains]
      simp

theorem C3_cidr_range_matches_witness :
    Rule.Match
        { Allow := false, Args := [],
          ips := (parseIPList ["1.1.1.1".toList, "192.168.1.0/24".toList]).1,
          networks := (parseIPList ["1.1.1.1".toList, "192.168.1.0/24".toList]).2 }
        [0, 0, 0, 0, 0, 0, 0, 0, 0, 0, 255, 255, 192, 168, 1, 100] = true ∧
      Rule.Match
        { Allow := false, Args := [],
          ips := (parseIPList ["192.168.1.0/24".toList]).1,
          networks := (parseIPList ["192.168.1.0/24".toList]).2 }
        [0, 0, 0, 0, 0, 0, 0, 0, 0, 0, 255, 255, 192, 168, 2, 1] = false := by
  have h1 := C3_cidr_range_matches "192.168.1.0/24".toList
    [0, 0, 0, 0, 0, 0, 0, 0, 0, 0, 255, 255, 192, 168, 1, 100] (by decide) (by decide)
  have h2 := C3_cidr_range_matches "192.168.1.0/24".toList
    [0, 0, 0, 0, 0, 0, 0, 0, 0, 0, 255, 255, 192, 168, 2, 1] (by decide) (by decide)
  refine ⟨h1.1 _ false [] (by decide) (by decide) (by decide), ?_⟩
  rw [Bool.eq_false_iff]
  intro hm
  have := ((h2.2 false []).mp hm).1
  revert this
  decide

/-! ## Lines that contribute nothing, repeated lines, and the set of lines -/

theorem filterMap_cons_congr {α β : Type} (f : α → Option β) (x : α) (A B : List α)
    (h : A.filterMap f = B.filterMap f) : (x :: A).filterMap f = (x :: B).filterMap f := by
  simp only [List.filterMap_cons]
  cases f x <;> simp [h]

/-- Adding to `seen` a text that yields nothing under `f` does not change what the kept
lines yield under `f`. -/
theorem filterMap_keptLines_insert {β : Type} (f : Str → Option β) (t : Str)
    (ht : f t = none) (seen : Finset Str) (lines : List Str) :
    (keptLines (insert t seen) lines).filterMap f = (keptLines seen lines).filterMap f := by
  induction lines generalizing seen with
  | nil => rfl
  | cons line rest ih =>
    simp only [keptLines]
    by_cases hempty : strings.TrimSpace line = []
    · simp only [hempty, if_true]
      exact ih seen
    simp only [hempty, if_false]
    by_cases hseen : strings.TrimSpace line ∈ seen
    · have h' : strings.TrimSpace line ∈ insert t seen := Finset.mem_insert_of_mem hseen
      simp only [hseen, h', if_true]
      exact ih seen
    by_cases heq : strings.TrimSpace line = t
    · have h' : strings.TrimSpace line ∈ insert t seen := by
        rw [heq]; exact Finset.mem_insert_self _ _
      simp only [hseen, h', if_true, if_false]
      rw [heq, List.filterMap_cons, ht]
    · have h' : strings.TrimSpace line ∉ insert t seen := by
        simp only [Finset.mem_insert, not_or]
        exact ⟨heq, hseen⟩
      simp only [hseen, h', if_false]
      apply filterMap_cons_congr
      rw [Finset.Insert.comm]
      exact ih (insert (strings.TrimSpace line) seen)

/-- A line whose trimmed text yields nothing under `f`, or is empty, can be inserted at
any position without changing what the kept lines yield under `f`. -/
theorem filterMap_keptLines_insert_line {β : Type} (f : Str → Option β) (junk : Str)
    (hj : strings.TrimSpace junk = [] ∨ f (strings.TrimSpace junk) = none)
    (seen : Finset Str) (pre post : List Str) :
    (keptLines seen (pre ++ junk :: post)).filterMap f =
      (keptLines seen (pre ++ post)).filterMap f := by
  induction pre generalizing seen with
  | nil =>
    simp only [List.nil_append, keptLines]
    by_cases hempty : strings.TrimSpace junk = []
    · simp only [hempty, if_true]
    simp only [hempty, if_false]
    by_cases hseen : strings.TrimSpace junk ∈ seen
    · simp only [hseen, if_true]
    have hf : f (strings.TrimSpace junk) = none := by
      rcases hj with hj | hj
      · exact absurd hj hempty
      · exact hj
    simp only [hseen, if_false]
    rw [List.filterMap_cons, hf]
    exact filterMap_keptLines_insert f _ hf seen post
  | cons line rest ih =>
    simp only [List.cons_append, keptLines]
    by_cases hempty : strings.TrimSpace line = []
    · simp only [hempty, if_true]
      exact ih seen
    simp only [hempty, if_false]
    by_cases hseen : strings.TrimSpace line ∈ seen
    · simp only [hseen, if_true]
      exact ih seen
    simp only [hseen, if_false]
    exact filterMap_cons_congr f _ _ _ (ih (insert (strings.TrimSpace line) seen))

theorem lineIP_none_of_neither (t : Str) (hc : net.ParseCIDR t = none)
    (hi : net.ParseIP t = none) : lineIP t = none := by
  simp only [lineIP, hc, hi]

theorem lineNetwork_none_of_neither (t : Str) (hc : net.ParseCIDR t = none) :
    lineNetwork t = none := by
  simp only [lineNetwork, hc]

/-- C12: `parseIPList` is a total function (it has no error result), and a line that is
empty after trimming or whose trimmed text parses neither as a CIDR nor as an IP address
contributes nothing: with or without such a line at any position, the returned exact-IP
set and network list are the same. -/
theorem C12_junk_lines_ignored (pre post : List Str) (junk : Str)
    (hj : strings.TrimSpace junk = [] ∨
      (net.ParseCIDR (strings.TrimSpace junk) = none ∧
        net.ParseIP (strings.TrimSpace junk) = none)) :
    parseIPList (pre ++ junk :: post) = parseIPList (pre ++ post) := by
  rw [parseIPList_eq, parseIPList_eq]
  have h1 : strings.TrimSpace junk = [] ∨ lineIP (strings.TrimSpace junk) = none := by
    rcases hj with hj | ⟨hc, hi⟩
    · exact Or.inl hj
    · exact Or.inr (lineIP_none_of_neither _ hc hi)
  have h2 : strings.TrimSpace junk = [] ∨ lineNetwork (strings.TrimSpace junk) = none := by
    rcases hj with hj | ⟨hc, _⟩
    · exact Or.inl hj
    · exact Or.inr (lineNetwork_none_of_neither _ hc)
  rw [filterMap_keptLines_insert_line lineIP junk h1 ∅ pre post,
    filterMap_keptLines_insert_line lineNetwork junk h2 ∅ pre post]

theorem C12_junk_lines_ignored_witness :
    parseIPList ["1.1.1.1".toList, "# comment".toList, "192.168.1.0/24".toList] =
      parseIPList ["1.1.1.1".toList, "192.168.1.0/24".toList] :=
  C12_junk_lines_ignored ["1.1.1.1".toList] ["192.168.1.0/24".toList] "# comment".toList
    (Or.inr (by decide))
theorem keptLines_nodup (seen : Finset Str) (lines : List Str) :
    (keptLines seen lines).Nodup := by
  induction lines generalizing seen with
  | nil => simp [keptLines]
  | cons line rest ih =>
    simp only [keptLines]
    by_cases hempty : strings.TrimSpace line = []
    · simp only [hempty, if_true]
      exact ih seen
    simp only [hempty, if_false]
    by_cases hseen : strings.TrimSpace line ∈ seen
    · simp only [hseen, if_true]
      exact ih seen
    simp only [hseen, if_false, List.nodup_cons]
    refine ⟨?_, ih _⟩
    intro hmem
    have := ((mem_keptLines _ _ _).mp hmem).2.1
    exact this (Finset.mem_insert_self _ _)

theorem keptLines_append (seen : Finset Str) (l1 l2 : List Str) :
    keptLines seen (l1 ++ l2) =
      keptLines seen l1 ++ keptLines (seen ∪ (keptLines seen l1).toFinset) l2 := by
  induction l1 generalizing seen with
  | nil => simp [keptLines]
  | cons line rest ih =>
    simp only [List.cons_append, keptLines]
    by_cases hempty : strings.TrimSpace line = []
    · simp only [hempty, if_true]
      exact ih seen
    simp only [hempty, if_false]
    by_cases hseen : strings.TrimSpace line ∈ seen
    · simp only [hseen, if_true]
      exact ih seen
    simp only [hseen, if_false, List.cons_append, List.toFinset_cons]
    refine congrArg _ ((ih (insert (strings.TrimSpace line) seen)).trans ?_)
    congr 2
    ext x
    simp only [Finset.mem_union, Finset.mem_insert]
    tauto

theorem keptLines_eq_nil_of_seen (seen : Finset Str) (lines : List Str)
    (h : ∀ line ∈ lines, strings.TrimSpace line ≠ [] → strings.TrimSpace line ∈ seen) :
    keptLines seen lines = [] := by
  rw [List.eq_nil_iff_forall_not_mem]
  intro t ht
  obtain ⟨hne, hns, line, hline, rfl⟩ := (mem_keptLines seen lines t).mp ht
  exact hns (h line hline hne)

theorem keptLines_append_self (lines : List Str) :
    keptLines ∅ (lines ++ lines) = keptLines ∅ lines := by
  have hnil : keptLines (∅ ∪ (keptLines ∅ lines).toFinset) lines = [] := by
    apply keptLines_eq_nil_of_seen
    intro line hline hne
    simp only [Finset.empty_union, List.mem_toFinset]
    exact (mem_keptLines ∅ lines _).mpr ⟨hne, Finset.not_mem_empty _, line, hline, rfl⟩
  rw [keptLines_append, hnil, List.append_nil]

/-- C17: within one pass of `parseIPList` the lines that are equal after trimming are
processed once: the processed lines have no repetition, the network list holds exactly one
entry for each distinct trimmed line that is a CIDR (in the order of first occurrence), and
`parseIPList (l ++ l)` returns what `parseIPList l` returns. -/
theorem C17_repeated_lines_suppressed (lines : List Str) :
    (keptLines ∅ lines).Nodup ∧
    (∃ cidrs : List Str, cidrs.Nodup ∧
      (∀ t, t ∈ cidrs ↔
        (∃ line ∈ lines, strings.TrimSpace line = t) ∧ (net.ParseCIDR t).isSome = true) ∧
      (parseIPList lines).2 = cidrs.filterMap lineNetwork ∧
      (parseIPList lines).2.length = cidrs.length) ∧
    parseIPList (lines ++ lines) = parseIPList lines := by
  refine ⟨keptLines_nodup ∅ lines, ?_, ?_⟩
  · refine ⟨(keptLines ∅ lines).filter (fun t => (lineNetwork t).isSome),
      (keptLines_nodup ∅ lines).filter _, ?_, ?_, ?_⟩
    · intro t
      have hiff : (lineNetwork t).isSome = true ↔ (net.ParseCIDR t).isSome = true := by
        unfold lineNetwork
        cases net.ParseCIDR t <;> simp
      simp only [List.mem_filter, mem_keptLines, Finset.not_mem_empty, not_false_eq_true,
        true_and, hiff]
      constructor
      · rintro ⟨⟨_, h2⟩, h3⟩
        exact ⟨h2, h3⟩
      · rintro ⟨h2, h3⟩
        refine ⟨⟨?_, h2⟩, h3⟩
        rintro rfl
        revert h3
        decide
    · rw [parseIPList_eq]
      simp only
      induction keptLines ∅ lines with
      | nil => rfl
      | cons t ts ih =>
        simp only [List.filterMap_cons, List.filter_cons]
        cases ht : lineNetwork t with
        | none => simpa using ih
        | some n => simp [ht, ih]
    · rw [parseIPList_eq]
      simp only
      induction keptLines ∅ lines with
      | nil => rfl
      | cons t ts ih =>
        simp only [List.filterMap_cons, List.filter_cons]
        cases ht : lineNetwork t with
        | none => simpa using ih
        | some n => simp [ht, ih]
  · rw [parseIPList_eq, parseIPList_eq, keptLines_append_self]

/-- C19: matching is monotone in the list of lines and depends only on the set of lines:
when every line of `l1` occurs in `l2`, an address matched by the rule built from
`parseIPList l1` is matched by the rule built from `parseIPList l2`; lists with the same
lines (permuted, duplicated) give the same `Match` result. -/
theorem C19_match_monotone_in_lines (l1 l2 : List Str) (a : net.IP) (allow : Bool)
    (args : List Str) (h : ∀ line ∈ l1, line ∈ l2) :
    (Rule.Match { Allow := allow, Args := args, ips := (parseIPList l1).1,
                  networks := (parseIPList l1).2 } a = true →
      Rule.Match { Allow := allow, Args := args, ips := (parseIPList l2).1,
                   networks := (parseIPList l2).2 } a = true) ∧
    ((∀ line ∈ l2, line ∈ l1) →
      Rule.Match { Allow := allow, Args := args, ips := (parseIPList l1).1,
                   networks := (parseIPList l1).2 } a =
        Rule.Match { Allow := allow, Args := args, ips := (parseIPList l2).1,
                     networks := (parseIPList l2).2 } a) := by
  have mono : ∀ (m1 m2 : List Str), (∀ line ∈ m1, line ∈ m2) →
      Rule.Match { Allow := allow, Args := args, ips := (parseIPList m1).1,
                   networks := (parseIPList m1).2 } a = true →
      Rule.Match { Allow := allow, Args := args, ips := (parseIPList m2).1,
                   networks := (parseIPList m2).2 } a = true := by
    intro m1 m2 hsub
    simp only [Rule.Match_iff, mem_parseIPList_ips, mem_parseIPList_networks]
    rintro (⟨line, hl, h1, h2⟩ | ⟨n, ⟨line, hl, h1, h2⟩, hc⟩)
    · exact Or.inl ⟨line, hsub line hl, h1, h2⟩
    · exact Or.inr ⟨n, ⟨line, hsub line hl, h1, h2⟩, hc⟩
  refine ⟨mono l1 l2 h, fun h' => ?_⟩
  rw [Bool.eq_iff_iff]
  exact ⟨mono l1 l2 h, mono l2 l1 h'⟩

theorem C19_match_monotone_in_lines_witness :
    Rule.Match
      { Allow := false, Args := [],
        ips := (parseIPList ["10.0.0.0/8".toList, "1.1.1.1".toList, "1.1.1.1".toList]).1,
        networks := (parseIPList ["10.0.0.0/8".toList, "1.1.1.1".toList,
          "1.1.1.1".toList]).2 }
      [0, 0, 0, 0, 0, 0, 0, 0, 0, 0, 255, 255, 1, 1, 1, 1] = true :=
  (C19_match_monotone_in_lines ["1.1.1.1".toList]
    ["10.0.0.0/8".toList, "1.1.1.1".toList, "1.1.1.1".toList]
    [0, 0, 0, 0, 0, 0, 0, 0, 0, 0, 255, 255, 1, 1, 1, 1] false [] (by decide)).1 (by decide)

/-! ## Allow-only filters, missing ports, and repeated refresh -/

theorem serveRules_outcome_append_allow (pre post : List Rule) (ip : net.IP)
    (hpost : ∀ rule ∈ post, rule.Allow = true) :
    (serveRules (pre ++ post) ip).outcome = (serveRules pre ip).outcome := by
  induction pre with
  | nil =>
    simp only [List.nil_append]
    induction post with
    | nil => rfl
    | cons rule rest ih =>
      have hr := hpost rule (by simp)
      unfold serveRules
      cases hm : rule.Match ip
      · simpa [hm] using ih (fun x hx => hpost x (by simp [hx]))
      · simp [hm, hr, serveRules]
  | cons rule rest ih =>
    simp only [List.cons_append]
    unfold serveRules
    cases hm : rule.Match ip
    · simpa [hm] using ih
    · cases ha : rule.Allow <;> simp [hm, ha]

/-- C18: a filter whose rules are all allow rules hands every request whose derived client
string parses as an IP to the next handler, whatever the rules hold; more generally the
allow rules at the end of a rule list (after the last deny rule) can be removed without
changing any verdict. -/
theorem C18_allow_only_never_rejects (filter : IPFilter) (r : Request) (ip : net.IP)
    (hip : net.ParseIP (filter.getRealIP r) = some ip) :
    ((∀ rule ∈ filter.Rules, rule.Allow = true) →
      (filter.ServeHTTP r).outcome = Outcome.next) ∧
    (∀ pre post : List Rule, filter.Rules = pre ++ post →
      (∀ rule ∈ post, rule.Allow = true) →
      (filter.ServeHTTP r).outcome =
        (IPFilter.ServeHTTP { filter with Rules := pre } r).outcome) := by
  have hget : ∀ rules : List Rule,
      IPFilter.getRealIP { filter with Rules := rules } r = filter.getRealIP r := fun _ => rfl
  constructor
  · intro hall
    rw [ServeHTTP_of_some filter r ip hip]
    have := serveRules_outcome_append_allow [] filter.Rules ip hall
    simpa [serveRules] using this
  · intro pre post hsplit hpost
    rw [ServeHTTP_of_some filter r ip hip,
      ServeHTTP_of_some { filter with Rules := pre } r ip (by rw [hget]; exact hip), hsplit]
    exact serveRules_outcome_append_allow pre post ip hpost

theorem C18_allow_only_never_rejects_witness :
    (allowOnlyFilter.ServeHTTP (requestFrom "1.1.1.1:12345")).outcome = Outcome.next :=
  (C18_allow_only_never_rejects allowOnlyFilter (requestFrom "1.1.1.1:12345")
    [0, 0, 0, 0, 0, 0, 0, 0, 0, 0, 255, 255, 1, 1, 1, 1] (by decide)).1 (by decide)

theorem net.SplitHostPort_no_colon (hostport : Str) (h : ':' ∉ hostport) :
    net.SplitHostPort hostport = none := by
  unfold net.SplitHostPort net.lastIndexByte
  simp [h]

/-- C20: when no trusted header applies and `net.SplitHostPort` rejects `RemoteAddr`
(as it does for every text without a colon, such as a bare `1.1.1.1`), `getRealIP` returns
the empty string and `ServeHTTP` answers 400 without consulting any rule. -/
theorem C20_missing_port_is_bad_request (filter : IPFilter) (r : Request)
    (hf : filter.TrustXForwardedFor = false ∨
      textproto.Header.Get r.Header "X-Forwarded-For".toList = [])
    (hr : filter.TrustXRealIP = false ∨
      textproto.Header.Get r.Header "X-Real-IP".toList = [])
    (hsplit : net.SplitHostPort r.RemoteAddr = none) :
    (':' ∉ r.RemoteAddr → net.SplitHostPort r.RemoteAddr = none) ∧
    filter.getRealIP r = [] ∧
    filter.ServeHTTP r = { outcome := Outcome.httpError 400, consulted := [] } := by
  have hget : filter.getRealIP r = [] := by
    unfold IPFilter.getRealIP
    rcases hf with hf | hf <;> rcases hr with hr | hr <;>
      simp only [hf, hr, hsplit, ne_eq, not_true_eq_false, if_false, Bool.false_eq_true,
        ite_self]
  refine ⟨net.SplitHostPort_no_colon _, hget, ?_⟩
  apply ServeHTTP_of_none
  rw [hget]
  decide

theorem C20_missing_port_is_bad_request_witness :
    testFilter.getRealIP (requestFrom "1.1.1.1") = [] ∧
      testFilter.ServeHTTP (requestFrom "1.1.1.1") =
        { outcome := Outcome.httpError 400, consulted := [] } ∧
      (testFilter.ServeHTTP (requestFrom "1.1.1.1:80")).outcome = Outcome.httpError 403 :=
  ⟨(C20_missing_port_is_bad_request testFilter (requestFrom "1.1.1.1") (Or.inl rfl)
      (Or.inl rfl) (by decide)).2.1,
   (C20_missing_port_is_bad_request testFilter (requestFrom "1.1.1.1") (Or.inl rfl)
      (Or.inl rfl) (by decide)).2.2,
   by decide⟩

theorem Rule.Fetch_args (w : World) (r : Rule) :
    (r.Fetch w).1.Args = r.Args ∧ (r.Fetch w).1.Allow = r.Allow := by
  unfold Rule.Fetch
  cases fetchLoop w r.Args ∅ [] with
  | error err => exact ⟨rfl, rfl⟩
  | ok p => exact ⟨rfl, rfl⟩

theorem Rule.Fetch_congr (w : World) (r r' : Rule) (hallow : r'.Allow = r.Allow)
    (hargs : r'.Args = r.Args) (h : ∀ arg ∈ r.Args, ∃ p, loadIPList w arg = .ok p) :
    r'.Fetch w = r.Fetch w := by
  rw [Rule.Fetch_ok w r h, Rule.Fetch_ok w r' (by rw [hargs]; exact h), hargs]
  cases r
  cases r'
  simp only at hallow hargs
  simp [hallow, hargs]

/-- C13: a successful refresh is idempotent: with the same resolution of the sources, a
second `Fetch` leaves the rule exactly as the first one did, so `Match` gives the same
result after one and after two refreshes; the outcome does not depend on the snapshot the
rule held before. -/
theorem C13_fetch_idempotent (w : World) (r : Rule)
    (h : ∀ arg ∈ r.Args, ∃ p, loadIPList w arg = .ok p) :
    Rule.Fetch w (r.Fetch w).1 = r.Fetch w ∧
    (∀ ip : net.IP, (Rule.Fetch w (r.Fetch w).1).1.Match ip = (r.Fetch w).1.Match ip) ∧
    (∀ r' : Rule, r'.Allow = r.Allow → r'.Args = r.Args → r'.Fetch w = r.Fetch w) := by
  have hself : Rule.Fetch w (r.Fetch w).1 = r.Fetch w :=
    Rule.Fetch_congr w r _ (Rule.Fetch_args w r).2 (Rule.Fetch_args w r).1 h
  exact ⟨hself, fun ip => by rw [hself], fun r' ha hb => Rule.Fetch_congr w r r' ha hb h⟩

theorem C13_fetch_idempotent_witness :
    Rule.Fetch testWorld (testRule.Fetch testWorld).1 = testRule.Fetch testWorld :=
  (C13_fetch_idempotent testWorld testRule testRule_sources_load).1

/-- After a successful `Fetch` the rule matches an address exactly when some source's
parsed content does. -/
theorem Rule.Fetch_match_iff (w : World) (r : Rule)
    (h : ∀ arg ∈ r.Args, ∃ p, loadIPList w arg = .ok p) (ip : net.IP) :
    (r.Fetch w).1.Match ip = true ↔
      ∃ arg ∈ r.Args, net.IP.String ip ∈ sourceIPs w arg ∨
        ∃ n ∈ sourceNetworks w arg, n.Contains ip = true := by
  rw [Rule.Fetch_ok w r h]
  simp only [Rule.Match_iff, Finset.mem_biUnion, List.mem_toFinset, List.mem_flatten,
    List.mem_map]
  constructor
  · rintro (⟨arg, harg, hmem⟩ | ⟨n, ⟨l, ⟨arg, harg, rfl⟩, hn⟩, hc⟩)
    · exact ⟨arg, harg, Or.inl hmem⟩
    · exact ⟨arg, harg, Or.inr ⟨n, hn, hc⟩⟩
  · rintro ⟨arg, harg, hmem | ⟨n, hn, hc⟩⟩
    · exact Or.inl ⟨arg, harg, hmem⟩
    · exact Or.inr ⟨n, ⟨_, ⟨arg, harg, rfl⟩, hn⟩, hc⟩

theorem loadIPList_all (w : World) :
    loadIPList w ruleALl = .ok (∅, allNetworks) := by
  have hc : loadContent w ruleALl =
      .ok ("0.0.0.0/0".toList ++ [Char.ofNat 10] ++ "::/0".toList) := rfl
  unfold loadIPList
  rw [hc]
  have hp : parseIPList (strings.Split ("0.0.0.0/0".toList ++ [Char.ofNat 10] ++ "::/0".toList)
      (Char.ofNat 10)) = (∅, allNetworks) := by decide
  exact congrArg Except.ok hp

/-- The two networks of the token `all` contain every valid address between them. -/
theorem allNetworks_contain (a : net.IP) (ha : net.IP.Valid a) :
    ∃ n ∈ allNetworks, n.Contains a = true := by
  rcases net.IP.Valid_cases a ha with ⟨a4, h4, hto4, _⟩ | ⟨hto4, h16, _, _⟩
  · refine ⟨{ IP := [0, 0, 0, 0], Mask := [0, 0, 0, 0] }, by simp [allNetworks], ?_⟩
    have := (net.IPNet.Contains_v4 [0, 0, 0, 0] 0 a rfl ha).mpr
      ⟨a4, hto4, fun k hk => absurd hk (Nat.not_lt_zero k)⟩
    exact this
  · refine ⟨{ IP := List.replicate 16 0, Mask := List.replicate 16 0 },
      by simp [allNetworks], ?_⟩
    have := (net.IPNet.Contains_v6 (List.replicate 16 0) 0 a rfl (by decide) ha).mpr
      ⟨fun k hk => absurd hk (Nat.not_lt_zero k), by simp [hto4]⟩
    exact this

/-- C11: the token `all` resolves, in every world and without reading it, to the two lines
`0.0.0.0/0` and `::/0`; a rule whose `Args` contain it and whose other sources load has,
after `Fetch`, no error and matches every valid IP address. -/
theorem C11_all_matches_every_address (w : World) (r : Rule) (a : net.IP)
    (hall : ruleALl ∈ r.Args)
    (h : ∀ arg ∈ r.Args, arg ≠ ruleALl → ∃ p, loadIPList w arg = .ok p)
    (ha : net.IP.Valid a) :
    (∀ w' : World, loadContent w' ruleALl =
      .ok ("0.0.0.0/0".toList ++ [Char.ofNat 10] ++ "::/0".toList)) ∧
    (r.Fetch w).2 = none ∧ (r.Fetch w).1.Match a = true := by
  have hload : ∀ arg ∈ r.Args, ∃ p, loadIPList w arg = .ok p := by
    intro arg harg
    by_cases he : arg = ruleALl
    · exact ⟨_, by rw [he]; exact loadIPList_all w⟩
    · exact h arg harg he
  refine ⟨fun _ => rfl, by rw [Rule.Fetch_ok w r hload], ?_⟩
  rw [Rule.Fetch_match_iff w r hload]
  refine ⟨ruleALl, hall, Or.inr ?_⟩
  have hs : sourceNetworks w ruleALl = allNetworks := by
    simp only [sourceNetworks, loadIPList_all w]
  rw [hs]
  exact allNetworks_contain a ha

theorem C11_all_matches_every_address_witness :
    (allRule.Fetch testWorld).2 = none ∧
      (allRule.Fetch testWorld).1.Match mappedAddr = true ∧
      (allRule.Fetch testWorld).1.Match
        [0x20, 0x01, 0x0d, 0xb8, 0, 0, 0, 0, 0, 0, 0, 0, 0, 0, 0, 1] = true :=
  ⟨(C11_all_matches_every_address testWorld allRule mappedAddr (by decide)
      (fun arg harg hne => by
        simp only [allRule, NewRule, List.mem_cons, List.mem_singleton, List.not_mem_nil,
          or_false] at harg
        rcases harg with rfl | rfl
        · exact ⟨_, rfl⟩
        · exact absurd rfl hne) (by decide)).2.1,
   (C11_all_matches_every_address testWorld allRule mappedAddr (by decide)
      (fun arg harg hne => by
        simp only [allRule, NewRule, List.mem_cons, List.mem_singleton, List.not_mem_nil,
          or_false] at harg
        rcases harg with rfl | rfl
        · exact ⟨_, rfl⟩
        · exact absurd rfl hne) (by decide)).2.2,
   (C11_all_matches_every_address testWorld allRule
      [0x20, 0x01, 0x0d, 0xb8, 0, 0, 0, 0, 0, 0, 0, 0, 0, 0, 0, 1] (by decide)
      (fun arg harg hne => by
        simp only [allRule, NewRule, List.mem_cons, List.mem_singleton, List.not_mem_nil,
          or_false] at harg
        rcases harg with rfl | rfl
        · exact ⟨_, rfl⟩
        · exact absurd rfl hne) (by decide)).2.2⟩

/-! ## Refresh cycles -/

theorem updateRulesLoop_periodic (filter : IPFilter) (env : Int → World) (rules : List Rule) :
    updateRulesLoop filter env false rules =
      (rules.map (fun rule => (rule.Fetch (env filter.fetchTimeout)).1), none) := by
  induction rules with
  | nil => rfl
  | cons rule rest ih =>
    simp only [updateRulesLoop, IPFilter.updateRule, ih, List.map_cons]
    cases (rule.Fetch (env filter.fetchTimeout)) with
    | mk rule' err => cases err <;> simp

theorem Rule.Fetch_error (w : World) (r : Rule)
    (h : ∃ arg ∈ r.Args, ∃ err, loadIPList w arg = .error err) :
    (r.Fetch w).1 = r ∧ (r.Fetch w).2 ≠ none := by
  obtain ⟨pre, arg, post, err, hsplit, hpre, herr⟩ := first_failing_source w r.Args h
  have : r.Fetch w = (r, some err) := by
    unfold Rule.Fetch
    rw [hsplit, fetchLoop_error w pre arg post err hpre herr]
  rw [this]
  exact ⟨rfl, by simp⟩

/-- C14: a periodic cycle `updateRules(false)` returns no error and runs `Fetch` on every
rule of the list, whatever fails: each rule whose sources all load gets the snapshot
parsed from them, each rule with a failing source is left exactly as it was; nothing else
in the filter changes. -/
theorem C14_periodic_cycle_isolates_failures (filter : IPFilter) (env : Int → World) :
    (filter.updateRules env false).2 = none ∧
    (filter.updateRules env false).1 =
      { filter with
        Rules := filter.Rules.map (fun rule => (rule.Fetch (env filter.fetchTimeout)).1) } ∧
    (∀ rule ∈ filter.Rules,
      ((∀ arg ∈ rule.Args, ∃ p, loadIPList (env filter.fetchTimeout) arg = .ok p) →
        (rule.Fetch (env filter.fetchTimeout)).1 =
          { rule with
            ips := rule.Args.toFinset.biUnion (sourceIPs (env filter.fetchTimeout)),
            networks := (rule.Args.map (sourceNetworks (env filter.fetchTimeout))).flatten }) ∧
      ((∃ arg ∈ rule.Args, ∃ err, loadIPList (env filter.fetchTimeout) arg = .error err) →
        (rule.Fetch (env filter.fetchTimeout)).1 = rule ∧
          ∀ ip : net.IP, (rule.Fetch (env filter.fetchTimeout)).1.Match ip = rule.Match ip)) := by
  refine ⟨?_, ?_, ?_⟩
  · simp only [IPFilter.updateRules, updateRulesLoop_periodic]
  · simp only [IPFilter.updateRules, updateRulesLoop_periodic]
  · intro rule _
    constructor
    · intro hok
      rw [Rule.Fetch_ok _ rule hok]
    · intro hfail
      have := (Rule.Fetch_error _ rule hfail).1
      exact ⟨this, fun ip => by rw [this]⟩

theorem updateRulesLoop_cons_ok (filter : IPFilter) (env : Int → World) (init : Bool)
    (rule : Rule) (rest : List Rule)
    (h : (rule.Fetch (env filter.fetchTimeout)).2 = none) :
    updateRulesLoop filter env init (rule :: rest) =
      ((rule.Fetch (env filter.fetchTimeout)).1 :: (updateRulesLoop filter env init rest).1,
        (updateRulesLoop filter env init rest).2) := by
  rw [updateRulesLoop]
  unfold IPFilter.updateRule
  cases hf : rule.Fetch (env filter.fetchTimeout) with
  | mk rule' e =>
    rw [hf] at h
    simp only at h
    subst h
    rfl

theorem updateRulesLoop_cons_error (filter : IPFilter) (env : Int → World)
    (rule : Rule) (rest : List Rule) (err : Error)
    (h : (rule.Fetch (env filter.fetchTimeout)).2 = some err) :
    updateRulesLoop filter env true (rule :: rest) =
      ((rule.Fetch (env filter.fetchTimeout)).1 :: rest, some err) := by
  rw [updateRulesLoop]
  unfold IPFilter.updateRule
  cases hf : rule.Fetch (env filter.fetchTimeout) with
  | mk rule' e =>
    rw [hf] at h
    simp only at h
    subst h
    rfl

theorem updateRulesLoop_init_ok (filter : IPFilter) (env : Int → World) (rules : List Rule)
    (h : ∀ rule ∈ rules, (rule.Fetch (env filter.fetchTimeout)).2 = none) :
    updateRulesLoop filter env true rules =
      (rules.map (fun rule => (rule.Fetch (env filter.fetchTimeout)).1), none) := by
  induction rules with
  | nil => rfl
  | cons rule rest ih =>
    rw [updateRulesLoop_cons_ok filter env true rule rest (h rule (by simp)),
      ih (fun x hx => h x (by simp [hx]))]
    rfl

theorem updateRulesLoop_init_error (filter : IPFilter) (env : Int → World)
    (pre : List Rule) (rule : Rule) (post : List Rule) (err : Error)
    (hpre : ∀ x ∈ pre, (x.Fetch (env filter.fetchTimeout)).2 = none)
    (herr : (rule.Fetch (env filter.fetchTimeout)).2 = some err) :
    updateRulesLoop filter env true (pre ++ rule :: post) =
      (pre.map (fun x => (x.Fetch (env filter.fetchTimeout)).1) ++
        (rule.Fetch (env filter.fetchTimeout)).1 :: post, some err) := by
  induction pre with
  | nil => exact updateRulesLoop_cons_error filter env rule post err herr
  | cons x pre ih =>
    rw [List.cons_append, updateRulesLoop_cons_ok filter env true x _ (hpre x (by simp)),
      ih (fun y hy => hpre y (by simp [hy]))]
    rfl

theorem updateRulesLoop_interval (filter : IPFilter) (env : Int → World) (init : Bool)
    (interval : Int) (rules : List Rule) :
    updateRulesLoop { filter with Interval := interval } env init rules =
      updateRulesLoop filter env init rules := by
  induction rules with
  | nil => rfl
  | cons rule rest ih =>
    rw [updateRulesLoop, updateRulesLoop, ih]
    rfl

theorem first_failing_rule (w : World) (rules : List Rule)
    (h : ∃ rule ∈ rules, (rule.Fetch w).2 ≠ none) :
    ∃ pre rule post err, rules = pre ++ rule :: post ∧
      (∀ x ∈ pre, (x.Fetch w).2 = none) ∧ (rule.Fetch w).2 = some err := by
  induction rules with
  | nil => simp at h
  | cons a rules ih =>
    cases ha : (a.Fetch w).2 with
    | some err => exact ⟨[], a, rules, err, rfl, by simp, ha⟩
    | none =>
      have h' : ∃ rule ∈ rules, (rule.Fetch w).2 ≠ none := by
        obtain ⟨rule, hmem, hne⟩ := h
        rcases List.mem_cons.mp hmem with rfl | hmem
        · exact absurd ha hne
        · exact ⟨rule, hmem, hne⟩
      obtain ⟨pre, rule, post, err, hsplit, hpre, herr⟩ := ih h'
      refine ⟨a :: pre, rule, post, err, by simp [hsplit], ?_, herr⟩
      intro b hb
      rcases List.mem_cons.mp hb with rfl | hb
      · exact ha
      · exact hpre b hb

theorem IPFilter.Provision_fetchTimeout (filter : IPFilter) :
    IPFilter.fetchTimeout
      (if filter.Interval = 0 then { filter with Interval := Hour } else filter) =
      filter.fetchTimeout := by
  split_ifs <;> rfl

/-- C15: the initial cycle `updateRules(true)` returns an error exactly when the `Fetch` of
some rule fails, and then it is the error of the first such rule in list order (the rules
before it refreshed, the ones after it untouched); when it returns no error, every rule
has been refreshed without error. `Provision` returns an error in exactly the same cases,
with that error's text after `updating IP lists: `. -/
theorem C15_startup_refresh_is_fatal (filter : IPFilter) (env : Int → World) :
    ((filter.updateRules env true).2 ≠ none ↔
      ∃ rule ∈ filter.Rules, (rule.Fetch (env filter.fetchTimeout)).2 ≠ none) ∧
    (∀ (pre : List Rule) (rule : Rule) (post : List Rule) (err : Error),
      filter.Rules = pre ++ rule :: post →
      (∀ x ∈ pre, (x.Fetch (env filter.fetchTimeout)).2 = none) →
      (rule.Fetch (env filter.fetchTimeout)).2 = some err →
      (filter.updateRules env true).2 = some err ∧
      (filter.updateRules env true).1.Rules =
        pre.map (fun x => (x.Fetch (env filter.fetchTimeout)).1) ++
          (rule.Fetch (env filter.fetchTimeout)).1 :: post ∧
      (filter.Provision env).2 = some ("updating IP lists: " ++ err)) ∧
    ((filter.updateRules env true).2 = none →
      (∀ rule ∈ filter.Rules, (rule.Fetch (env filter.fetchTimeout)).2 = none) ∧
      (filter.updateRules env true).1.Rules =
        filter.Rules.map (fun rule => (rule.Fetch (env filter.fetchTimeout)).1)) ∧
    ((filter.Provision env).2 ≠ none ↔
      ∃ rule ∈ filter.Rules, (rule.Fetch (env filter.fetchTimeout)).2 ≠ none) := by
  -- the two possible courses of the loop
  have hcases :
      (∃ pre rule post err, filter.Rules = pre ++ rule :: post ∧
        (∀ x ∈ pre, (x.Fetch (env filter.fetchTimeout)).2 = none) ∧
        (rule.Fetch (env filter.fetchTimeout)).2 = some err) ∨
      (∀ rule ∈ filter.Rules, (rule.Fetch (env filter.fetchTimeout)).2 = none) := by
    by_cases h : ∃ rule ∈ filter.Rules, (rule.Fetch (env filter.fetchTimeout)).2 ≠ none
    · exact Or.inl (first_failing_rule _ _ h)
    · right
      intro rule hmem
      by_contra hne
      exact h ⟨rule, hmem, hne⟩
  have hfail : ∀ (pre : List Rule) (rule : Rule) (post : List Rule) (err : Error),
      filter.Rules = pre ++ rule :: post →
      (∀ x ∈ pre, (x.Fetch (env filter.fetchTimeout)).2 = none) →
      (rule.Fetch (env filter.fetchTimeout)).2 = some err →
      filter.updateRules env true =
        ({ filter with Rules := pre.map (fun x => (x.Fetch (env filter.fetchTimeout)).1) ++
            (rule.Fetch (env filter.fetchTimeout)).1 :: post }, some err) := by
    intro pre rule post err hsplit hpre herr
    simp only [IPFilter.updateRules]
    rw [hsplit, updateRulesLoop_init_error filter env pre rule post err hpre herr]
  have hok : (∀ rule ∈ filter.Rules, (rule.Fetch (env filter.fetchTimeout)).2 = none) →
      filter.updateRules env true =
        ({ filter with
           Rules := filter.Rules.map (fun rule => (rule.Fetch (env filter.fetchTimeout)).1) },
         none) := by
    intro h
    simp only [IPFilter.updateRules]
    rw [updateRulesLoop_init_ok filter env filter.Rules h]
  have hprov : (filter.Provision env).2 =
      (filter.updateRules env true).2.map (fun err => "updating IP lists: " ++ err) := by
    have hsame : (IPFilter.updateRules
        (if filter.Interval = 0 then { filter with Interval := Hour } else filter) env true).2 =
        (filter.updateRules env true).2 := by
      simp only [IPFilter.updateRules]
      split_ifs
      · exact congrArg Prod.snd (updateRulesLoop_interval filter env true Hour filter.Rules)
      · rfl
    unfold IPFilter.Provision
    simp only
    rw [← hsame]
    cases hres : IPFilter.updateRules
        (if filter.Interval = 0 then { filter with Interval := Hour } else filter) env true with
    | mk f' e => cases e <;> rfl
  have hiff : (filter.updateRules env true).2 ≠ none ↔
      ∃ rule ∈ filter.Rules, (rule.Fetch (env filter.fetchTimeout)).2 ≠ none := by
    rcases hcases with ⟨pre, rule, post, err, hsplit, hpre, herr⟩ | hall
    · rw [hfail pre rule post err hsplit hpre herr]
      simp only [ne_eq, reduceCtorEq, not_false_eq_true, true_iff]
      exact ⟨rule, by rw [hsplit]; simp, by rw [herr]; simp⟩
    · rw [hok hall]
      simp only [ne_eq, not_true_eq_false, false_iff, not_exists, not_and, not_not]
      exact hall
  refine ⟨hiff, ?_, ?_, ?_⟩
  · intro pre rule post err hsplit hpre herr
    have := hfail pre rule post err hsplit hpre herr
    refine ⟨by rw [this], by rw [this], ?_⟩
    rw [hprov, this]
    rfl
  · intro hnone
    have hall : ∀ rule ∈ filter.Rules, (rule.Fetch (env filter.fetchTimeout)).2 = none := by
      intro rule hmem
      by_contra hne
      exact (hiff.mpr ⟨rule, hmem, hne⟩) hnone
    exact ⟨hall, by rw [hok hall]⟩
  · rw [hprov, ← hiff]
    cases (filter.updateRules env true).2 <;> simp
/-- A periodic cycle on `mixedFilter`: no error, the failing rule keeps its snapshot and
the other rule is refreshed; the same filter fails to provision. -/
theorem mixedFilter_cycles :
    (mixedFilter.updateRules (fun _ => testWorld) false).2 = none ∧
    (mixedFilter.updateRules (fun _ => testWorld) false).1.Rules =
      [staleRule, (testRule.Fetch testWorld).1] ∧
    (mixedFilter.Provision (fun _ => testWorld)).2 =
      some "updating IP lists: no such file or directory" ∧
    (mixedFilter.Provision (fun _ => testWorld)).1.Interval = Hour := by
  refine ⟨by decide, by decide, by decide, by decide⟩

/-! ## The dispenser on the lines of a block -/

theorem caddyfile.NextArg_same_line (cur : caddyfile.Token) (c : List caddyfile.Token)
    (a : Str) (rest : List caddyfile.Token) (nest : Int) (ha : a ≠ "\x7b".toList) :
    caddyfile.Dispenser.NextArg
        { consumed := cur :: c, rest := { Text := a, Line := cur.Line } :: rest,
          nesting := nest } =
      (true, { consumed := { Text := a, Line := cur.Line } :: cur :: c, rest := rest,
               nesting := nest }) := by
  have hline : caddyfile.isNextOnNewLine cur { Text := a, Line := cur.Line } = false := by
    simp [caddyfile.isNextOnNewLine]
  simp only [caddyfile.Dispenser.NextArg, caddyfile.Dispenser.nextOnSameLine, hline,
    Bool.not_false, if_true, caddyfile.Dispenser.Val, ha, if_false]

theorem caddyfile.NextArg_line_end (cur : caddyfile.Token) (c tail : List caddyfile.Token)
    (nest : Int) (hcur : cur.NumLineBreaks = 0)
    (htail : ∀ t, tail.head? = some t → cur.Line < t.Line) :
    caddyfile.Dispenser.NextArg { consumed := cur :: c, rest := tail, nesting := nest } =
      (false, { consumed := cur :: c, rest := tail, nesting := nest }) := by
  cases tail with
  | nil => rfl
  | cons t tail =>
    have hline : caddyfile.isNextOnNewLine cur t = true := by
      have := htail t rfl
      simp only [caddyfile.isNextOnNewLine, hcur, decide_eq_true_eq]
      omega
    simp only [caddyfile.Dispenser.NextArg, caddyfile.Dispenser.nextOnSameLine, hline,
      Bool.not_true, Bool.false_eq_true, if_false]

theorem caddyfile.NumLineBreaks_zero (a : Str) (n : Nat) (h : Char.ofNat 10 ∉ a) :
    caddyfile.Token.NumLineBreaks { Text := a, Line := n } = 0 := by
  simp only [caddyfile.Token.NumLineBreaks]
  exact List.count_eq_zero.mpr h

/-- `RemainingArgs` takes the tokens of the line and stops at the end of the line. -/
theorem caddyfile.remainingArgsLoop_spec (args : List Str) (cur : caddyfile.Token)
    (c tail : List caddyfile.Token) (nest : Int) (acc : List Str) (fuel : Nat)
    (hcur : cur.NumLineBreaks = 0)
    (hargs : ∀ a ∈ args, a ≠ "\x7b".toList ∧ Char.ofNat 10 ∉ a)
    (htail : ∀ t, tail.head? = some t → cur.Line < t.Line)
    (hfuel : args.length ≤ fuel) :
    ∃ consumed,
      caddyfile.Dispenser.remainingArgsLoop fuel
          { consumed := cur :: c,
            rest := args.map (fun a => { Text := a, Line := cur.Line }) ++ tail,
            nesting := nest } acc =
        (acc ++ args, { consumed := consumed, rest := tail, nesting := nest }) := by
  induction args generalizing cur c acc fuel with
  | nil =>
    simp only [List.map_nil, List.nil_append, List.append_nil]
    have hend := caddyfile.NextArg_line_end cur c tail nest hcur htail
    cases fuel with
    | zero => exact ⟨cur :: c, by simp only [caddyfile.Dispenser.remainingArgsLoop, hend]⟩
    | succ fuel => exact ⟨cur :: c, by simp only [caddyfile.Dispenser.remainingArgsLoop, hend]⟩
  | cons a as ih =>
    cases fuel with
    | zero => simp at hfuel
    | succ fuel =>
      have ha := hargs a (by simp)
      have hstep := caddyfile.NextArg_same_line cur c a
        (as.map (fun a => { Text := a, Line := cur.Line }) ++ tail) nest ha.1
      obtain ⟨consumed, hrest⟩ := ih { Text := a, Line := cur.Line } (cur :: c)
        (acc ++ [a]) fuel (caddyfile.NumLineBreaks_zero a _ ha.2)
        (fun x hx => hargs x (by simp [hx])) htail (by simpa using hfuel)
      refine ⟨consumed, ?_⟩
      simp only [List.map_cons, List.cons_append, caddyfile.Dispenser.remainingArgsLoop, hstep,
        caddyfile.Dispenser.Val]
      rw [hrest]
      simp

theorem caddyfile.RemainingArgs_spec (args : List Str) (cur : caddyfile.Token)
    (c tail : List caddyfile.Token) (nest : Int)
    (hcur : cur.NumLineBreaks = 0)
    (hargs : ∀ a ∈ args, a ≠ "\x7b".toList ∧ Char.ofNat 10 ∉ a)
    (htail : ∀ t, tail.head? = some t → cur.Line < t.Line) :
    ∃ consumed,
      caddyfile.Dispenser.RemainingArgs
          { consumed := cur :: c,
            rest := args.map (fun a => { Text := a, Line := cur.Line }) ++ tail,
            nesting := nest } =
        (args, { consumed := consumed, rest := tail, nesting := nest }) := by
  obtain ⟨consumed, h⟩ := caddyfile.remainingArgsLoop_spec args cur c tail nest [] 
    (args.map (fun a => ({ Text := a, Line := cur.Line } : caddyfile.Token)) ++ tail).length
    hcur hargs htail (by simp)
  exact ⟨consumed, by simpa [caddyfile.Dispenser.RemainingArgs] using h⟩

/-- Inside the block, `NextBlock(0)` moves to the first token of the next line when it is
not a brace. -/
theorem caddyfile.NextBlock_enter (consumed : List caddyfile.Token) (t : caddyfile.Token)
    (rest : List caddyfile.Token) (h1 : t.Text ≠ "\x7d".toList) (h2 : t.Text ≠ "\x7b".toList) :
    caddyfile.Dispenser.NextBlock { consumed := consumed, rest := t :: rest, nesting := 1 } 0 =
      (true, { consumed := t :: consumed, rest := rest, nesting := 1 }) := by
  simp only [caddyfile.Dispenser.NextBlock, caddyfile.Dispenser.Next,
    caddyfile.Dispenser.braceStep, caddyfile.Dispenser.Val, h1, h2, if_false]
  simp

/-- Inside the block, `NextBlock(0)` ends the loop at the closing brace that ends the
tokens. -/
theorem caddyfile.NextBlock_close (consumed : List caddyfile.Token) (n : Nat) :
    caddyfile.Dispenser.NextBlock
        { consumed := consumed, rest := [{ Text := "\x7d".toList, Line := n }], nesting := 1 } 0 =
      (false, { consumed := { Text := "\x7d".toList, Line := n } :: consumed, rest := [],
                nesting := 0 }) := by
  simp [caddyfile.Dispenser.NextBlock, caddyfile.Dispenser.Next,
    caddyfile.Dispenser.braceStep, caddyfile.Dispenser.Val, caddyfile.Dispenser.nextOnSameLine]
/-- The `switch` of `UnmarshalCaddyfile` on a well-formed line does what `applyLine` says
and leaves the cursor at the end of the line. -/
theorem unmarshalSubdirective_wellFormed (pd : Str → Except Error Int) (filter : IPFilter)
    (l : SubLine) (n : Nat) (c tail : List caddyfile.Token) (hwf : l.WellFormed pd)
    (htail : ∀ t, tail.head? = some t → n < t.Line) :
    ∃ consumed,
      unmarshalSubdirective pd filter
          { consumed := { Text := l.name, Line := n } :: c,
            rest := l.args.map (fun a => { Text := a, Line := n }) ++ tail, nesting := 1 } =
        (applyLine pd filter l, { consumed := consumed, rest := tail, nesting := 1 }, none) := by
  obtain ⟨hargs, hkind⟩ := hwf
  rcases hkind with ⟨hname, x, v, hx, hpd⟩ | hname | ⟨hname, hnil⟩
  · -- interval and timeout
    have hxb : x ≠ "\x7b".toList := (hargs x (by rw [hx]; simp)).1
    have hstep : ∀ name : Str,
        caddyfile.Dispenser.NextArg
            { consumed := { Text := name, Line := n } :: c,
              rest := { Text := x, Line := n } :: tail, nesting := 1 } =
          (true, { consumed := { Text := x, Line := n } :: { Text := name, Line := n } :: c,
                   rest := tail, nesting := 1 }) :=
      fun name => caddyfile.NextArg_same_line { Text := name, Line := n } c x tail 1 hxb
    rcases hname with hname | hname
    · refine ⟨{ Text := x, Line := n } :: { Text := "interval".toList, Line := n } :: c, ?_⟩
      simp only [unmarshalSubdirective, caddyfile.Dispenser.Val, hname, hx, List.map_cons,
        List.map_nil, List.cons_append, List.nil_append, if_true, hstep, hpd, applyLine,
        durationArg]
    · refine ⟨{ Text := x, Line := n } :: { Text := "timeout".toList, Line := n } :: c, ?_⟩
      simp only [unmarshalSubdirective, caddyfile.Dispenser.Val, hname, hx, List.map_cons,
        List.map_nil, List.cons_append, List.nil_append, hstep, hpd, applyLine, durationArg]
      simp
  · -- allow and deny
    rcases hname with hname | hname
    · obtain ⟨consumed, hrem⟩ := caddyfile.RemainingArgs_spec l.args
        { Text := "allow".toList, Line := n } c tail 1
        (caddyfile.NumLineBreaks_zero _ n (by decide)) hargs htail
      refine ⟨consumed, ?_⟩
      simp only [unmarshalSubdirective, caddyfile.Dispenser.Val, hname, hrem, applyLine]
      simp
    · obtain ⟨consumed, hrem⟩ := caddyfile.RemainingArgs_spec l.args
        { Text := "deny".toList, Line := n } c tail 1
        (caddyfile.NumLineBreaks_zero _ n (by decide)) hargs htail
      refine ⟨consumed, ?_⟩
      simp only [unmarshalSubdirective, caddyfile.Dispenser.Val, hname, hrem, applyLine]
      simp
  · -- trust flags
    rcases hname with hname | hname
    · refine ⟨{ Text := "trust_x_forwarded_for".toList, Line := n } :: c, ?_⟩
      simp only [unmarshalSubdirective, caddyfile.Dispenser.Val, hname, hnil, List.map_nil,
        List.nil_append, applyLine]
      simp
    · refine ⟨{ Text := "trust_x_real_ip".toList, Line := n } :: c, ?_⟩
      simp only [unmarshalSubdirective, caddyfile.Dispenser.Val, hname, hnil, List.map_nil,
        List.nil_append, applyLine]
      simp

theorem unmarshalSubdirective_unrecognized (pd : Str → Except Error Int) (filter : IPFilter)
    (d : caddyfile.Dispenser)
    (h : d.Val ∉ ["interval".toList, "timeout".toList, "allow".toList, "deny".toList,
      "trust_x_forwarded_for".toList, "trust_x_real_ip".toList, "\x7b".toList, "\x7d".toList]) :
    unmarshalSubdirective pd filter d =
      (filter, d, some ("unrecognized subdirective '" ++ String.mk d.Val ++ "'")) := by
  simp only [List.mem_cons, List.mem_singleton, List.not_mem_nil, or_false, not_or] at h
  obtain ⟨h1, h2, h3, h4, h5, h6, _, _⟩ := h
  simp only [unmarshalSubdirective, h1, h2, h3, h4, h5, h6, if_false]

theorem SubLine.WellFormed.name_not_brace {pd : Str → Except Error Int} {l : SubLine}
    (h : l.WellFormed pd) : l.name ≠ "\x7d".toList ∧ l.name ≠ "\x7b".toList := by
  obtain ⟨_, hk⟩ := h
  have hmem : l.name ∈ ["interval".toList, "timeout".toList, "allow".toList, "deny".toList,
      "trust_x_forwarded_for".toList, "trust_x_real_ip".toList] := by
    simp only [List.mem_cons, List.mem_singleton, List.not_mem_nil, or_false]
    tauto
  have hall : ∀ s ∈ ["interval".toList, "timeout".toList, "allow".toList, "deny".toList,
      "trust_x_forwarded_for".toList, "trust_x_real_ip".toList],
      s ≠ "\x7d".toList ∧ s ≠ "\x7b".toList := by decide
  exact hall l.name hmem
theorem bodyTokens_head_line (n : Nat) (ls : List SubLine) (tail : List caddyfile.Token)
    (htail : ∀ t, tail.head? = some t → lastLine n ls < t.Line) :
    ∀ t, (bodyTokens n ls ++ tail).head? = some t → n < t.Line := by
  intro t ht
  cases ls with
  | nil => exact htail t (by simpa [bodyTokens] using ht)
  | cons l ls =>
    simp only [bodyTokens, lineTokens, List.cons_append, List.head?_cons,
      Option.some.injEq] at ht
    rw [← ht]
    simp only
    omega

theorem length_le_bodyTokens (n : Nat) (ls : List SubLine) :
    ls.length ≤ (bodyTokens n ls).length := by
  induction ls generalizing n with
  | nil => simp [bodyTokens]
  | cons l ls ih =>
    have := ih (n + l.gap + 1)
    simp only [bodyTokens, lineTokens, List.length_append, List.length_cons, List.length_map]
    omega

theorem bodyTokens_append (n : Nat) (xs ys : List SubLine) :
    bodyTokens n (xs ++ ys) = bodyTokens n xs ++ bodyTokens (lastLine n xs) ys := by
  induction xs generalizing n with
  | nil => simp [bodyTokens, lastLine]
  | cons l xs ih =>
    simp only [List.cons_append, bodyTokens, lastLine, List.append_assoc]
    exact congrArg _ (ih (n + l.gap + 1))

/-- The inner loop from the end of a line inside the block: the well-formed lines that
follow are applied in order, and what comes after them decides how the loop ends. -/
theorem unmarshalBlock_lines (pd : Str → Except Error Int) (ls : List SubLine)
    (tail : List caddyfile.Token) (E : Option Error) (P : caddyfile.Dispenser → Prop)
    (hwf : ∀ l ∈ ls, l.WellFormed pd) (n : Nat)
    (htailLine : ∀ t, tail.head? = some t → lastLine n ls < t.Line)
    (htail : ∀ (f : IPFilter) (consumed : List caddyfile.Token) (k : Nat),
      ∃ dE, unmarshalBlock pd (k + 1) f { consumed := consumed, rest := tail, nesting := 1 } =
        some (f, dE, E) ∧ P dE)
    (filter : IPFilter) (consumed : List caddyfile.Token) (fuel : Nat)
    (hfuel : ls.length + 1 ≤ fuel) :
    ∃ dE, unmarshalBlock pd fuel filter
        { consumed := consumed, rest := bodyTokens n ls ++ tail, nesting := 1 } =
      some (ls.foldl (applyLine pd) filter, dE, E) ∧ P dE := by
  induction ls generalizing n filter consumed fuel with
  | nil =>
    cases fuel with
    | zero => simp at hfuel
    | succ k => simpa [bodyTokens] using htail filter consumed k
  | cons l ls ih =>
    cases fuel with
    | zero => simp at hfuel
    | succ fuel =>
      have hl := hwf l (by simp)
      have henter := caddyfile.NextBlock_enter consumed
        { Text := l.name, Line := n + l.gap + 1 }
        (l.args.map (fun a => { Text := a, Line := n + l.gap + 1 }) ++
          (bodyTokens (n + l.gap + 1) ls ++ tail))
        hl.name_not_brace.1 hl.name_not_brace.2
      obtain ⟨consumed', hsub⟩ := unmarshalSubdirective_wellFormed pd filter l (n + l.gap + 1)
        consumed (bodyTokens (n + l.gap + 1) ls ++ tail) hl
        (bodyTokens_head_line _ ls tail htailLine)
      obtain ⟨dE, hrest, hP⟩ := ih (fun x hx => hwf x (by simp [hx])) (n + l.gap + 1)
        htailLine (applyLine pd filter l) consumed' fuel (by simpa using hfuel)
      refine ⟨dE, ?_, hP⟩
      simp only [bodyTokens, lineTokens, List.cons_append, List.append_assoc, unmarshalBlock,
        henter, hsub, List.foldl_cons]
      exact hrest

/-- From the directive token, `NextBlock(0)` steps over the opening brace on the same line
and enters the block unless the next token closes it. -/
theorem caddyfile.NextBlock_open (t0 : caddyfile.Token) (rest : List caddyfile.Token) :
    caddyfile.Dispenser.NextBlock
        { consumed := [{ Text := "ip_filter".toList, Line := 1 }],
          rest := { Text := "\x7b".toList, Line := 1 } :: t0 :: rest, nesting := 0 } 0 =
      if t0.Text = "\x7d".toList then
        (false, { consumed := [t0, { Text := "\x7b".toList, Line := 1 },
                    { Text := "ip_filter".toList, Line := 1 }],
                  rest := rest, nesting := 0 })
      else
        (true, { consumed := [t0, { Text := "\x7b".toList, Line := 1 },
                   { Text := "ip_filter".toList, Line := 1 }],
                 rest := rest, nesting := 1 }) := by
  have hline : caddyfile.isNextOnNewLine { Text := "ip_filter".toList, Line := 1 }
      { Text := "\x7b".toList, Line := 1 } = false := by decide
  simp only [caddyfile.Dispenser.NextBlock, caddyfile.Dispenser.nextOnSameLine, hline,
    caddyfile.Dispenser.Val, caddyfile.Dispenser.Next]
  simp

/-- The inner loop from the directive token: the well-formed lines of the block are
applied in order, and what comes after them decides how the loop ends. -/
theorem unmarshalBlock_block (pd : Str → Except Error Int) (ls : List SubLine)
    (tk : caddyfile.Token) (tail : List caddyfile.Token) (E : Option Error)
    (P : caddyfile.Dispenser → Prop)
    (hwf : ∀ l ∈ ls, l.WellFormed pd)
    (htailLine : lastLine 1 ls < tk.Line)
    (htail : ∀ (f : IPFilter) (consumed : List caddyfile.Token) (k : Nat),
      ∃ dE, unmarshalBlock pd (k + 1) f
          { consumed := consumed, rest := tk :: tail, nesting := 1 } =
        some (f, dE, E) ∧ P dE)
    (hopen : ∀ (f : IPFilter) (k : Nat),
      ∃ dE, unmarshalBlock pd (k + 1) f
          { consumed := [{ Text := "ip_filter".toList, Line := 1 }],
            rest := { Text := "\x7b".toList, Line := 1 } :: tk :: tail, nesting := 0 } =
        some (f, dE, E) ∧ P dE)
    (filter : IPFilter) (fuel : Nat) (hfuel : ls.length + 1 ≤ fuel) :
    ∃ dE, unmarshalBlock pd fuel filter
        { consumed := [{ Text := "ip_filter".toList, Line := 1 }],
          rest := { Text := "\x7b".toList, Line := 1 } :: (bodyTokens 1 ls ++ tk :: tail),
          nesting := 0 } =
      some (ls.foldl (applyLine pd) filter, dE, E) ∧ P dE := by
  cases ls with
  | nil =>
    cases fuel with
    | zero => simp at hfuel
    | succ k => simpa [bodyTokens] using hopen filter k
  | cons l ls =>
    cases fuel with
    | zero => simp at hfuel
    | succ fuel =>
      have hl := hwf l (by simp)
      have hopen' := caddyfile.NextBlock_open { Text := l.name, Line := 1 + l.gap + 1 }
        (l.args.map (fun a => { Text := a, Line := 1 + l.gap + 1 }) ++
          (bodyTokens (1 + l.gap + 1) ls ++ tk :: tail))
      rw [if_neg hl.name_not_brace.1] at hopen'
      have hline : ∀ t, (tk :: tail).head? = some t → lastLine (1 + l.gap + 1) ls < t.Line := by
        intro t ht
        simp only [List.head?_cons, Option.some.injEq] at ht
        rw [← ht]
        exact htailLine
      obtain ⟨consumed', hsub⟩ := unmarshalSubdirective_wellFormed pd filter l (1 + l.gap + 1)
        [{ Text := "\x7b".toList, Line := 1 }, { Text := "ip_filter".toList, Line := 1 }]
        (bodyTokens (1 + l.gap + 1) ls ++ tk :: tail) hl
        (bodyTokens_head_line _ ls (tk :: tail) hline)
      obtain ⟨dE, hrest, hP⟩ := unmarshalBlock_lines pd ls (tk :: tail) E P
        (fun x hx => hwf x (by simp [hx])) (1 + l.gap + 1) hline htail
        (applyLine pd filter l) consumed' fuel (by simpa using hfuel)
      refine ⟨dE, ?_, hP⟩
      simp only [bodyTokens, lineTokens, List.cons_append, List.append_assoc, unmarshalBlock,
        hopen', hsub, List.foldl_cons]
      exact hrest
/-- The outer loop: a directive whose block ends the input is read in one turn. -/
theorem IPFilter.UnmarshalCaddyfile_of_block (pd : Str → Except Error Int)
    (filter result : IPFilter) (ipf : caddyfile.Token) (tokens : List caddyfile.Token)
    (E : Option Error) (dE : caddyfile.Dispenser)
    (h : unmarshalBlock pd (tokens.length + 1) filter
        { consumed := [ipf], rest := tokens, nesting := 0 } = some (result, dE, E))
    (hE : E = none → dE.rest = []) :
    IPFilter.UnmarshalCaddyfile pd filter (caddyfile.NewDispenser (ipf :: tokens)) =
      some (result, E) := by
  cases E with
  | some err =>
    simp only [IPFilter.UnmarshalCaddyfile, caddyfile.NewDispenser, List.length_cons,
      unmarshalLoop, caddyfile.Dispenser.Next, h]
  | none =>
    have hrest := hE rfl
    have hnext : dE.Next = (false, dE) := by
      simp only [caddyfile.Dispenser.Next, hrest]
    simp only [IPFilter.UnmarshalCaddyfile, caddyfile.NewDispenser, List.length_cons,
      unmarshalLoop, caddyfile.Dispenser.Next, h, hrest]

/-- A block of well-formed lines is read without error, and each line does to the filter
what `applyLine` says. -/
theorem IPFilter.UnmarshalCaddyfile_wellFormed (pd : Str → Except Error Int)
    (filter : IPFilter) (lines : List SubLine) (hwf : ∀ l ∈ lines, l.WellFormed pd) :
    IPFilter.UnmarshalCaddyfile pd filter (caddyfile.NewDispenser (blockTokens lines)) =
      some (lines.foldl (applyLine pd) filter, none) := by
  have hclose : ∀ (f : IPFilter) (consumed : List caddyfile.Token) (k : Nat),
      ∃ dE, unmarshalBlock pd (k + 1) f
          { consumed := consumed,
            rest := [{ Text := "\x7d".toList, Line := lastLine 1 lines + 1 }], nesting := 1 } =
        some (f, dE, none) ∧ dE.rest = [] := by
    intro f consumed k
    refine ⟨⟨{ Text := "\x7d".toList, Line := lastLine 1 lines + 1 } :: consumed, [], 0⟩, ?_, rfl⟩
    simp only [unmarshalBlock, caddyfile.NextBlock_close]
  have hopen : ∀ (f : IPFilter) (k : Nat),
      ∃ dE, unmarshalBlock pd (k + 1) f
          { consumed := [{ Text := "ip_filter".toList, Line := 1 }],
            rest := [{ Text := "\x7b".toList, Line := 1 },
              { Text := "\x7d".toList, Line := lastLine 1 lines + 1 }], nesting := 0 } =
        some (f, dE, none) ∧ dE.rest = [] := by
    intro f k
    refine ⟨⟨[{ Text := "\x7d".toList, Line := lastLine 1 lines + 1 },
      { Text := "\x7b".toList, Line := 1 }, { Text := "ip_filter".toList, Line := 1 }], [], 0⟩,
      ?_, rfl⟩
    simp only [unmarshalBlock, caddyfile.NextBlock_open, if_true]
  obtain ⟨dE, h, hrest⟩ := unmarshalBlock_block pd lines
    { Text := "\x7d".toList, Line := lastLine 1 lines + 1 } [] none (fun d => d.rest = [])
    hwf (Nat.lt_succ_self _) hclose hopen filter
    (({ Text := "\x7b".toList, Line := 1 } ::
      (bodyTokens 1 lines ++ [{ Text := "\x7d".toList, Line := lastLine 1 lines + 1 }])).length + 1)
    (by
      have := length_le_bodyTokens 1 lines
      simp only [List.length_cons, List.length_append, List.length_nil]
      omega)
  exact IPFilter.UnmarshalCaddyfile_of_block pd filter _ _ _ none dE h (fun _ => hrest)

/-- A block whose first line that is not well-formed starts with an unknown word: the
lines before it are applied and the call fails on that word. -/
theorem IPFilter.UnmarshalCaddyfile_unrecognized (pd : Str → Except Error Int)
    (filter : IPFilter) (pre : List SubLine) (bad : SubLine) (post : List SubLine)
    (hwf : ∀ l ∈ pre, l.WellFormed pd) (hbad : bad.Unrecognized) :
    IPFilter.UnmarshalCaddyfile pd filter
        (caddyfile.NewDispenser (blockTokens (pre ++ bad :: post))) =
      some (pre.foldl (applyLine pd) filter,
        some ("unrecognized subdirective '" ++ String.mk bad.name ++ "'")) := by
  have hname : bad.name ≠ "\x7d".toList ∧ bad.name ≠ "\x7b".toList := by
    unfold SubLine.Unrecognized at hbad
    simp only [List.mem_cons, List.mem_singleton, List.not_mem_nil, or_false, not_or] at hbad
    exact ⟨hbad.2.2.2.2.2.2.2, hbad.2.2.2.2.2.2.1⟩
  generalize htk : ({ Text := bad.name, Line := lastLine 1 pre + bad.gap + 1 } :
    caddyfile.Token) = tk
  generalize htl : bad.args.map (fun a => ({ Text := a, Line := lastLine 1 pre + bad.gap + 1 } :
      caddyfile.Token)) ++
    (bodyTokens (lastLine 1 pre + bad.gap + 1) post ++
      [{ Text := "\x7d".toList, Line := lastLine 1 (pre ++ bad :: post) + 1 }]) = tail
  have hlayout : blockTokens (pre ++ bad :: post) =
      { Text := "ip_filter".toList, Line := 1 } :: { Text := "\x7b".toList, Line := 1 } ::
        (bodyTokens 1 pre ++ tk :: tail) := by
    rw [← htk, ← htl]
    simp only [blockTokens, bodyTokens_append, bodyTokens, lineTokens, List.cons_append,
      List.append_assoc]
  have htext : tk.Text = bad.name := by rw [← htk]
  have hline : tk.Line = lastLine 1 pre + bad.gap + 1 := by rw [← htk]
  have hsub : ∀ (f : IPFilter) (consumed : List caddyfile.Token),
      unmarshalSubdirective pd f { consumed := tk :: consumed, rest := tail, nesting := 1 } =
        (f, { consumed := tk :: consumed, rest := tail, nesting := 1 },
          some ("unrecognized subdirective '" ++ String.mk bad.name ++ "'")) := by
    intro f consumed
    have h := unmarshalSubdirective_unrecognized pd f
      { consumed := tk :: consumed, rest := tail, nesting := 1 }
      (by simpa only [caddyfile.Dispenser.Val, htext] using hbad)
    simpa only [caddyfile.Dispenser.Val, htext] using h
  have hclose : ∀ (f : IPFilter) (consumed : List caddyfile.Token) (k : Nat),
      ∃ dE, unmarshalBlock pd (k + 1) f
          { consumed := consumed, rest := tk :: tail, nesting := 1 } =
        some (f, dE, some ("unrecognized subdirective '" ++ String.mk bad.name ++ "'")) ∧
          True := by
    intro f consumed k
    refine ⟨⟨tk :: consumed, tail, 1⟩, ?_, trivial⟩
    have henter := caddyfile.NextBlock_enter consumed tk tail (htext ▸ hname.1)
      (htext ▸ hname.2)
    simp only [unmarshalBlock, henter, hsub]
  have hopen : ∀ (f : IPFilter) (k : Nat),
      ∃ dE, unmarshalBlock pd (k + 1) f
          { consumed := [{ Text := "ip_filter".toList, Line := 1 }],
            rest := { Text := "\x7b".toList, Line := 1 } :: tk :: tail, nesting := 0 } =
        some (f, dE, some ("unrecognized subdirective '" ++ String.mk bad.name ++ "'")) ∧
          True := by
    intro f k
    refine ⟨⟨[tk, { Text := "\x7b".toList, Line := 1 },
      { Text := "ip_filter".toList, Line := 1 }], tail, 1⟩, ?_, trivial⟩
    have henter := caddyfile.NextBlock_open tk tail
    rw [if_neg (htext ▸ hname.1)] at henter
    simp only [unmarshalBlock, henter, hsub]
  obtain ⟨dE, h, -⟩ := unmarshalBlock_block pd pre tk tail _ (fun _ => True)
    hwf (by rw [hline]; omega) hclose hopen filter
    (({ Text := "\x7b".toList, Line := 1 } :: (bodyTokens 1 pre ++ tk :: tail)).length + 1)
    (by
      have := length_le_bodyTokens 1 pre
      simp only [List.length_cons, List.length_append]
      omega)
  rw [hlayout]
  exact IPFilter.UnmarshalCaddyfile_of_block pd filter _ _ _ _ dE h (fun hE => by cases hE)
theorem applyLine_Rules (pd : Str → Except Error Int) (filter : IPFilter) (l : SubLine) :
    (applyLine pd filter l).Rules = filter.Rules ++ (ruleLines [l]).map (fun l =>
      { Allow := decide (l.name = "allow".toList), Args := l.args, ips := ∅,
        networks := [] }) := by
  by_cases h1 : l.name = "interval".toList
  · simp [applyLine, ruleLines, h1]
  by_cases h2 : l.name = "timeout".toList
  · simp [applyLine, ruleLines, h2]
  by_cases h3 : l.name = "allow".toList
  · simp [applyLine, ruleLines, h3, NewRule]
  by_cases h4 : l.name = "deny".toList
  · simp [applyLine, ruleLines, h4, NewRule]
  by_cases h5 : l.name = "trust_x_forwarded_for".toList
  · simp [applyLine, ruleLines, h5]
  by_cases h6 : l.name = "trust_x_real_ip".toList
  · simp [applyLine, ruleLines, h6]
  simp only [applyLine, ruleLines, if_neg h1, if_neg h2, if_neg h3, if_neg h4, if_neg h5,
    if_neg h6, List.filter_cons, h3, h4, or_self, decide_False]
  simp

theorem foldl_applyLine_Rules (pd : Str → Except Error Int) (lines : List SubLine)
    (filter : IPFilter) :
    (lines.foldl (applyLine pd) filter).Rules = filter.Rules ++ (ruleLines lines).map (fun l =>
      { Allow := decide (l.name = "allow".toList), Args := l.args, ips := ∅,
        networks := [] }) := by
  induction lines generalizing filter with
  | nil => simp [ruleLines]
  | cons l ls ih =>
    rw [List.foldl_cons, ih, applyLine_Rules, List.append_assoc, ← List.map_append]
    simp only [ruleLines, ← List.filter_append, List.singleton_append]

theorem applyLine_TrustXForwardedFor (pd : Str → Except Error Int) (filter : IPFilter)
    (l : SubLine) :
    (applyLine pd filter l).TrustXForwardedFor = true ↔
      filter.TrustXForwardedFor = true ∨ l.name = "trust_x_forwarded_for".toList := by
  by_cases h1 : l.name = "interval".toList
  · simp [applyLine, h1]
  by_cases h2 : l.name = "timeout".toList
  · simp [applyLine, h2]
  by_cases h3 : l.name = "allow".toList
  · simp [applyLine, h3]
  by_cases h4 : l.name = "deny".toList
  · simp [applyLine, h4]
  by_cases h5 : l.name = "trust_x_forwarded_for".toList
  · simp [applyLine, h5]
  by_cases h6 : l.name = "trust_x_real_ip".toList
  · simp [applyLine, h6]
  simp only [applyLine, if_neg h1, if_neg h2, if_neg h3, if_neg h4, if_neg h5, if_neg h6]
  simp only [h5, h6, or_false]

theorem applyLine_TrustXRealIP (pd : Str → Except Error Int) (filter : IPFilter)
    (l : SubLine) :
    (applyLine pd filter l).TrustXRealIP = true ↔
      filter.TrustXRealIP = true ∨ l.name = "trust_x_real_ip".toList := by
  by_cases h1 : l.name = "interval".toList
  · simp [applyLine, h1]
  by_cases h2 : l.name = "timeout".toList
  · simp [applyLine, h2]
  by_cases h3 : l.name = "allow".toList
  · simp [applyLine, h3]
  by_cases h4 : l.name = "deny".toList
  · simp [applyLine, h4]
  by_cases h5 : l.name = "trust_x_forwarded_for".toList
  · simp [applyLine, h5]
  by_cases h6 : l.name = "trust_x_real_ip".toList
  · simp [applyLine, h6]
  simp only [applyLine, if_neg h1, if_neg h2, if_neg h3, if_neg h4, if_neg h5, if_neg h6]
  simp only [h5, h6, or_false]

theorem foldl_applyLine_TrustXForwardedFor (pd : Str → Except Error Int)
    (lines : List SubLine) (filter : IPFilter) :
    (lines.foldl (applyLine pd) filter).TrustXForwardedFor = true ↔
      filter.TrustXForwardedFor = true ∨
        ∃ l ∈ lines, l.name = "trust_x_forwarded_for".toList := by
  induction lines generalizing filter with
  | nil => simp
  | cons l ls ih =>
    rw [List.foldl_cons, ih, applyLine_TrustXForwardedFor]
    simp only [List.mem_cons, exists_eq_or_imp, or_assoc]

theorem foldl_applyLine_TrustXRealIP (pd : Str → Except Error Int)
    (lines : List SubLine) (filter : IPFilter) :
    (lines.foldl (applyLine pd) filter).TrustXRealIP = true ↔
      filter.TrustXRealIP = true ∨ ∃ l ∈ lines, l.name = "trust_x_real_ip".toList := by
  induction lines generalizing filter with
  | nil => simp
  | cons l ls ih =>
    rw [List.foldl_cons, ih, applyLine_TrustXRealIP]
    simp only [List.mem_cons, exists_eq_or_imp, or_assoc]

theorem applyLine_Interval_of_ne (pd : Str → Except Error Int) (filter : IPFilter)
    (l : SubLine) (h : l.name ≠ "interval".toList) :
    (applyLine pd filter l).Interval = filter.Interval := by
  by_cases h2 : l.name = "timeout".toList
  · simp [applyLine, h2]
  by_cases h3 : l.name = "allow".toList
  · simp [applyLine, h3]
  by_cases h4 : l.name = "deny".toList
  · simp [applyLine, h4]
  by_cases h5 : l.name = "trust_x_forwarded_for".toList
  · simp [applyLine, h5]
  by_cases h6 : l.name = "trust_x_real_ip".toList
  · simp [applyLine, h6]
  simp only [applyLine, if_neg h, if_neg h2, if_neg h3, if_neg h4, if_neg h5, if_neg h6]

theorem applyLine_Timeout_of_ne (pd : Str → Except Error Int) (filter : IPFilter)
    (l : SubLine) (h : l.name ≠ "timeout".toList) :
    (applyLine pd filter l).Timeout = filter.Timeout := by
  by_cases h1 : l.name = "interval".toList
  · simp [applyLine, h1]
  by_cases h3 : l.name = "allow".toList
  · simp [applyLine, h3]
  by_cases h4 : l.name = "deny".toList
  · simp [applyLine, h4]
  by_cases h5 : l.name = "trust_x_forwarded_for".toList
  · simp [applyLine, h5]
  by_cases h6 : l.name = "trust_x_real_ip".toList
  · simp [applyLine, h6]
  simp only [applyLine, if_neg h, if_neg h1, if_neg h3, if_neg h4, if_neg h5, if_neg h6]

theorem foldl_applyLine_Interval_of_ne (pd : Str → Except Error Int) (lines : List SubLine)
    (filter : IPFilter) (h : ∀ l ∈ lines, l.name ≠ "interval".toList) :
    (lines.foldl (applyLine pd) filter).Interval = filter.Interval := by
  induction lines generalizing filter with
  | nil => rfl
  | cons l ls ih =>
    rw [List.foldl_cons, ih _ (fun x hx => h x (by simp [hx])),
      applyLine_Interval_of_ne pd filter l (h l (by simp))]

theorem foldl_applyLine_Timeout_of_ne (pd : Str → Except Error Int) (lines : List SubLine)
    (filter : IPFilter) (h : ∀ l ∈ lines, l.name ≠ "timeout".toList) :
    (lines.foldl (applyLine pd) filter).Timeout = filter.Timeout := by
  induction lines generalizing filter with
  | nil => rfl
  | cons l ls ih =>
    rw [List.foldl_cons, ih _ (fun x hx => h x (by simp [hx])),
      applyLine_Timeout_of_ne pd filter l (h l (by simp))]

theorem foldl_applyLine_Interval (pd : Str → Except Error Int) (filter : IPFilter)
    (init : List SubLine) (l : SubLine) (rest : List SubLine) (x : Str) (v : Int)
    (hname : l.name = "interval".toList) (hargs : l.args = [x]) (hv : pd x = .ok v)
    (hrest : ∀ l ∈ rest, l.name ≠ "interval".toList) :
    ((init ++ l :: rest).foldl (applyLine pd) filter).Interval = v := by
  rw [List.foldl_append, List.foldl_cons, foldl_applyLine_Interval_of_ne pd rest _ hrest]
  simp [applyLine, hname, durationArg, hargs, hv]

theorem foldl_applyLine_Timeout (pd : Str → Except Error Int) (filter : IPFilter)
    (init : List SubLine) (l : SubLine) (rest : List SubLine) (x : Str) (v : Int)
    (hname : l.name = "timeout".toList) (hargs : l.args = [x]) (hv : pd x = .ok v)
    (hrest : ∀ l ∈ rest, l.name ≠ "timeout".toList) :
    ((init ++ l :: rest).foldl (applyLine pd) filter).Timeout = v := by
  rw [List.foldl_append, List.foldl_cons, foldl_applyLine_Timeout_of_ne pd rest _ hrest]
  simp [applyLine, hname, durationArg, hargs, hv]

/-- C16: for every `ip_filter` block of well-formed subdirective lines,
`UnmarshalCaddyfile` returns no error and yields a filter whose rules are the rules it
had followed by one rule per `allow` or `deny` line in textual order, with `Allow` true
for `allow` and false for `deny`, `Args` the arguments of the line and empty active sets;
whose `Interval` and `Timeout` are the parsed durations of the last `interval` and
`timeout` lines, and unchanged without such a line; and whose trust flags are set exactly
when they were set before or their subdirective appears. A line with an unknown first word
after such lines makes the call fail with the error `unrecognized subdirective`. -/
theorem C16_unmarshal_well_formed_block (parseDuration : Str → Except Error Int)
    (filter : IPFilter) (lines : List SubLine) (bad : SubLine) (post : List SubLine)
    (hwf : ∀ l ∈ lines, l.WellFormed parseDuration) (hbad : bad.Unrecognized) :
    (∃ f, IPFilter.UnmarshalCaddyfile parseDuration filter
          (caddyfile.NewDispenser (blockTokens lines)) = some (f, none) ∧
        f.Rules = filter.Rules ++ (ruleLines lines).map (fun l =>
          { Allow := decide (l.name = "allow".toList), Args := l.args, ips := ∅,
            networks := [] }) ∧
        (∀ init l rest x, lines = init ++ l :: rest → l.name = "interval".toList →
          (∀ k ∈ rest, k.name ≠ "interval".toList) → l.args = [x] →
          parseDuration x = .ok f.Interval) ∧
        ((∀ l ∈ lines, l.name ≠ "interval".toList) → f.Interval = filter.Interval) ∧
        (∀ init l rest x, lines = init ++ l :: rest → l.name = "timeout".toList →
          (∀ k ∈ rest, k.name ≠ "timeout".toList) → l.args = [x] →
          parseDuration x = .ok f.Timeout) ∧
        ((∀ l ∈ lines, l.name ≠ "timeout".toList) → f.Timeout = filter.Timeout) ∧
        (f.TrustXForwardedFor = true ↔ filter.TrustXForwardedFor = true ∨
          ∃ l ∈ lines, l.name = "trust_x_forwarded_for".toList) ∧
        (f.TrustXRealIP = true ↔ filter.TrustXRealIP = true ∨
          ∃ l ∈ lines, l.name = "trust_x_real_ip".toList)) ∧
      ∃ f, IPFilter.UnmarshalCaddyfile parseDuration filter
          (caddyfile.NewDispenser (blockTokens (lines ++ bad :: post))) =
        some (f, some ("unrecognized subdirective '" ++ String.mk bad.name ++ "'")) := by
  have hdur : ∀ init l rest x, lines = init ++ l :: rest →
      (l.name = "interval".toList ∨ l.name = "timeout".toList) → l.args = [x] →
      ∃ v, parseDuration x = .ok v := by
    intro init l rest x hl hname hargs
    have hw := hwf l (by rw [hl]; simp)
    rcases hw.2 with ⟨_, y, v, hy, hv⟩ | h | ⟨_, h⟩
    · rw [hargs] at hy
      cases hy
      exact ⟨v, hv⟩
    · exfalso
      rcases hname with hn | hn <;> rcases h with h | h <;> rw [hn] at h <;>
        exact absurd h (by decide)
    · rw [hargs] at h
      cases h
  refine ⟨⟨_, IPFilter.UnmarshalCaddyfile_wellFormed parseDuration filter lines hwf,
    foldl_applyLine_Rules parseDuration lines filter, ?_,
    foldl_applyLine_Interval_of_ne parseDuration lines filter, ?_,
    foldl_applyLine_Timeout_of_ne parseDuration lines filter,
    foldl_applyLine_TrustXForwardedFor parseDuration lines filter,
    foldl_applyLine_TrustXRealIP parseDuration lines filter⟩,
    ⟨_, IPFilter.UnmarshalCaddyfile_unrecognized parseDuration filter lines bad post hwf hbad⟩⟩
  · intro init l rest x hl hname hrest hargs
    obtain ⟨v, hv⟩ := hdur init l rest x hl (Or.inl hname) hargs
    rw [hl, foldl_applyLine_Interval parseDuration filter init l rest x v hname hargs hv hrest]
    exact hv
  · intro init l rest x hl hname hrest hargs
    obtain ⟨v, hv⟩ := hdur init l rest x hl (Or.inr hname) hargs
    rw [hl, foldl_applyLine_Timeout parseDuration filter init l rest x v hname hargs hv hrest]
    exact hv

theorem C16_unmarshal_well_formed_block_witness :
    (∀ l ∈ testBlock, l.WellFormed testParseDuration) ∧ bogusLine.Unrecognized ∧
      (∃ f, IPFilter.UnmarshalCaddyfile testParseDuration emptyFilter
            (caddyfile.NewDispenser (blockTokens testBlock)) = some (f, none) ∧
          f.Rules =
            [{ Allow := false,
               Args := ["blockIPList.txt".toList, "blockIPList2.txt".toList],
               ips := ∅, networks := [] },
             { Allow := true,
               Args := ["allowIPList.txt".toList, "allowIPList2.txt".toList],
               ips := ∅, networks := [] }] ∧
          f.Interval = Hour ∧ f.Timeout = 10 * Second ∧
          f.TrustXForwardedFor = false ∧ f.TrustXRealIP = false) ∧
      ∃ f, IPFilter.UnmarshalCaddyfile testParseDuration emptyFilter
          (caddyfile.NewDispenser (blockTokens (testBlock ++ [bogusLine]))) =
        some (f, some "unrecognized subdirective 'bogus'") := by
  have hwf : ∀ l ∈ testBlock, l.WellFormed testParseDuration := by decide
  have hbad : bogusLine.Unrecognized := by decide
  obtain ⟨⟨f, hf, hrules, hint, -, htime, -, hxff, hxri⟩, hfail⟩ :=
    C16_unmarshal_well_formed_block testParseDuration emptyFilter testBlock bogusLine [] hwf
      hbad
  refine ⟨hwf, hbad, ⟨f, hf, ?_, ?_, ?_, ?_, ?_⟩, hfail⟩
  · rw [hrules]
    decide
  · have h := hint [] _ _ "1h".toList rfl rfl (by decide) rfl
    exact (Except.ok.inj h).symm
  · have h := htime [{ name := "interval".toList, args := ["1h".toList], gap := 0 }] _ _
      "10s".toList rfl rfl (by decide) rfl
    exact (Except.ok.inj h).symm
  · cases hv : f.TrustXForwardedFor
    · rfl
    · exact absurd (hxff.1 hv) (by decide)
  · cases hv : f.TrustXRealIP
    · rfl
    · exact absurd (hxri.1 hv) (by decide)

end caddyipfilter
